import Mathlib

/-!
Verification development for the archive-plugin backend (Python).

The Python sources under `backend/` are shallowly embedded: every Python
function relevant to the verified claims is translated into an executable
Lean definition operating on `String` / `List Char` / `List` / `Finset`
values, with external collaborators (filesystem, vector index, LLM oracle)
passed in as explicit parameters.  Machine-level details that the claims do
not depend on (bytes vs. text, unicode character classes beyond ASCII) are
modelled at the ASCII level.  Python floats are modelled as exact rationals.
-/

namespace ArchivePlugin

/-! ## Python string primitives (ASCII-level model) -/

/-- Python whitespace characters stripped by `str.strip()` (ASCII subset). -/
def pyIsSpace (c : Char) : Bool :=
  c = ' ' || c = '\t' || c = '\n' || c = '\x0d' || c = '\x0b' || c = '\x0c'

/-- Python `str.strip()` on a character list. -/
def pyStripList (s : List Char) : List Char :=
  ((s.dropWhile pyIsSpace).reverse.dropWhile pyIsSpace).reverse

/-- Python `str.replace(old, new)`: single left-to-right pass replacing
non-overlapping occurrences. -/
def pyReplaceAux (old new : List Char) : ℕ → List Char → List Char
  | 0, s => s
  | fuel + 1, s =>
    match s with
    | [] => []
    | c :: rest =>
      if old ≠ [] ∧ old.isPrefixOf (c :: rest) then
        new ++ pyReplaceAux old new fuel ((c :: rest).drop old.length)
      else
        c :: pyReplaceAux old new fuel rest

/-- Python `str.replace(old, new)` for nonempty `old` (fuel `s.length`
suffices: each step consumes at least one character). -/
def pyReplaceList (s old new : List Char) : List Char :=
  pyReplaceAux old new s.length s

/-- Python `sub in s` (contiguous substring test). -/
def pyContainsList (s sub : List Char) : Bool :=
  match s with
  | [] => sub.isEmpty
  | c :: rest => sub.isPrefixOf (c :: rest) || pyContainsList rest sub

/-- Python `str.split(sep)` for a single-character separator.
`"".split("/") = [""]`, and separators at the ends yield empty fields. -/
def pySplitChar (s : List Char) (sep : Char) : List (List Char) :=
  match s with
  | [] => [[]]
  | c :: rest =>
    let tail := pySplitChar rest sep
    if c = sep then
      [] :: tail
    else
      match tail with
      | [] => [[c]]
      | f :: fs => (c :: f) :: fs

/-- Python `sep.join(parts)` (here used for `"/"`-joins). -/
def pyJoinChar (parts : List (List Char)) (sep : Char) : List Char :=
  match parts with
  | [] => []
  | [p] => p
  | p :: rest => p ++ sep :: pyJoinChar rest sep

/-- ASCII `str.lower()`. -/
def pyLowerList (s : List Char) : List Char :=
  s.map Char.toLower

/-- Decimal digit character. -/
def decDigitChar (d : ℕ) : Char :=
  Char.ofNat (48 + d)

/-- Reversed decimal digit list of `n` (fuel-based, `fuel ≥ n` suffices). -/
def natDigitsRev (fuel n : ℕ) : List ℕ :=
  match fuel with
  | 0 => []
  | f + 1 => if n = 0 then [] else (n % 10) :: natDigitsRev f (n / 10)

/-- Python `str(n)` for a nonnegative integer. -/
def pyStrNat (n : ℕ) : String :=
  if n = 0 then "0" else String.mk (((natDigitsRev n n).reverse).map decDigitChar)

/-! ## POSIX path primitives (`os.path` for a "/" separator) -/

/-- `os.path.basename`: everything after the last `/`. -/
def basenameList (p : List Char) : List Char :=
  (p.reverse.takeWhile (fun c => c ≠ '/')).reverse

/-- `os.path.dirname`: `p[:rfind('/')+1]`, with trailing slashes stripped
unless the head consists only of slashes. -/
def dirnameList (p : List Char) : List Char :=
  let head := (p.reverse.dropWhile (fun c => c ≠ '/')).reverse
  if head ≠ [] ∧ head.any (fun c => c ≠ '/') then
    (head.reverse.dropWhile (fun c => c = '/')).reverse
  else
    head

/-- `os.path.splitext`: split at the last dot of the basename, unless all
characters of the basename before that dot are themselves dots. -/
def splitextList (p : List Char) : List Char × List Char :=
  let base := basenameList p
  let pre := p.take (p.length - base.length)
  let revBase := base.reverse
  let tail := revBase.takeWhile (fun c => c ≠ '.')
  if tail.length = base.length then
    (p, [])
  else
    let root := (revBase.drop (tail.length + 1)).reverse
    if root.any (fun c => c ≠ '.') then
      (pre ++ root, '.' :: tail.reverse)
    else
      (p, [])

/-- One step of `posixpath.normpath`'s component loop. -/
def normpathComps (absolute : Bool) : List (List Char) → List (List Char) → List (List Char)
  | acc, [] => acc
  | acc, comp :: rest =>
    if comp = [] ∨ comp = ['.'] then
      normpathComps absolute acc rest
    else if comp ≠ ['.', '.'] ∨ (¬ absolute ∧ acc = []) ∨
        (acc ≠ [] ∧ acc.getLast? = some ['.', '.']) then
      normpathComps absolute (acc ++ [comp]) rest
    else if acc ≠ [] then
      normpathComps absolute (acc.dropLast) rest
    else
      normpathComps absolute acc rest

/-- `posixpath.normpath` (the repeated-leading-slash special case included). -/
def normpathList (p : List Char) : List Char :=
  if p = [] then ['.']
  else
    let slashes : ℕ :=
      if ['/', '/'].isPrefixOf p ∧ ¬ ['/', '/', '/'].isPrefixOf p then 2
      else if ['/'].isPrefixOf p then 1
      else 0
    let comps := pySplitChar p '/'
    let newComps := normpathComps (slashes ≠ 0) [] comps
    let joined := List.replicate slashes '/' ++ pyJoinChar newComps '/'
    if joined = [] then ['.'] else joined

/-- `os.path.join(a, b)` for two components (POSIX). -/
def pyJoinPathList (a b : List Char) : List Char :=
  if ['/'].isPrefixOf b then b
  else if a = [] ∨ a.getLast? = some '/' then a ++ b
  else a ++ '/' :: b

/-! String wrappers. -/

def pyStrip (s : String) : String := ⟨pyStripList s.data⟩

def pyReplace (s old new : String) : String := ⟨pyReplaceList s.data old.data new.data⟩

def pyContains (s sub : String) : Bool := pyContainsList s.data sub.data

def pySplit (s : String) (sep : Char) : List String :=
  (pySplitChar s.data sep).map (fun l => ⟨l⟩)

def pyJoin (parts : List String) (sep : Char) : String :=
  ⟨pyJoinChar (parts.map String.data) sep⟩

def pyLower (s : String) : String := ⟨pyLowerList s.data⟩

def pyStartsWith (s pat : String) : Bool := pat.data.isPrefixOf s.data

def pyEndsWith (s pat : String) : Bool := pat.data.isSuffixOf s.data

def basename (p : String) : String := ⟨basenameList p.data⟩

def dirname (p : String) : String := ⟨dirnameList p.data⟩

def splitext (p : String) : String × String :=
  ((splitextList p.data).1.asString, (splitextList p.data).2.asString)

def normpath (p : String) : String := ⟨normpathList p.data⟩

def pyJoinPath (a b : String) : String := ⟨pyJoinPathList a.data b.data⟩

/-! ## `_ensure_unique_relative_path` (backend/utils.py)

The archive filesystem is modelled as the list `fs` of relative paths that
currently exist (so `os.path.exists(os.path.join(ARCHIVE_DIR, p))` becomes
`p ∈ fs`).  The Python `while True` loop is modelled with fuel; fuel
`fs.length + 1` provably suffices (`ensureLoop_finds`). -/

/-- The candidate `f"{stem}_{counter}{ext}"` joined onto `parent`. -/
def uniqueCandidate (parent stem ext : String) (counter : ℕ) : String :=
  let candidateName := stem ++ "_" ++ pyStrNat counter ++ ext
  if parent ≠ "" then pyJoinPath parent candidateName else candidateName

/-- The numeric-suffix search loop of `_ensure_unique_relative_path`. -/
def ensureLoop (fs : List String) (parent stem ext : String) :
    ℕ → ℕ → Option String
  | 0, _ => none
  | fuel + 1, counter =>
    let candidate := uniqueCandidate parent stem ext counter
    if candidate ∈ fs then
      ensureLoop fs parent stem ext fuel (counter + 1)
    else
      some candidate

/-- `_ensure_unique_relative_path` from `backend/utils.py`: normalize, return
the normalized path when its archive location is free, otherwise append the
first free numeric suffix.  (`getD` is unreachable: see `ensureLoop_finds`.) -/
def ensureUniqueRelativePath (fs : List String) (relativePath : String) : String :=
  let normalized := normpath relativePath
  if normalized ∉ fs then
    normalized
  else
    let parent := dirname normalized
    let stem := (splitext (basename normalized)).1
    let ext := (splitext (basename normalized)).2
    (ensureLoop fs parent stem ext (fs.length + 1) 1).getD normalized

/-! ### Correctness of the numeric-suffix search -/

/-- Value of a reversed digit list (little-endian). -/
def valRev (l : List ℕ) : ℕ := l.foldr (fun d acc => d + 10 * acc) 0

lemma valRev_natDigitsRev : ∀ fuel n, n ≤ fuel → valRev (natDigitsRev fuel n) = n := by
  intro fuel
  induction fuel with
  | zero => intro n hn; interval_cases n; rfl
  | succ f ih =>
    intro n hn
    by_cases h0 : n = 0
    · subst h0; rfl
    · have hdiv : n / 10 ≤ f := by
        have := Nat.div_lt_self (Nat.pos_of_ne_zero h0) (by norm_num : (1:ℕ) < 10)
        omega
      simp only [natDigitsRev, if_neg h0, valRev, List.foldr_cons]
      have := ih (n / 10) hdiv
      simp only [valRev] at this
      rw [this, Nat.mod_add_div]

lemma natDigitsRev_lt : ∀ fuel n, ∀ d ∈ natDigitsRev fuel n, d < 10 := by
  intro fuel
  induction fuel with
  | zero => intro n d hd; simp [natDigitsRev] at hd
  | succ f ih =>
    intro n d hd
    by_cases h0 : n = 0
    · subst h0; simp [natDigitsRev] at hd
    · simp only [natDigitsRev, if_neg h0, List.mem_cons] at hd
      rcases hd with h | h
      · subst h; exact Nat.mod_lt _ (by norm_num)
      · exact ih _ _ h

lemma decDigitChar_inj {d e : ℕ} (hd : d < 10) (he : e < 10)
    (h : decDigitChar d = decDigitChar e) : d = e := by
  interval_cases d <;> interval_cases e <;> first | rfl | (exfalso; revert h; decide)

lemma map_decDigitChar_inj : ∀ l1 l2 : List ℕ, (∀ d ∈ l1, d < 10) → (∀ d ∈ l2, d < 10) →
    l1.map decDigitChar = l2.map decDigitChar → l1 = l2 := by
  intro l1
  induction l1 with
  | nil => intro l2 _ _ h; cases l2 <;> simp_all
  | cons a t ih =>
    intro l2 h1 h2 h
    cases l2 with
    | nil => simp at h
    | cons b t2 =>
      simp only [List.map_cons, List.cons.injEq] at h
      have ha := decDigitChar_inj (h1 a (by simp)) (h2 b (by simp)) h.1
      subst ha
      have := ih t2 (fun d hd => h1 d (by simp [hd])) (fun d hd => h2 d (by simp [hd])) h.2
      simp [this]

lemma pyStrNat_inj {n m : ℕ} (hn : 1 ≤ n) (hm : 1 ≤ m) (h : pyStrNat n = pyStrNat m) :
    n = m := by
  have hn0 : n ≠ 0 := by omega
  have hm0 : m ≠ 0 := by omega
  simp only [pyStrNat, if_neg hn0, if_neg hm0] at h
  have hdata := congrArg String.data h
  simp only at hdata
  have h' := List.reverse_injective
    (map_decDigitChar_inj _ _
      (fun d hd => natDigitsRev_lt n n d (List.mem_reverse.mp hd))
      (fun d hd => natDigitsRev_lt m m d (List.mem_reverse.mp hd))
      hdata)
  have v1 := valRev_natDigitsRev n n le_rfl
  have v2 := valRev_natDigitsRev m m le_rfl
  rw [h'] at v1
  omega

lemma string_append_cancel {s a b t : String} (h : s ++ a ++ t = s ++ b ++ t)
    (_hlen : a.length = b.length) : a = b := by
  have hd : s.data ++ (a.data ++ t.data) = s.data ++ (b.data ++ t.data) := by
    have := congrArg String.data h
    simpa [String.data_append, List.append_assoc] using this
  have h1 : a.data ++ t.data = b.data ++ t.data := List.append_cancel_left hd
  have h2 : a.data = b.data := List.append_cancel_right h1
  exact String.ext h2

lemma pyJoinPath_inj_right {parent a b : String}
    (hhead : a.data.head? = b.data.head?) (h : pyJoinPath parent a = pyJoinPath parent b) :
    a = b := by
  have habs : (['/'].isPrefixOf a.data) = (['/'].isPrefixOf b.data) := by
    cases ha : a.data with
    | nil => cases hb : b.data with
      | nil => rfl
      | cons c t => rw [ha, hb] at hhead; simp at hhead
    | cons c t =>
      cases hb : b.data with
      | nil => rw [ha, hb] at hhead; simp at hhead
      | cons c' t' =>
        rw [ha, hb] at hhead
        simp only [List.head?_cons, Option.some.injEq] at hhead
        subst hhead
        simp [List.isPrefixOf]
  unfold pyJoinPath pyJoinPathList at h
  by_cases hpa : ['/'].isPrefixOf a.data
  · rw [if_pos hpa] at h
    rw [habs] at hpa
    rw [if_pos hpa] at h
    cases a; cases b; simpa using h
  · rw [if_neg hpa] at h
    rw [habs] at hpa
    rw [if_neg hpa] at h
    by_cases hp : parent.data = [] ∨ parent.data.getLast? = some '/'
    · rw [if_pos hp, if_pos hp] at h
      have hd := congrArg String.data h
      simp only at hd
      exact String.ext (List.append_cancel_left hd)
    · rw [if_neg hp, if_neg hp] at h
      have hd := congrArg String.data h
      simp only at hd
      have h2 := List.append_cancel_left hd
      have h3 := List.cons.inj h2
      exact String.ext h3.2

lemma uniqueCandidate_inj {parent stem ext : String} {n m : ℕ}
    (hn : 1 ≤ n) (hm : 1 ≤ m)
    (h : uniqueCandidate parent stem ext n = uniqueCandidate parent stem ext m) :
    n = m := by
  by_contra hnm
  have hdiff : pyStrNat n ≠ pyStrNat m := fun he => hnm (pyStrNat_inj hn hm he)
  have hname : stem ++ "_" ++ pyStrNat n ++ ext ≠ stem ++ "_" ++ pyStrNat m ++ ext := by
    intro he
    exact hdiff (by
      have h1 : (stem ++ "_") ++ pyStrNat n ++ ext = (stem ++ "_") ++ pyStrNat m ++ ext := by
        simpa [String.append_assoc] using he
      by_cases hlen : (pyStrNat n).length = (pyStrNat m).length
      · exact string_append_cancel h1 hlen
      · exfalso
        have := congrArg String.length h1
        simp only [String.length_append] at this
        omega)
  unfold uniqueCandidate at h
  by_cases hp : parent ≠ ""
  · rw [if_pos hp, if_pos hp] at h
    have hhead : (stem ++ "_" ++ pyStrNat n ++ ext).data.head? =
        (stem ++ "_" ++ pyStrNat m ++ ext).data.head? := by
      cases hs : stem.data with
      | nil =>
        have h1 : (stem ++ "_" ++ pyStrNat n ++ ext).data =
            '_' :: ((pyStrNat n).data ++ ext.data) := by
          simp [String.data_append, hs]
        have h2 : (stem ++ "_" ++ pyStrNat m ++ ext).data =
            '_' :: ((pyStrNat m).data ++ ext.data) := by
          simp [String.data_append, hs]
        rw [h1, h2]
        simp
      | cons c t =>
        have h1 : (stem ++ "_" ++ pyStrNat n ++ ext).data =
            c :: (t ++ '_' :: ((pyStrNat n).data ++ ext.data)) := by
          simp [String.data_append, hs]
        have h2 : (stem ++ "_" ++ pyStrNat m ++ ext).data =
            c :: (t ++ '_' :: ((pyStrNat m).data ++ ext.data)) := by
          simp [String.data_append, hs]
        rw [h1, h2]
        simp
    exact hname (pyJoinPath_inj_right hhead h)
  · rw [if_neg hp, if_neg hp] at h
    exact hname h

lemma list_toFinset_card_le (l : List String) : l.toFinset.card ≤ l.length :=
  List.toFinset_card_le l

lemma exists_free_candidate (fs : List String) (parent stem ext : String) :
    ∃ n, 1 ≤ n ∧ n < 1 + (fs.length + 1) ∧ uniqueCandidate parent stem ext n ∉ fs := by
  by_contra hcon
  push_neg at hcon
  have hmem : ∀ i ∈ Finset.range (fs.length + 1),
      uniqueCandidate parent stem ext (i + 1) ∈ fs.toFinset := by
    intro i hi
    rw [List.mem_toFinset]
    exact hcon (i + 1) (by omega) (by simp at hi; omega)
  have hinj : Set.InjOn (fun i => uniqueCandidate parent stem ext (i + 1))
      (Finset.range (fs.length + 1)) := by
    intro i _ j _ hij
    have := uniqueCandidate_inj (n := i + 1) (m := j + 1) (by omega) (by omega) hij
    omega
  have hsub : Finset.image (fun i => uniqueCandidate parent stem ext (i + 1))
      (Finset.range (fs.length + 1)) ⊆ fs.toFinset := by
    intro x hx
    rw [Finset.mem_image] at hx
    obtain ⟨i, hi, rfl⟩ := hx
    exact hmem i hi
  have hcard := Finset.card_le_card hsub
  rw [Finset.card_image_of_injOn hinj, Finset.card_range] at hcard
  have := list_toFinset_card_le fs
  omega

lemma ensureLoop_spec (fs : List String) (parent stem ext : String) :
    ∀ fuel counter,
      (∃ n, counter ≤ n ∧ n < counter + fuel ∧ uniqueCandidate parent stem ext n ∉ fs) →
      ∃ n, ensureLoop fs parent stem ext fuel counter =
            some (uniqueCandidate parent stem ext n) ∧
          counter ≤ n ∧ uniqueCandidate parent stem ext n ∉ fs ∧
          ∀ m, counter ≤ m → m < n → uniqueCandidate parent stem ext m ∈ fs := by
  intro fuel
  induction fuel with
  | zero =>
    intro counter h
    obtain ⟨n, h1, h2, _⟩ := h
    omega
  | succ f ih =>
    intro counter h
    by_cases hc : uniqueCandidate parent stem ext counter ∈ fs
    · obtain ⟨n, hn1, hn2, hn3⟩ := h
      have hne : n ≠ counter := fun he => hn3 (he ▸ hc)
      obtain ⟨n', e1, e2, e3, e4⟩ := ih (counter + 1) ⟨n, by omega, by omega, hn3⟩
      refine ⟨n', ?_, by omega, e3, ?_⟩
      · simp only [ensureLoop, if_pos hc]
        exact e1
      · intro m hm1 hm2
        by_cases hmc : m = counter
        · exact hmc ▸ hc
        · exact e4 m (by omega) hm2
    · refine ⟨counter, ?_, le_rfl, hc, by omega⟩
      simp only [ensureLoop, if_neg hc]

/-- **C10.** `_ensure_unique_relative_path` returns a path whose archive
location is free: the normalized input itself when free, otherwise the first
(numerically least, starting at 1) `stem_N` suffix variant that is free, so
saving an ingested file never overwrites an existing archive file. -/
theorem ensure_unique_relative_path_spec (fs : List String) (rel : String) :
    ensureUniqueRelativePath fs rel ∉ fs ∧
    (normpath rel ∉ fs → ensureUniqueRelativePath fs rel = normpath rel) ∧
    (normpath rel ∈ fs →
      ∃ n, 1 ≤ n ∧
        ensureUniqueRelativePath fs rel =
          uniqueCandidate (dirname (normpath rel))
            (splitext (basename (normpath rel))).1
            (splitext (basename (normpath rel))).2 n ∧
        (∀ m, 1 ≤ m → m < n →
          uniqueCandidate (dirname (normpath rel))
            (splitext (basename (normpath rel))).1
            (splitext (basename (normpath rel))).2 m ∈ fs)) := by
  set normalized := normpath rel with hnorm
  by_cases hfree : normalized ∉ fs
  · refine ⟨?_, fun _ => ?_, fun hmem => absurd hmem hfree⟩
    · unfold ensureUniqueRelativePath
      rw [← hnorm, if_pos hfree]
      exact hfree
    · unfold ensureUniqueRelativePath
      rw [← hnorm, if_pos hfree]
  · push_neg at hfree
    set parent := dirname normalized
    set stem := (splitext (basename normalized)).1
    set ext := (splitext (basename normalized)).2
    obtain ⟨n, e1, e2, e3, e4⟩ :=
      ensureLoop_spec fs parent stem ext (fs.length + 1) 1
        (exists_free_candidate fs parent stem ext)
    have hval : ensureUniqueRelativePath fs rel = uniqueCandidate parent stem ext n := by
      unfold ensureUniqueRelativePath
      rw [← hnorm, if_neg (by simpa using hfree)]
      show (ensureLoop fs parent stem ext (fs.length + 1) 1).getD normalized = _
      rw [e1]
      rfl
    refine ⟨by rw [hval]; exact e3, fun hf => absurd hfree hf, fun _ => ⟨n, e2, hval, e4⟩⟩

/-- Witness for C10 at a concrete input: the archive already holds `a.txt`
and `a_1.txt`, and ingesting another `a.txt` lands on the free `a_2.txt`. -/
theorem ensure_unique_relative_path_spec_witness :
    ensureUniqueRelativePath ["a.txt", "a_1.txt"] "a.txt" ∉ ["a.txt", "a_1.txt"] ∧
    ensureUniqueRelativePath ["a.txt", "a_1.txt"] "a.txt" = "a_2.txt" := by
  refine ⟨(ensure_unique_relative_path_spec ["a.txt", "a_1.txt"] "a.txt").1, ?_⟩
  decide

/-! ## `reconcile_filesystem_with_chroma` (backend/utils.py)

The on-disk archive is modelled as a list of files, each given by its list
of path segments (as produced by `os.walk`); the Chroma collection is the
finite set of its ids (archive-relative path strings).  `fetch_content`
truthiness (missing/huge/empty files fetch as falsy and are skipped by the
add loop) is an oracle `fetchOk`. -/

/-- Split/join helpers used to relate segment lists and rendered paths. -/
lemma pySplitChar_sepFree {a : List Char} {sep : Char} (h : ∀ c ∈ a, c ≠ sep) :
    pySplitChar a sep = [a] := by
  induction a with
  | nil => rfl
  | cons c rest ih =>
    have hc : c ≠ sep := h c (by simp)
    have hrest := ih (fun x hx => h x (by simp [hx]))
    simp only [pySplitChar, if_neg hc, hrest]

lemma pySplitChar_append {a : List Char} {sep : Char} (b : List Char)
    (h : ∀ c ∈ a, c ≠ sep) :
    pySplitChar (a ++ sep :: b) sep = a :: pySplitChar b sep := by
  induction a with
  | nil => simp [pySplitChar]
  | cons c rest ih =>
    have hc : c ≠ sep := h c (by simp)
    have hrest := ih (fun x hx => h x (by simp [hx]))
    simp only [List.cons_append, pySplitChar, if_neg hc, List.append_eq, hrest]

lemma pySplit_pyJoin_roundtrip : ∀ (segs : List String), segs ≠ [] →
    (∀ s ∈ segs, ∀ c ∈ s.data, c ≠ '/') →
    pySplit (pyJoin segs '/') '/' = segs := by
  intro segs
  induction segs with
  | nil => intro h; exact absurd rfl h
  | cons s rest ih =>
    intro _ hfree
    cases rest with
    | nil =>
      simp only [pyJoin, pySplit, List.map_cons, List.map_nil, pyJoinChar]
      rw [pySplitChar_sepFree (hfree s (by simp))]
      simp
    | cons r rest' =>
      have hjoin : pyJoinChar ((s :: r :: rest').map String.data) '/' =
          s.data ++ '/' :: pyJoinChar ((r :: rest').map String.data) '/' := by
        simp [pyJoinChar]
      simp only [pyJoin, pySplit] at *
      rw [hjoin, pySplitChar_append _ (hfree s (by simp))]
      have := ih (by simp) (fun x hx c hc => hfree x (by simp [hx]) c hc)
      simp only [List.map_cons, List.map]
      rw [show (pySplitChar (pyJoinChar (r.data :: rest'.map String.data) '/') '/').map
            (fun l => (⟨l⟩ : String)) = r :: rest' from this]

/-- Rendered archive-relative path of a segment list. -/
def renderPath (segs : List String) : String := pyJoin segs '/'

/-- The filter applied by `get_all_files` inside
`reconcile_filesystem_with_chroma`: skip roots containing a `.chromadb`
component, skip hidden (dot-leading) file names. -/
def walkVisible (segs : List String) : Bool :=
  match segs.getLast? with
  | none => false
  | some b => (!(segs.dropLast).contains ".chromadb") && (!pyStartsWith b ".")

/-- `".chromadb" in file_path.split(os.sep)` as re-checked by both
reconciliation loops. -/
def hasChromadb (p : String) : Bool :=
  (pySplit p '/').contains ".chromadb"

/-- Well-formed walk output: nonempty segment lists of nonempty,
separator-free segments. -/
def wfSegs (files : List (List String)) : Prop :=
  ∀ segs ∈ files, segs ≠ [] ∧ ∀ s ∈ segs, s ≠ "" ∧ ∀ c ∈ s.data, c ≠ '/'

instance : DecidablePred wfSegs := fun files => by
  unfold wfSegs; infer_instance

/-- `get_all_files(settings.ARCHIVE_DIR)` from the reconciliation pass. -/
def getAllFiles (files : List (List String)) : List String :=
  (files.filter walkVisible).map renderPath

/-- `filesystem_files = set(get_all_files(settings.ARCHIVE_DIR))`. -/
def filesystemFilesOf (files : List (List String)) : Finset String :=
  (getAllFiles files).toFinset

/-- `files_to_add = filesystem_files - chroma_files`. -/
def filesToAddOf (files : List (List String)) (chromaIds : Finset String) :
    Finset String :=
  filesystemFilesOf files \ chromaIds

/-- The adds actually executed: `.chromadb` ids are skipped, and files whose
`fetch_content` is falsy are skipped. -/
def addedOf (files : List (List String)) (chromaIds : Finset String)
    (fetchOk : String → Bool) : Finset String :=
  (filesToAddOf files chromaIds).filter
    (fun p => hasChromadb p = false ∧ fetchOk p = true)

/-- `files_to_remove = chroma_files - filesystem_files`; executed removes
skip `.chromadb` ids. -/
def removedOf (files : List (List String)) (chromaIds : Finset String) :
    Finset String :=
  (chromaIds \ filesystemFilesOf files).filter (fun p => hasChromadb p = false)

/-- Outcome of one reconciliation pass: the chroma mutations actually
executed and the resulting id set. -/
structure ReconcileResult where
  addedIds : Finset String
  removedIds : Finset String
  finalIds : Finset String
  deriving DecidableEq

/-- `reconcile_filesystem_with_chroma` (utils.py): diff the visible archive
files against the chroma ids; add readable missing files (skipping
`.chromadb` ids); remove stale ids (skipping `.chromadb` ids). -/
def reconcile (files : List (List String)) (chromaIds : Finset String)
    (fetchOk : String → Bool) : ReconcileResult :=
  ⟨addedOf files chromaIds fetchOk, removedOf files chromaIds,
    (chromaIds \ removedOf files chromaIds) ∪ addedOf files chromaIds fetchOk⟩

lemma mem_addedOf {files : List (List String)} {chromaIds : Finset String}
    {fetchOk : String → Bool} {p : String} :
    p ∈ addedOf files chromaIds fetchOk ↔
      (p ∈ filesystemFilesOf files ∧ p ∉ chromaIds) ∧
        hasChromadb p = false ∧ fetchOk p = true := by
  simp [addedOf, filesToAddOf, Finset.mem_filter, Finset.mem_sdiff, and_assoc]

lemma mem_removedOf {files : List (List String)} {chromaIds : Finset String}
    {p : String} :
    p ∈ removedOf files chromaIds ↔
      (p ∈ chromaIds ∧ p ∉ filesystemFilesOf files) ∧ hasChromadb p = false := by
  simp [removedOf, Finset.mem_filter, Finset.mem_sdiff]

lemma getAllFiles_not_chromadb {files : List (List String)} (hwf : wfSegs files) :
    ∀ p ∈ getAllFiles files, hasChromadb p = false := by
  intro p hp
  simp only [getAllFiles, List.mem_map, List.mem_filter] at hp
  obtain ⟨segs, ⟨hmem, hvis⟩, rfl⟩ := hp
  obtain ⟨hne, hseg⟩ := hwf segs hmem
  have hrt : pySplit (pyJoin segs '/') '/' = segs :=
    pySplit_pyJoin_roundtrip segs hne (fun s hs c hc => (hseg s hs).2 c hc)
  simp only [hasChromadb, renderPath, hrt]
  rw [List.contains_eq_any_beq]
  simp only [List.any_eq_false]
  intro s hs hbeq
  have hsc : s = ".chromadb" := by
    have : (".chromadb" : String) = s := by simpa using hbeq
    exact this.symm
  subst hsc
  obtain ⟨b, hlast⟩ : ∃ b, segs.getLast? = some b := by
    cases hgl : segs.getLast? with
    | none => exact absurd (List.getLast?_eq_none_iff.mp hgl) hne
    | some b => exact ⟨b, rfl⟩
  obtain ⟨front, rfl⟩ := List.getLast?_eq_some_iff.mp hlast
  simp only [walkVisible, hlast, Bool.and_eq_true, Bool.not_eq_true'] at hvis
  rcases List.mem_append.mp hs with h | h
  · have hdrop : (front ++ [b]).dropLast = front := by simp
    have h1 := hvis.1
    rw [hdrop, List.contains_eq_any_beq] at h1
    rw [List.any_eq_false] at h1
    have h2 := h1 _ h
    simp at h2
  · have hb : b = ".chromadb" := (List.mem_singleton.mp h).symm
    subst hb
    have := hvis.2
    simp [pyStartsWith, List.isPrefixOf] at this

/-- **C2 (amended).** For every archive state and every prior index state
containing no `.chromadb`-component id, a reconciliation pass in which every
file to add has truthy content leaves the index ids exactly equal to the
visible archive files: it adds exactly `archiveFiles − indexIds` and removes
exactly `indexIds − archiveFiles`. -/
theorem reconcile_eventual_consistency (files : List (List String))
    (chromaIds : Finset String) (fetchOk : String → Bool)
    (hwf : wfSegs files)
    (hchroma : ∀ p ∈ chromaIds, hasChromadb p = false)
    (hfetch : ∀ p ∈ getAllFiles files, fetchOk p = true) :
    (reconcile files chromaIds fetchOk).finalIds = (getAllFiles files).toFinset ∧
    (reconcile files chromaIds fetchOk).addedIds =
      (getAllFiles files).toFinset \ chromaIds ∧
    (reconcile files chromaIds fetchOk).removedIds =
      chromaIds \ (getAllFiles files).toFinset := by
  have hvis := getAllFiles_not_chromadb hwf
  have hadded : addedOf files chromaIds fetchOk =
      (getAllFiles files).toFinset \ chromaIds := by
    ext p
    rw [mem_addedOf]
    simp only [Finset.mem_sdiff, List.mem_toFinset, filesystemFilesOf]
    constructor
    · rintro ⟨⟨h1, h2⟩, _, _⟩; exact ⟨by simpa using h1, h2⟩
    · intro h
      exact ⟨⟨by simpa using h.1, h.2⟩, hvis p h.1, hfetch p h.1⟩
  have hremoved : removedOf files chromaIds =
      chromaIds \ (getAllFiles files).toFinset := by
    ext p
    rw [mem_removedOf]
    simp only [Finset.mem_sdiff, List.mem_toFinset, filesystemFilesOf]
    constructor
    · rintro ⟨⟨h1, h2⟩, _⟩; exact ⟨h1, by simpa using h2⟩
    · intro h
      exact ⟨⟨h.1, by simpa using h.2⟩, hchroma p h.1⟩
  refine ⟨?_, hadded, hremoved⟩
  show (chromaIds \ removedOf files chromaIds) ∪ addedOf files chromaIds fetchOk = _
  rw [hadded, hremoved]
  ext p
  simp only [Finset.mem_union, Finset.mem_sdiff, List.mem_toFinset, not_and, not_not]
  tauto

/-- Witness for C2 at a concrete state: archive holds `Docs/a.txt`, index
holds a stale `old.txt`; the pass adds the former, removes the latter. -/
theorem reconcile_eventual_consistency_witness :
    (reconcile [["Docs", "a.txt"]] {"old.txt"} (fun _ => true)).finalIds =
      (getAllFiles [["Docs", "a.txt"]]).toFinset ∧
    (getAllFiles [["Docs", "a.txt"]]).toFinset = {"Docs/a.txt"} := by
  refine ⟨(reconcile_eventual_consistency [["Docs", "a.txt"]] {"old.txt"}
    (fun _ => true) (by decide) (by decide) (fun p _ => rfl)).1, by decide⟩

/-- **C2, claim as stated, is false on the code.** A prior index state with a
`.chromadb`-component id survives the pass (such ids are never removed), and
a visible archive file whose content fetches falsy is never added, so the
final id set differs from the visible archive file set in both cases. -/
theorem reconcile_eventual_consistency_counterexample :
    (reconcile [] {".chromadb/x"} (fun _ => true)).finalIds ≠
      (getAllFiles []).toFinset ∧
    (reconcile [["a.txt"]] ∅ (fun _ => false)).finalIds ≠
      (getAllFiles [["a.txt"]]).toFinset := by
  constructor
  · decide
  · decide

/-- **C3.** Reconciliation is idempotent on executed operations: a second
pass immediately after a completed one, with the same filesystem, index and
content oracle, executes zero adds and zero removes. -/
theorem reconcile_idempotent (files : List (List String))
    (chromaIds : Finset String) (fetchOk : String → Bool) :
    (reconcile files (reconcile files chromaIds fetchOk).finalIds fetchOk).addedIds = ∅ ∧
    (reconcile files (reconcile files chromaIds fetchOk).finalIds fetchOk).removedIds = ∅ := by
  have hfinal : (reconcile files chromaIds fetchOk).finalIds =
      (chromaIds \ removedOf files chromaIds) ∪ addedOf files chromaIds fetchOk := rfl
  constructor
  · ext p
    show p ∈ addedOf files ((chromaIds \ removedOf files chromaIds) ∪
      addedOf files chromaIds fetchOk) fetchOk ↔ p ∈ (∅ : Finset String)
    simp only [Finset.not_mem_empty, iff_false]
    intro hmem
    rw [mem_addedOf] at hmem
    obtain ⟨⟨hfs, hnf⟩, hcdb, hok⟩ := hmem
    rw [Finset.mem_union, Finset.mem_sdiff] at hnf
    push_neg at hnf
    obtain ⟨hchro, hnadd⟩ := hnf
    by_cases hc : p ∈ chromaIds
    · have hrem := hchro hc
      rw [mem_removedOf] at hrem
      exact (hrem.1.2 hfs)
    · exact hnadd (mem_addedOf.mpr ⟨⟨hfs, hc⟩, hcdb, hok⟩)
  · ext p
    show p ∈ removedOf files ((chromaIds \ removedOf files chromaIds) ∪
      addedOf files chromaIds fetchOk) ↔ p ∈ (∅ : Finset String)
    simp only [Finset.not_mem_empty, iff_false]
    intro hmem
    rw [mem_removedOf] at hmem
    obtain ⟨⟨hin, hnfs⟩, hcdb⟩ := hmem
    rw [Finset.mem_union, Finset.mem_sdiff] at hin
    rcases hin with ⟨hc, hnrem⟩ | hadd
    · exact hnrem (mem_removedOf.mpr ⟨⟨hc, hnfs⟩, hcdb⟩)
    · exact hnfs (mem_addedOf.mp hadd).1.1

/-! ## `sanitize_path_suggestion` (backend/utils.py)

ASCII model: `str.isalnum()` is modelled by `Char.isAlphanum`. -/

/-- Characters kept by the folder-name sanitizer:
`c.isalnum() or c in (" ", "_", "-")`. -/
def allowedChar (c : Char) : Bool :=
  c.isAlphanum || c = ' ' || c = '_' || c = '-'

/-- Strip illegal characters from one path component, then
`.strip().replace("  ", " ")`. -/
def sanitizeSegChars (part : String) : String :=
  pyReplace (pyStrip ⟨part.data.filter allowedChar⟩) "  " " "

/-- One iteration of the component loop of `sanitize_path_suggestion`:
`none` means the component is popped, `some` is the in-place replacement
(empty components are skipped unchanged and dropped by the final filter). -/
def sanitizeStep (basenameF filename : String) (part : String) : Option String :=
  if part = "" then some ""
  else if part = basenameF ∨ pyContains part filename then none
  else if pyContains part "." = true ∧ pyStartsWith part "." = false ∧
      pyLower (splitext part).2 ≠ "" ∧ (pyLower (splitext part).2).length ≤ 5 then none
  else some (sanitizeSegChars part)

/-- `file_extension = os.path.splitext(filename)[1].lower()`. -/
def fallbackExt (filename : String) : String :=
  pyLower (splitext filename).2

/-- The extension-based default bucket used when sanitization leaves no
usable path segments. -/
def fallbackBucket (filename : String) : String :=
  if fallbackExt filename ∈ ([".jpg", ".jpeg", ".png", ".gif", ".webp", ".heic"] : List String) then
    "Images"
  else if fallbackExt filename ∈ ([".pdf", ".doc", ".docx", ".txt", ".md", ".rtf"] : List String) then
    "Documents"
  else if fallbackExt filename ∈ ([".csv", ".xls", ".xlsx"] : List String) then "Data"
  else if fallbackExt filename ∈ ([".mp3", ".wav", ".flac"] : List String) then "Music"
  else if fallbackExt filename ∈ ([".mp4", ".mov", ".avi"] : List String) then "Videos"
  else "Files"

lemma fallbackBucket_mem (filename : String) :
    fallbackBucket filename ∈
      (["Images", "Documents", "Data", "Music", "Videos", "Files"] : List String) := by
  unfold fallbackBucket
  split
  · simp
  · split
    · simp
    · split
      · simp
      · split
        · simp
        · split
          · simp
          · simp

lemma fallbackBucket_allowed (filename : String) :
    ∀ c ∈ (fallbackBucket filename).data, allowedChar c = true := by
  have h := fallbackBucket_mem filename
  simp only [List.mem_cons, List.not_mem_nil, or_false] at h
  rcases h with h | h | h | h | h | h <;> rw [h] <;> decide

lemma fallbackBucket_ne_empty (filename : String) : fallbackBucket filename ≠ "" := by
  have h := fallbackBucket_mem filename
  simp only [List.mem_cons, List.not_mem_nil, or_false] at h
  rcases h with h | h | h | h | h | h <;> rw [h] <;> decide

/-- The backslash-normalized suggestion `raw_path.replace("\\", "/")`. -/
def normalizedSuggestion (suggestedPath : String) : String :=
  pyReplace (pyStrip suggestedPath) "\\" "/"

/-- `sanitized_parts`: the component list after the pop/replace loop and the
final empty-component filter. -/
def sanitizedPartsOf (suggestedPath filename : String) : List String :=
  (((pySplit (normalizedSuggestion suggestedPath) '/').filterMap
      (sanitizeStep (basename filename) filename)).filter (fun s => s ≠ ""))

/-- `sanitize_path_suggestion(suggested_path, filename)` from utils.py. -/
def sanitize_path_suggestion (suggestedPath filename : String) : String :=
  let spath := normalizedSuggestion suggestedPath
  if pyEndsWith spath filename then
    dirname spath
  else
    let sanitizedPath := pyJoin ((sanitizedPartsOf suggestedPath filename).take 7) '/'
    if sanitizedPath = "" then fallbackBucket filename else sanitizedPath

/-! ### Character-level lemmas for the sanitizer invariants -/

lemma pyReplaceAux_chars {old new : List Char} :
    ∀ fuel s c, c ∈ pyReplaceAux old new fuel s → c ∈ s ∨ c ∈ new := by
  intro fuel
  induction fuel with
  | zero => intro s c hc; exact Or.inl hc
  | succ f ih =>
    intro s c hc
    cases s with
    | nil => simp [pyReplaceAux] at hc
    | cons a rest =>
      simp only [pyReplaceAux] at hc
      by_cases hpre : old ≠ [] ∧ old.isPrefixOf (a :: rest)
      · rw [if_pos hpre] at hc
        rcases List.mem_append.mp hc with h | h
        · exact Or.inr h
        · rcases ih _ _ h with h2 | h2
          · exact Or.inl (List.mem_of_mem_drop h2)
          · exact Or.inr h2
      · rw [if_neg hpre] at hc
        rcases List.mem_cons.mp hc with h | h
        · exact Or.inl (h ▸ List.mem_cons_self a rest)
        · rcases ih _ _ h with h2 | h2
          · exact Or.inl (List.mem_cons_of_mem a h2)
          · exact Or.inr h2

lemma pyStripList_subset {s : List Char} {c : Char} (hc : c ∈ pyStripList s) : c ∈ s := by
  simp only [pyStripList, List.mem_reverse] at hc
  have h1 := List.dropWhile_sublist (l := (s.dropWhile pyIsSpace).reverse) (p := pyIsSpace)
  have h2 := h1.subset hc
  rw [List.mem_reverse] at h2
  exact (List.dropWhile_sublist (l := s) (p := pyIsSpace)).subset h2

lemma sanitizeSegChars_allowed {part : String} :
    ∀ c ∈ (sanitizeSegChars part).data, allowedChar c = true := by
  intro c hc
  simp only [sanitizeSegChars, pyReplace, pyReplaceList] at hc
  rcases pyReplaceAux_chars _ _ _ hc with h | h
  · have := pyStripList_subset (s := (part.data.filter allowedChar)) (c := c) (by simpa [pyStrip] using h)
    exact (List.mem_filter.mp this).2
  · simp at h
    subst h
    rfl

lemma pyContainsList_mem {s sub : List Char} (h : pyContainsList s sub = true) :
    ∀ c ∈ sub, c ∈ s := by
  induction s with
  | nil =>
    intro c hc
    simp only [pyContainsList, List.isEmpty_iff] at h
    subst h
    simp at hc
  | cons a rest ih =>
    intro c hc
    simp only [pyContainsList, Bool.or_eq_true] at h
    rcases h with h | h
    · have hpre : sub <+: (a :: rest) := by
        exact List.isPrefixOf_iff_prefix.mp h
      exact hpre.subset hc
    · exact List.mem_cons_of_mem a (ih h c hc)

lemma pyJoinChar_chars {sep : Char} :
    ∀ (parts : List (List Char)) (c : Char), c ∈ pyJoinChar parts sep →
      (∃ p ∈ parts, c ∈ p) ∨ c = sep := by
  intro parts
  induction parts with
  | nil => intro c hc; simp [pyJoinChar] at hc
  | cons p rest ih =>
    intro c hc
    cases rest with
    | nil =>
      simp only [pyJoinChar] at hc
      exact Or.inl ⟨p, by simp, hc⟩
    | cons q rest' =>
      simp only [pyJoinChar] at hc
      rcases List.mem_append.mp hc with h | h
      · exact Or.inl ⟨p, by simp, h⟩
      · rcases List.mem_cons.mp h with h2 | h2
        · exact Or.inr h2
        · rcases ih c h2 with ⟨x, hx, hcx⟩ | h3
          · exact Or.inl ⟨x, by simp [hx], hcx⟩
          · exact Or.inr h3

lemma sanitizedParts_mem {suggestedPath filename : String} :
    ∀ s ∈ sanitizedPartsOf suggestedPath filename,
      s ≠ "" ∧ ∀ c ∈ s.data, allowedChar c = true := by
  intro s hs
  simp only [sanitizedPartsOf, List.mem_filter, List.mem_filterMap,
    decide_eq_true_eq] at hs
  obtain ⟨⟨part, _, hstep⟩, hne⟩ := hs
  refine ⟨hne, ?_⟩
  unfold sanitizeStep at hstep
  by_cases h1 : part = ""
  · rw [if_pos h1] at hstep
    exact absurd (Option.some.inj hstep).symm hne
  · rw [if_neg h1] at hstep
    by_cases h2 : part = basename filename ∨ pyContains part filename = true
    · rw [if_pos h2] at hstep
      exact absurd hstep (by simp)
    · rw [if_neg h2] at hstep
      by_cases h3 : pyContains part "." = true ∧ pyStartsWith part "." = false ∧
          pyLower (splitext part).2 ≠ "" ∧ (pyLower (splitext part).2).length ≤ 5
      · rw [if_pos h3] at hstep
        exact absurd hstep (by simp)
      · rw [if_neg h3] at hstep
        have heq : sanitizeSegChars part = s := Option.some.inj hstep
        intro c hc
        exact sanitizeSegChars_allowed c (heq ▸ hc)

/-- **C5, claim as stated, is false on the code.**  When the suggestion ends
with the filename, the early-return branch bypasses all the invariants: the
returned placement can be empty.  And in the main branch, stripping illegal
characters can re-create the filename, so the output can equal it. -/
theorem sanitize_path_invariants_counterexample :
    sanitize_path_suggestion "report.pdf" "report.pdf" = "" ∧
    sanitize_path_suggestion "a!b" "ab" = "ab" := by
  constructor
  · decide
  · decide

/-- **C5 (amended).** When the normalized suggestion does not end with the
filename, the sanitized placement is nonempty, splits into at most 7
nonempty segments of sanitizer-allowed characters (in particular no `/` or
`.` characters, hence no `"."`/`".."` segments); if moreover the filename
contains some character that is neither allowed by the sanitizer nor `/`
(e.g. the dot before its extension), the placement never equals and never
contains the filename. -/
theorem sanitize_path_invariants (suggestedPath filename : String)
    (hne : pyEndsWith (normalizedSuggestion suggestedPath) filename = false) :
    ∃ segs : List String,
      sanitize_path_suggestion suggestedPath filename = pyJoin segs '/' ∧
      segs ≠ [] ∧ segs.length ≤ 7 ∧
      (∀ s ∈ segs, s ≠ "" ∧ s ≠ "." ∧ s ≠ ".." ∧
        ∀ c ∈ s.data, allowedChar c = true) ∧
      ((∃ c ∈ filename.data, allowedChar c = false ∧ c ≠ '/') →
        sanitize_path_suggestion suggestedPath filename ≠ filename ∧
        pyContains (sanitize_path_suggestion suggestedPath filename) filename = false) := by
  have hbranch : sanitize_path_suggestion suggestedPath filename =
      (if pyJoin ((sanitizedPartsOf suggestedPath filename).take 7) '/' = "" then
        fallbackBucket filename
      else pyJoin ((sanitizedPartsOf suggestedPath filename).take 7) '/') := by
    unfold sanitize_path_suggestion
    rw [if_neg (by simp [hne])]
  set L := (sanitizedPartsOf suggestedPath filename).take 7 with hL
  have hLmem : ∀ s ∈ L, s ≠ "" ∧ ∀ c ∈ s.data, allowedChar c = true := by
    intro s hs
    exact sanitizedParts_mem s (List.mem_of_mem_take hs)
  have hLlen : L.length ≤ 7 := by
    rw [hL]; exact List.length_take_le 7 _
  -- the final segment list: L itself, or the fallback bucket
  by_cases hjoin : pyJoin L '/' = ""
  · -- fallback bucket
    have hres : sanitize_path_suggestion suggestedPath filename = fallbackBucket filename := by
      rw [hbranch, if_pos hjoin]
    have hbucket := fallbackBucket_allowed filename
    have hbne := fallbackBucket_ne_empty filename
    refine ⟨[fallbackBucket filename], by rw [hres]; rfl, by simp, by simp, ?_, ?_⟩
    · intro s hs
      have hseq : s = fallbackBucket filename := by simpa using hs
      refine ⟨hseq ▸ hbne, ?_, ?_, hseq ▸ hbucket⟩
      · intro h
        rw [hseq] at h
        have hdot : ('.' : Char) ∈ (fallbackBucket filename).data := by
          rw [h]; decide
        exact absurd (hbucket '.' hdot) (by decide)
      · intro h
        rw [hseq] at h
        have hdot : ('.' : Char) ∈ (fallbackBucket filename).data := by
          rw [h]; decide
        exact absurd (hbucket '.' hdot) (by decide)
    · rintro ⟨c0, hc0mem, hc0bad, hc0slash⟩
      rw [hres]
      constructor
      · intro heq
        rw [← heq] at hc0mem
        exact absurd (hbucket c0 hc0mem) (by simp [hc0bad])
      · by_contra hcon
        rw [Bool.not_eq_false] at hcon
        have hmem2 := pyContainsList_mem hcon c0 hc0mem
        exact absurd (hbucket c0 hmem2) (by simp [hc0bad])
  · -- the joined sanitized parts
    have hres : sanitize_path_suggestion suggestedPath filename = pyJoin L '/' := by
      rw [hbranch, if_neg hjoin]
    have hLne : L ≠ [] := by
      intro h
      rw [h] at hjoin
      exact hjoin rfl
    have hchars : ∀ c ∈ (pyJoin L '/').data, allowedChar c = true ∨ c = '/' := by
      intro c hc
      simp only [pyJoin] at hc
      rcases pyJoinChar_chars _ c hc with ⟨p, hp, hcp⟩ | h
      · obtain ⟨x, hx, rfl⟩ := List.mem_map.mp hp
        exact Or.inl ((hLmem x hx).2 c hcp)
      · exact Or.inr h
    refine ⟨L, by rw [hres], hLne, hLlen, ?_, ?_⟩
    · intro s hs
      obtain ⟨h1, h2⟩ := hLmem s hs
      refine ⟨h1, ?_, ?_, h2⟩
      · intro h; subst h; exact absurd (h2 '.' (by decide)) (by decide)
      · intro h; subst h; exact absurd (h2 '.' (by decide)) (by decide)
    · rintro ⟨c0, hc0mem, hc0bad, hc0slash⟩
      rw [hres]
      constructor
      · intro heq
        rcases hchars c0 (heq ▸ hc0mem) with h | h
        · exact absurd h (by simp [hc0bad])
        · exact hc0slash h
      · by_contra hcon
        rw [Bool.not_eq_false] at hcon
        have := pyContainsList_mem hcon c0 hc0mem
        rcases hchars c0 this with h | h
        · exact absurd h (by simp [hc0bad])
        · exact hc0slash h

/-- Witness for C5 at a concrete input: suggestion `Finance//Taxes 2024.pdf/x`
for file `w2.pdf` sanitizes to `Finance/Taxes 2024/x` — nonempty, 3 segments,
no dots, and the filename (which contains a dot) appears nowhere. -/
theorem sanitize_path_invariants_witness :
    pyEndsWith (normalizedSuggestion "Finance//Taxes 2024/x") "w2.pdf" = false ∧
    sanitize_path_suggestion "Finance//Taxes 2024/x" "w2.pdf" = "Finance/Taxes 2024/x" ∧
    (∃ segs : List String,
      sanitize_path_suggestion "Finance//Taxes 2024/x" "w2.pdf" = pyJoin segs '/' ∧
      segs ≠ [] ∧ segs.length ≤ 7 ∧
      (∀ s ∈ segs, s ≠ "" ∧ s ≠ "." ∧ s ≠ ".." ∧
        ∀ c ∈ s.data, allowedChar c = true) ∧
      ((∃ c ∈ ("w2.pdf" : String).data, allowedChar c = false ∧ c ≠ '/') →
        sanitize_path_suggestion "Finance//Taxes 2024/x" "w2.pdf" ≠ "w2.pdf" ∧
        pyContains (sanitize_path_suggestion "Finance//Taxes 2024/x" "w2.pdf") "w2.pdf" = false)) := by
  refine ⟨by decide, by decide,
    sanitize_path_invariants "Finance//Taxes 2024/x" "w2.pdf" (by decide)⟩

/-- **C6, claim as stated, is false on the code.**  The ambiguous-placement
fallback buckets are `Images/Documents/Data/Music/Videos/Files`, selected by
extension only: an `.mp3` file lands in `Music`, which is none of the
claimed media-type buckets `Images/Audio/Video/Archives/Code/Inbox` nor a
keyword domain bucket. -/
theorem sanitize_fallback_bucket_counterexample :
    sanitize_path_suggestion "" "song.mp3" = "Music" ∧
    ("Music" : String) ∉ (["Images", "Audio", "Video", "Archives", "Code", "Inbox",
      "finance", "legal", "work", "education", "health", "travel",
      "personal"] : List String) := by
  constructor
  · decide
  · decide

/-- **C6 (amended).** Whenever sanitization leaves no usable path segments
(and the early filename-suffix branch is not taken), the returned placement
is the extension-selected default bucket, one of
`Images/Documents/Data/Music/Videos/Files`. -/
theorem sanitize_fallback_bucket (suggestedPath filename : String)
    (hne : pyEndsWith (normalizedSuggestion suggestedPath) filename = false)
    (hempty : sanitizedPartsOf suggestedPath filename = []) :
    sanitize_path_suggestion suggestedPath filename = fallbackBucket filename ∧
    fallbackBucket filename ∈
      (["Images", "Documents", "Data", "Music", "Videos", "Files"] : List String) := by
  constructor
  · unfold sanitize_path_suggestion
    rw [if_neg (by simp [hne])]
    have : (sanitizedPartsOf suggestedPath filename).take 7 = [] := by
      rw [hempty]; rfl
    rw [this]
    rfl
  · exact fallbackBucket_mem filename

/-- Witness for C6 at a concrete input: an empty suggestion for `song.mp3`
leaves no segments and falls back to the `Music` bucket. -/
theorem sanitize_fallback_bucket_witness :
    sanitize_path_suggestion "" "song.mp3" = fallbackBucket "song.mp3" ∧
    fallbackBucket "song.mp3" = "Music" := by
  refine ⟨(sanitize_fallback_bucket "" "song.mp3" (by decide) (by decide)).1, by decide⟩

/-! ## `process_document` + `InputDirectoryHandler._delayed_process`

The ingestion pipeline (utils.py `process_document`, called from
main.py `_delayed_process`) is modelled as a function from an environment of
external-call outcomes to its returned value and the ordered list of
observable effects.  The LLM calls are external oracles (`None` models a
raised exception, caught by the outer `except`); `save_file` returns a bool
that `process_document` checks (raising on `False`); the chroma index write
`add_document_to_collection` catches its own exceptions internally and
returns a bool that `process_document` does not inspect. -/

/-- The duplicate-adjacent-segment cleanup of `process_document`:
`path_parts[i]` is kept iff `i == 0` or it differs from `path_parts[i-1]`. -/
def dedupAdjacentAux (prev : String) : List String → List String
  | [] => []
  | y :: rest => if y = prev then dedupAdjacentAux y rest else y :: dedupAdjacentAux y rest

def dedupAdjacent (l : List String) : List String :=
  match l with
  | [] => []
  | x :: rest => x :: dedupAdjacentAux x rest

/-- External-call outcomes for one `process_document` run.  `none` for an
LLM call models a raised exception. -/
structure IngestEnv where
  filename : String
  summaryResult : Option String
  pathResult : Option String
  saveOk : Bool
  indexWriteOk : Bool
  fs : List String
  sourceExists : Bool

/-- Observable effects, in execution order. -/
inductive IngestEvent where
  | saveFile (ok : Bool)
  | indexWrite (ok : Bool)
  | logMove (status : String)
  | removeSource
deriving DecidableEq, Repr

/-- `utils.process_document`: extract → summarize → suggest → sanitize →
place → save → index-write → log.  Any exception up to and including the
save jumps to the `except` block (log failed, return `None`); the index
write cannot raise (its failures are swallowed in `chroma_service`) and its
boolean result is ignored. -/
def process_document (env : IngestEnv) : Option String × List IngestEvent :=
  match env.summaryResult with
  | none => (none, [.logMove "failed"])
  | some _ =>
    match env.pathResult with
    | none => (none, [.logMove "failed"])
    | some suggested =>
      let sanitized := sanitize_path_suggestion suggested env.filename
      let withFile := pyJoinPath sanitized env.filename
      let parts := pySplit (pyReplace withFile "\\" "/") '/'
      let finalPath0 := normpath (pyJoin (dedupAdjacent parts) '/')
      let finalPath := ensureUniqueRelativePath env.fs finalPath0
      if env.saveOk = false then
        (none, [.saveFile false, .logMove "failed"])
      else
        (some finalPath,
          [.saveFile true, .indexWrite env.indexWriteOk, .logMove "success"])

/-- The tail of `main.InputDirectoryHandler._delayed_process`: the source
file is removed iff processing returned a path and the source still exists. -/
def delayed_process (env : IngestEnv) : List IngestEvent :=
  (process_document env).2 ++
    (if (process_document env).1.isSome ∧ env.sourceExists = true then
      [.removeSource]
    else [])

/-- **C1, claim as stated, is false on the code.**  With a failing index
write (and every other step succeeding) the ingestion is still marked
`success`, the run returns a path, and the source file is removed: the
chroma layer converts the index-write exception into a `False` return that
`process_document` never checks. -/
theorem ingestion_index_failure_counterexample :
    let env : IngestEnv :=
      ⟨"a.txt", some "summary", some "Docs", true, false, [], true⟩
    IngestEvent.removeSource ∈ delayed_process env ∧
    IngestEvent.indexWrite false ∈ delayed_process env ∧
    IngestEvent.logMove "success" ∈ delayed_process env ∧
    IngestEvent.logMove "failed" ∉ delayed_process env ∧
    (process_document env).1.isSome = true := by
  refine ⟨?_, ?_, ?_, ?_, ?_⟩ <;> decide

/-- **C1 (amended).**  The source file is removed only after the archive
save succeeded and the index-write call completed (removal, when it happens,
is the last effect of the fixed trace below); a summarization,
path-suggestion, or save failure marks the ingestion failed and retains the
source; an index-write failure, however, is logged inside the chroma layer
only — the ingestion is still marked `success` and the source is removed. -/
theorem ingestion_source_removal (env : IngestEnv) :
    (IngestEvent.removeSource ∈ delayed_process env →
      env.saveOk = true ∧
      delayed_process env =
        [.saveFile true, .indexWrite env.indexWriteOk, .logMove "success",
          .removeSource]) ∧
    ((env.summaryResult = none ∨ env.pathResult = none ∨ env.saveOk = false) →
      (process_document env).1 = none ∧
      IngestEvent.logMove "failed" ∈ delayed_process env ∧
      IngestEvent.removeSource ∉ delayed_process env) ∧
    ((∃ s, env.summaryResult = some s) → (∃ p, env.pathResult = some p) →
      env.saveOk = true →
      (process_document env).1.isSome = true ∧
      IngestEvent.logMove "success" ∈ delayed_process env) := by
  obtain ⟨fn, sumR, pathR, saveOk, idxOk, fs, srcEx⟩ := env
  refine ⟨?_, ?_, ?_⟩
  · intro hmem
    cases sumR with
    | none =>
      exfalso
      revert hmem
      simp [delayed_process, process_document]
    | some s =>
      cases pathR with
      | none =>
        exfalso
        revert hmem
        simp [delayed_process, process_document]
      | some p =>
        cases saveOk with
        | false =>
          exfalso
          revert hmem
          simp [delayed_process, process_document]
        | true =>
          refine ⟨rfl, ?_⟩
          simp only [delayed_process, process_document] at hmem ⊢
          cases srcEx with
          | false => simp at hmem
          | true => simp
  · intro hfail
    cases sumR with
    | none => simp [delayed_process, process_document]
    | some s =>
      cases pathR with
      | none => simp [delayed_process, process_document]
      | some p =>
        cases saveOk with
        | false => simp [delayed_process, process_document]
        | true => simp at hfail
  · rintro ⟨s, hs⟩ ⟨p, hp⟩ hsave
    cases hs; cases hp; cases hsave
    simp [delayed_process, process_document]

/-- Witness for C1 (amended) at a concrete failing save: processing fails,
is logged failed, and the source is kept. -/
theorem ingestion_source_removal_witness :
    let env : IngestEnv :=
      ⟨"a.txt", some "summary", some "Docs", false, true, [], true⟩
    (process_document env).1 = none ∧
    IngestEvent.logMove "failed" ∈ delayed_process env ∧
    IngestEvent.removeSource ∉ delayed_process env :=
  (ingestion_source_removal
    ⟨"a.txt", some "summary", some "Docs", false, true, [], true⟩).2.1
    (Or.inr (Or.inr rfl))

/-! ## `InputDirectoryHandler` in-flight set (main.py `on_created` /
`_delayed_process`)

Per-path model of `processing_files`: `on_created` checks membership and
inserts under `state_lock` atomically; the worker task's `finally` block
discards the path whatever the outcome.  For one fixed path the state is
whether it is in the set and how many worker tasks for it are active. -/

structure InFlightState where
  inFlight : Bool
  running : ℕ
deriving DecidableEq, Repr

inductive InFlightAction where
  | createEvent
  | finishTask (success : Bool)

/-- Atomic transitions, labelled with the number of ingestion tasks the
transition dispatches. -/
inductive InFlightStep : InFlightState → InFlightAction → ℕ → InFlightState → Prop
  | createSkip (s : InFlightState) (h : s.inFlight = true) :
      InFlightStep s .createEvent 0 s
  | createDispatch (s : InFlightState) (h : s.inFlight = false) :
      InFlightStep s .createEvent 1 ⟨true, s.running + 1⟩
  | finish (s : InFlightState) (outcome : Bool) (h : 1 ≤ s.running) :
      InFlightStep s (.finishTask outcome) 0 ⟨false, s.running - 1⟩

/-- States reachable from the initial empty set. -/
inductive InFlightReachable : InFlightState → Prop
  | init : InFlightReachable ⟨false, 0⟩
  | step {s : InFlightState} {a : InFlightAction} {n : ℕ} {s' : InFlightState} :
      InFlightReachable s → InFlightStep s a n s' → InFlightReachable s'

lemma inFlightStep_preserves {s : InFlightState} {a : InFlightAction} {n : ℕ}
    {s' : InFlightState} (hstep : InFlightStep s a n s')
    (ih : s.running ≤ 1 ∧ (s.running = 1 → s.inFlight = true)) :
    s'.running ≤ 1 ∧ (s'.running = 1 → s'.inFlight = true) := by
  cases hstep with
  | createSkip h => exact ih
  | createDispatch h =>
    have hzero : s.running = 0 := by
      by_contra hc
      have h1 : s.running = 1 := by omega
      exact absurd (ih.2 h1) (by simp [h])
    rw [hzero]
    exact ⟨by simp, fun _ => rfl⟩
  | finish outcome h =>
    have h1 := ih.1
    refine ⟨?_, fun hcon => ?_⟩
    · show s.running - 1 ≤ 1
      omega
    · exfalso
      have : s.running - 1 = 1 := hcon
      omega

lemma inFlight_invariant {s : InFlightState} (h : InFlightReachable s) :
    s.running ≤ 1 ∧ (s.running = 1 → s.inFlight = true) := by
  induction h with
  | init => exact ⟨by decide, by decide⟩
  | step _ hstep ih => exact inFlightStep_preserves hstep ih

/-- **C4.**  (i) At most one ingestion task per path is ever active — no two
concurrent tasks process the same path; (ii) a create event for a path
already in the in-flight set dispatches zero additional tasks and changes
nothing; (iii) task completion removes the path from the set regardless of
the outcome. -/
theorem in_flight_race_safety :
    (∀ s : InFlightState, InFlightReachable s → s.running ≤ 1) ∧
    (∀ (s : InFlightState) (n : ℕ) (s' : InFlightState),
      InFlightStep s .createEvent n s' → s.inFlight = true → n = 0 ∧ s' = s) ∧
    (∀ (s : InFlightState) (outcome : Bool) (n : ℕ) (s' : InFlightState),
      InFlightStep s (.finishTask outcome) n s' → s'.inFlight = false) := by
  refine ⟨fun s h => (inFlight_invariant h).1, ?_, ?_⟩
  · intro s n s' hstep hin
    cases hstep with
    | createSkip h => exact ⟨rfl, rfl⟩
    | createDispatch h => exact absurd hin (by simp [h])
  · intro s outcome n s' hstep
    cases hstep with
    | finish h => rfl

/-- Witness for C4 at a concrete trace: after one dispatch the path is in
flight with one task, a duplicate create event dispatches nothing, and both
a failing and a succeeding finish clear the flag. -/
theorem in_flight_race_safety_witness :
    (InFlightState.mk true 1).running ≤ 1 ∧
    (0 = 0 ∧ InFlightState.mk true 1 = InFlightState.mk true 1) ∧
    (InFlightState.mk false 0).inFlight = false := by
  refine ⟨?_, ?_, ?_⟩
  · exact in_flight_race_safety.1 ⟨true, 1⟩
      (InFlightReachable.step InFlightReachable.init
        (InFlightStep.createDispatch ⟨false, 0⟩ rfl))
  · exact in_flight_race_safety.2.1 ⟨true, 1⟩ 0 ⟨true, 1⟩
      (InFlightStep.createSkip ⟨true, 1⟩ rfl) rfl
  · exact in_flight_race_safety.2.2 ⟨true, 1⟩ false 0 ⟨false, 0⟩
      (InFlightStep.finish ⟨true, 1⟩ false (by decide))

/-! ## `_run_reconciliation_worker` / `schedule_reconciliation` (main.py)

State of the reconciliation scheduling machinery: the two lock-protected
flags plus how many dispatcher threads sit at the worker entry check
(`nEntry`) and how many passes are currently executing (`nPass`).  A
`trigger` is one `schedule_reconciliation` call: it sets the pending flag
and (unless its debounce timer is later cancelled) eventually runs
`_run_reconciliation_worker` in a fresh thread.  Every lock-protected
region of the worker is one atomic transition. -/

structure ReconSchedState where
  running : Bool
  pending : Bool
  nEntry : ℕ
  nPass : ℕ
deriving DecidableEq, Repr

inductive ReconAction where
  | trigger (spawns : Bool)
  | enterExit
  | enterRun
  | passFinishLoop
  | passFinishDone
deriving DecidableEq, Repr

/-- Atomic transitions of the scheduler.  `trigger`: `pending := True` and
optionally one future worker dispatch.  `enterExit`: the entry check sees
`running` or `not pending` and returns.  `enterRun`: the entry check claims
the pass (`pending := False; running := True`).  `passFinishLoop`: the
`finally` block with `pending` still set — release `running` and loop back
to the entry check.  `passFinishDone`: the `finally` block with `pending`
clear — release `running` and exit the thread. -/
inductive ReconStep : ReconSchedState → ReconAction → ReconSchedState → Prop
  | trigger (s : ReconSchedState) (sp : Bool) :
      ReconStep s (.trigger sp)
        ⟨s.running, true, s.nEntry + (if sp then 1 else 0), s.nPass⟩
  | enterExit (s : ReconSchedState) (h1 : 1 ≤ s.nEntry)
      (h2 : s.running = true ∨ s.pending = false) :
      ReconStep s .enterExit ⟨s.running, s.pending, s.nEntry - 1, s.nPass⟩
  | enterRun (s : ReconSchedState) (h1 : 1 ≤ s.nEntry) (h2 : s.running = false)
      (h3 : s.pending = true) :
      ReconStep s .enterRun ⟨true, false, s.nEntry - 1, s.nPass + 1⟩
  | passFinishLoop (s : ReconSchedState) (h1 : 1 ≤ s.nPass) (h2 : s.pending = true) :
      ReconStep s .passFinishLoop ⟨false, s.pending, s.nEntry + 1, s.nPass - 1⟩
  | passFinishDone (s : ReconSchedState) (h1 : 1 ≤ s.nPass) (h2 : s.pending = false) :
      ReconStep s .passFinishDone ⟨false, s.pending, s.nEntry, s.nPass - 1⟩

/-- Multi-step execution along a list of actions. -/
inductive ReconSteps : ReconSchedState → List ReconAction → ReconSchedState → Prop
  | nil (s : ReconSchedState) : ReconSteps s [] s
  | cons {s s' s'' : ReconSchedState} {a : ReconAction} {tr : List ReconAction} :
      ReconStep s a s' → ReconSteps s' tr s'' → ReconSteps s (a :: tr) s''

/-- Reachability from the boot state (no flags set, no threads). -/
inductive ReconReachable : ReconSchedState → Prop
  | init : ReconReachable ⟨false, false, 0, 0⟩
  | step {s s' : ReconSchedState} {a : ReconAction} :
      ReconReachable s → ReconStep s a s' → ReconReachable s'

def isTrigger : ReconAction → Bool
  | .trigger _ => true
  | _ => false

/-- Number of passes started along a trace. -/
def countEnterRun (tr : List ReconAction) : ℕ :=
  (tr.filter (fun a => a = .enterRun)).length

lemma countEnterRun_cons (a : ReconAction) (tr : List ReconAction) :
    countEnterRun (a :: tr) =
      (if a = ReconAction.enterRun then 1 else 0) + countEnterRun tr := by
  simp only [countEnterRun, List.filter_cons]
  by_cases h : a = ReconAction.enterRun
  · simp [h, Nat.add_comm]
  · simp [h]

lemma reconStep_preserves_mutex {s s' : ReconSchedState} {a : ReconAction}
    (hstep : ReconStep s a s')
    (ih : s.nPass ≤ 1 ∧ (s.running = true ↔ s.nPass = 1)) :
    s'.nPass ≤ 1 ∧ (s'.running = true ↔ s'.nPass = 1) := by
  cases hstep with
  | trigger sp => exact ih
  | enterExit h1 h2 => exact ih
  | enterRun h1 h2 h3 =>
    have hne : s.nPass ≠ 1 := fun hc => by simp [ih.2.mpr hc] at h2
    have hzero : s.nPass = 0 := by have := ih.1; omega
    refine ⟨?_, ?_⟩
    · show s.nPass + 1 ≤ 1
      omega
    · show true = true ↔ s.nPass + 1 = 1
      simp [hzero]
  | passFinishLoop h1 h2 =>
    have hone : s.nPass = 1 := by have := ih.1; omega
    refine ⟨?_, ?_⟩
    · show s.nPass - 1 ≤ 1
      omega
    · show false = true ↔ s.nPass - 1 = 1
      simp [hone]
  | passFinishDone h1 h2 =>
    have hone : s.nPass = 1 := by have := ih.1; omega
    refine ⟨?_, ?_⟩
    · show s.nPass - 1 ≤ 1
      omega
    · show false = true ↔ s.nPass - 1 = 1
      simp [hone]

lemma recon_mutex_invariant {s : ReconSchedState} (h : ReconReachable s) :
    s.nPass ≤ 1 ∧ (s.running = true ↔ s.nPass = 1) := by
  induction h with
  | init => exact ⟨by decide, by decide⟩
  | step _ hstep ih => exact reconStep_preserves_mutex hstep ih

/-- In a trigger-free execution started with the pending flag clear, the
flag stays clear and no pass ever starts. -/
lemma no_enterRun_of_pending_clear {s : ReconSchedState} {tr : List ReconAction}
    {s' : ReconSchedState} (hrun : ReconSteps s tr s')
    (hnt : ∀ a ∈ tr, isTrigger a = false) (hp : s.pending = false) :
    countEnterRun tr = 0 ∧ s'.pending = false := by
  induction hrun with
  | nil s => exact ⟨rfl, hp⟩
  | @cons s s' s'' a tr hstep hrest ih =>
    have hnt' : ∀ b ∈ tr, isTrigger b = false := fun b hb => hnt b (by simp [hb])
    cases hstep with
    | trigger sp => exact absurd (hnt (ReconAction.trigger sp) (by simp)) (by simp [isTrigger])
    | enterExit h1 h2 =>
      obtain ⟨hc, hp'⟩ := ih hnt' hp
      exact ⟨by rw [countEnterRun_cons]; simpa using hc, hp'⟩
    | enterRun h1 h2 h3 => exact absurd hp (by simp [h3])
    | passFinishLoop h1 h2 => exact absurd hp (by simp [h2])
    | passFinishDone h1 h2 =>
      obtain ⟨hc, hp'⟩ := ih hnt' hp
      exact ⟨by rw [countEnterRun_cons]; simpa using hc, hp'⟩

/-- In a trigger-free execution, at most one pass ever starts after the
pending flag was set: the first `enterRun` consumes the flag. -/
lemma at_most_one_enterRun {s : ReconSchedState} {tr : List ReconAction}
    {s' : ReconSchedState} (hrun : ReconSteps s tr s')
    (hnt : ∀ a ∈ tr, isTrigger a = false) :
    countEnterRun tr ≤ 1 := by
  induction hrun with
  | nil s => decide
  | @cons s s' s'' a tr hstep hrest ih =>
    have hnt' : ∀ b ∈ tr, isTrigger b = false := fun b hb => hnt b (by simp [hb])
    cases hstep with
    | trigger sp => exact absurd (hnt (ReconAction.trigger sp) (by simp)) (by simp [isTrigger])
    | enterExit h1 h2 =>
      have hih := ih hnt'
      rw [countEnterRun_cons]
      simpa using hih
    | enterRun h1 h2 h3 =>
      have hz := (no_enterRun_of_pending_clear hrest hnt' rfl).1
      rw [countEnterRun_cons]
      simp [hz]
    | passFinishLoop h1 h2 =>
      have hih := ih hnt'
      rw [countEnterRun_cons]
      simpa using hih
    | passFinishDone h1 h2 =>
      have hih := ih hnt'
      rw [countEnterRun_cons]
      simpa using hih

/-- The coalescing invariant: pending is set, and either the pass is still
running, or it has finished and its worker thread (at least) is looping back
through the entry check. -/
def coalesceInv (s : ReconSchedState) : Prop :=
  s.pending = true ∧
    ((s.nPass = 1 ∧ s.running = true) ∨
      (s.nPass = 0 ∧ s.running = false ∧ 1 ≤ s.nEntry))

lemma coalesceInv_preserved {s : ReconSchedState} {tr : List ReconAction}
    {s' : ReconSchedState} (hrun : ReconSteps s tr s')
    (hnt : ∀ a ∈ tr, isTrigger a = false) (hcount : countEnterRun tr = 0)
    (hinv : coalesceInv s) : coalesceInv s' := by
  induction hrun with
  | nil s => exact hinv
  | @cons s s' s'' a tr hstep hrest ih =>
    have hnt' : ∀ b ∈ tr, isTrigger b = false := fun b hb => hnt b (by simp [hb])
    obtain ⟨hp, hcase⟩ := hinv
    cases hstep with
    | trigger sp => exact absurd (hnt (ReconAction.trigger sp) (by simp)) (by simp [isTrigger])
    | enterExit h1 h2 =>
      refine ih hnt' (by rw [countEnterRun_cons] at hcount; simpa using hcount) ⟨hp, ?_⟩
      rcases hcase with ⟨ha, hb⟩ | ⟨ha, hb, hc⟩
      · exact Or.inl ⟨ha, hb⟩
      · rcases h2 with h2 | h2
        · exact absurd h2 (by simp [hb])
        · exact absurd h2 (by simp [hp])
    | enterRun h1 h2 h3 =>
      exfalso
      rw [countEnterRun_cons] at hcount
      simp at hcount
    | passFinishLoop h1 h2 =>
      refine ih hnt' (by rw [countEnterRun_cons] at hcount; simpa using hcount)
        ⟨hp, Or.inr ⟨?_, rfl, ?_⟩⟩
      · show s.nPass - 1 = 0
        rcases hcase with ⟨ha, _⟩ | ⟨ha, _, _⟩ <;> omega
      · show 1 ≤ s.nEntry + 1
        omega
    | passFinishDone h1 h2 =>
      exact absurd hp (by simp [h2])

/-- **C8.**  (i) Mutual exclusion: in every reachable scheduler state at
most one reconciliation pass is executing.  (ii) Burst coalescing: from any
state in which a pass is running and triggers have set the pending flag
(however many they were), every trigger-free execution that drains to
quiescence (no active pass, no waiting dispatcher) starts exactly one
follow-up pass — never a queue of them. -/
theorem reconciliation_single_pass_coalescing :
    (∀ s : ReconSchedState, ReconReachable s → s.nPass ≤ 1) ∧
    (∀ (s : ReconSchedState) (tr : List ReconAction) (s' : ReconSchedState),
      s.pending = true → s.nPass = 1 → s.running = true →
      (∀ a ∈ tr, isTrigger a = false) →
      ReconSteps s tr s' → s'.nEntry = 0 → s'.nPass = 0 →
      countEnterRun tr = 1) := by
  constructor
  · exact fun s h => (recon_mutex_invariant h).1
  · intro s tr s' hp hnp hr hnt hrun hqe hqp
    have hle := at_most_one_enterRun hrun hnt
    rcases Nat.lt_or_ge (countEnterRun tr) 1 with hlt | hge
    · exfalso
      have hzero : countEnterRun tr = 0 := by omega
      have hinv' := coalesceInv_preserved hrun hnt hzero ⟨hp, Or.inl ⟨hnp, hr⟩⟩
      rcases hinv'.2 with ⟨ha, _⟩ | ⟨_, _, hc⟩
      · omega
      · omega
    · omega

/-- Witness for C8 at a concrete trace: from a mid-pass state with pending
set, the pass finishes and loops, the follow-up runs, then the system
drains: exactly one `enterRun`. -/
theorem reconciliation_single_pass_coalescing_witness :
    countEnterRun [ReconAction.passFinishLoop, ReconAction.enterRun,
      ReconAction.passFinishDone] = 1 ∧
    (ReconSchedState.mk true true 0 1).nPass ≤ 1 := by
  constructor
  · refine reconciliation_single_pass_coalescing.2 ⟨true, true, 0, 1⟩ _
      ⟨false, false, 0, 0⟩ rfl rfl rfl (by decide) ?_ rfl rfl
    refine ReconSteps.cons (ReconStep.passFinishLoop ⟨true, true, 0, 1⟩ (by decide) rfl) ?_
    refine ReconSteps.cons (ReconStep.enterRun ⟨false, true, 1, 0⟩ (by decide) rfl rfl) ?_
    refine ReconSteps.cons (ReconStep.passFinishDone ⟨true, false, 0, 1⟩ (by decide) rfl) ?_
    exact ReconSteps.nil ⟨false, false, 0, 0⟩
  · exact reconciliation_single_pass_coalescing.1 ⟨true, true, 0, 1⟩
      (ReconReachable.step
        (ReconReachable.step
          (ReconReachable.step ReconReachable.init
            (ReconStep.trigger ⟨false, false, 0, 0⟩ true))
          (ReconStep.enterRun ⟨false, true, 1, 0⟩ (by decide) rfl rfl))
        (ReconStep.trigger ⟨true, false, 0, 1⟩ false))

/-! ## `_build_directory_context_payload` (backend/utils.py)

The external collaborators are inputs: `archiveFilesRaw` is
`filesystem.list_archive_files()`, `indexedRaw` is
`chroma.list_indexed_paths()`, and `treeText` is the rendered
`filesystem.directory_tree_for_llm(...)` string.  `json.dumps` with
`separators=(",", ":")` and `ensure_ascii=False` is modelled by an explicit
serializer for the fixed payload shape (insertion-ordered keys). -/

/-- `limit_text_for_llm`: keep the first `maxChars` characters. -/
def limit_text_for_llm (text : String) (maxChars : ℕ) : String :=
  ⟨text.data.take maxChars⟩

/-- `_normalize_path_for_prompt`. -/
def normalizePathForPrompt (p : String) : String :=
  pyStrip (pyReplace p "\\" "/")

/-- The non-empty `/`-separated components of a normalized prompt path. -/
def promptPathParts (normalized : String) : List String :=
  (pySplit normalized '/').filter (fun part => part ≠ "")

/-- `_is_visible_prompt_path`. -/
def isVisiblePromptPath (p : String) : Bool :=
  if normalizePathForPrompt p = "" then false
  else if promptPathParts (normalizePathForPrompt p) = [] then false
  else if (promptPathParts (normalizePathForPrompt p)).contains ".chromadb" then false
  else if (promptPathParts (normalizePathForPrompt p)).any
      (fun part => pyStartsWith part ".") then false
  else true

/-- Python `sorted(...)` of a set of strings: code-point ascending, unique. -/
def pySortedSet (l : List String) : List String :=
  (List.insertionSort (fun a b : String => a ≤ b) l).dedup

/-- `_sorted_visible_paths`. -/
def sortedVisiblePaths (paths : List String) : List String :=
  pySortedSet ((paths.filter (fun p => isVisiblePromptPath p)).map normalizePathForPrompt)

/-- `str.strip("/")`. -/
def pyStripSlashes (s : String) : String :=
  ⟨((s.data.dropWhile (fun c => c = '/')).reverse.dropWhile (fun c => c = '/')).reverse⟩

/-- `os.path.dirname(normalized).replace("\\\\", "/").strip("/")`. -/
def dirPrefixParent (normalized : String) : String :=
  pyStripSlashes (pyReplace (dirname normalized) "\\" "/")

/-- Directory prefixes (depth ≤ 7) contributed by one path, as in
`_extract_directory_prefixes_for_prompt`. -/
def dirPrefixesOf (path : String) : List String :=
  if normalizePathForPrompt path = "" ∨
      pyStartsWith (normalizePathForPrompt path) "... (" = true then []
  else if dirPrefixParent (normalizePathForPrompt path) = "" then []
  else
    (List.range
        (min (promptPathParts (dirPrefixParent (normalizePathForPrompt path))).length 7)).map
      (fun i =>
        pyJoin ((promptPathParts (dirPrefixParent (normalizePathForPrompt path))).take (i + 1)) '/')

/-- `_extract_directory_prefixes_for_prompt`. -/
def extractDirectoryPrefixesForPrompt (paths : List String) : List String :=
  pySortedSet ((paths.map dirPrefixesOf).flatten)

/-- `_trim_paths_for_prompt`. -/
def trimPathsForPrompt (paths : List String) (maxItems : ℕ) : List String :=
  if maxItems = 0 then []
  else if paths.length ≤ maxItems then paths
  else
    paths.take maxItems ++
      ["... (" ++ pyStrNat (paths.length - maxItems) ++
        " additional paths omitted to fit prompt limits)"]

/-- Lowercase hexadecimal digit. -/
def hexDigitChar (n : ℕ) : Char :=
  if n < 10 then decDigitChar n else Char.ofNat (87 + n)

/-- One character under `json.dumps(..., ensure_ascii=False)`. -/
def jsonEscapeChar (c : Char) : List Char :=
  if c = '"' then ['\\', '"']
  else if c = '\\' then ['\\', '\\']
  else if c = '\n' then ['\\', 'n']
  else if c = '\x0d' then ['\\', 'r']
  else if c = '\t' then ['\\', 't']
  else if c = '\x08' then ['\\', 'b']
  else if c = '\x0c' then ['\\', 'f']
  else if c.toNat < 32 then
    ['\\', 'u', '0', '0', hexDigitChar (c.toNat / 16), hexDigitChar (c.toNat % 16)]
  else [c]

/-- JSON string literal. -/
def jsonStr (s : String) : String :=
  "\"" ++ ⟨(s.data.map jsonEscapeChar).flatten⟩ ++ "\""

/-- JSON array of string literals (`","`-joined). -/
def jsonStrList (l : List String) : String :=
  "[" ++ pyJoin (l.map jsonStr) ',' ++ "]"

/-- Serialization of one size variant of the payload dict (key order is the
Python insertion order; `\x7b`/`\x7d` are the literal braces). -/
def serializeContextPayload (tree : String) (nArch nIdx nUnidx nDb : ℕ)
    (dirs arch idx unidx dbOnly : List String) : String :=
  "\x7b\"archive_tree\":" ++ jsonStr tree ++
    ",\"stats\":\x7b\"archive_file_count\":" ++ pyStrNat nArch ++
    ",\"indexed_file_count\":" ++ pyStrNat nIdx ++
    ",\"unindexed_file_count\":" ++ pyStrNat nUnidx ++
    ",\"db_only_record_count\":" ++ pyStrNat nDb ++
    "\x7d,\"existing_directories\":" ++ jsonStrList dirs ++
    ",\"archive_files\":" ++ jsonStrList arch ++
    ",\"indexed_files\":" ++ jsonStrList idx ++
    ",\"unindexed_archive_files\":" ++ jsonStrList unidx ++
    ",\"db_only_index_records\":" ++ jsonStrList dbOnly ++ "\x7d"

/-- Serialization of the minimal last-resort payload. -/
def serializeMinimalPayload (tree : String) (nArch nIdx nUnidx nDb : ℕ)
    (dirs unidx dbOnly : List String) : String :=
  "\x7b\"archive_tree\":" ++ jsonStr tree ++
    ",\"stats\":\x7b\"archive_file_count\":" ++ pyStrNat nArch ++
    ",\"indexed_file_count\":" ++ pyStrNat nIdx ++
    ",\"unindexed_file_count\":" ++ pyStrNat nUnidx ++
    ",\"db_only_record_count\":" ++ pyStrNat nDb ++
    "\x7d,\"existing_directories\":" ++ jsonStrList dirs ++
    ",\"unindexed_archive_files\":" ++ jsonStrList unidx ++
    ",\"db_only_index_records\":" ++ jsonStrList dbOnly ++ "\x7d"

/-- The four truncation presets `(tree_chars, archive, indexed, unindexed,
db_only)` tried in order. -/
def contextVariants : List (ℕ × ℕ × ℕ × ℕ × ℕ) :=
  [(12000, 1200, 600, 1200, 600), (9000, 800, 400, 800, 400),
    (7000, 500, 250, 500, 250), (5000, 300, 150, 300, 150)]

/-- `sorted(archive_set - indexed_set)`. -/
def ctxDiff (a b : List String) : List String :=
  pySortedSet (a.filter (fun p => p ∉ b))

/-- Serialization of one variant of `_build_directory_context_payload`. -/
def variantSerialized (archiveFilesRaw indexedRaw : List String)
    (treeText : String) (v : ℕ × ℕ × ℕ × ℕ × ℕ) : String :=
  serializeContextPayload (limit_text_for_llm treeText v.1)
    (sortedVisiblePaths archiveFilesRaw).length
    (sortedVisiblePaths indexedRaw).length
    (ctxDiff (sortedVisiblePaths archiveFilesRaw) (sortedVisiblePaths indexedRaw)).length
    (ctxDiff (sortedVisiblePaths indexedRaw) (sortedVisiblePaths archiveFilesRaw)).length
    (trimPathsForPrompt
      (extractDirectoryPrefixesForPrompt (sortedVisiblePaths archiveFilesRaw)) v.2.1)
    (trimPathsForPrompt (sortedVisiblePaths archiveFilesRaw) v.2.1)
    (trimPathsForPrompt (sortedVisiblePaths indexedRaw) v.2.2.1)
    (trimPathsForPrompt
      (ctxDiff (sortedVisiblePaths archiveFilesRaw) (sortedVisiblePaths indexedRaw)) v.2.2.2.1)
    (trimPathsForPrompt
      (ctxDiff (sortedVisiblePaths indexedRaw) (sortedVisiblePaths archiveFilesRaw)) v.2.2.2.2)

/-- Serialization of the minimal last-resort preset. -/
def minimalSerialized (archiveFilesRaw indexedRaw : List String)
    (treeText : String) : String :=
  serializeMinimalPayload (limit_text_for_llm treeText 3500)
    (sortedVisiblePaths archiveFilesRaw).length
    (sortedVisiblePaths indexedRaw).length
    (ctxDiff (sortedVisiblePaths archiveFilesRaw) (sortedVisiblePaths indexedRaw)).length
    (ctxDiff (sortedVisiblePaths indexedRaw) (sortedVisiblePaths archiveFilesRaw)).length
    (trimPathsForPrompt
      (extractDirectoryPrefixesForPrompt (sortedVisiblePaths archiveFilesRaw)) 200)
    (trimPathsForPrompt
      (ctxDiff (sortedVisiblePaths archiveFilesRaw) (sortedVisiblePaths indexedRaw)) 120)
    (trimPathsForPrompt
      (ctxDiff (sortedVisiblePaths indexedRaw) (sortedVisiblePaths archiveFilesRaw)) 120)

/-- First serialized candidate within the budget, if any. -/
def firstFitting (maxChars : ℕ) : List String → Option String
  | [] => none
  | s :: rest => if s.length ≤ maxChars then some s else firstFitting maxChars rest

/-- `_build_directory_context_payload(max_chars)`: try the four presets in
order, return the first whose serialization fits; otherwise return the
minimal payload (which the code does not size-check). -/
def buildDirectoryContextPayload (archiveFilesRaw indexedRaw : List String)
    (treeText : String) (maxChars : ℕ) : String :=
  match firstFitting maxChars
      (contextVariants.map (variantSerialized archiveFilesRaw indexedRaw treeText)) with
  | some s => s
  | none => minimalSerialized archiveFilesRaw indexedRaw treeText

lemma firstFitting_le {maxChars : ℕ} :
    ∀ (l : List String) (s : String), firstFitting maxChars l = some s →
      s.length ≤ maxChars := by
  intro l
  induction l with
  | nil => intro s h; simp [firstFitting] at h
  | cons x rest ih =>
    intro s h
    simp only [firstFitting] at h
    by_cases hx : x.length ≤ maxChars
    · rw [if_pos hx] at h
      cases h
      exact hx
    · rw [if_neg hx] at h
      exact ih s h

lemma firstFitting_isSome {maxChars : ℕ} :
    ∀ l : List String, (∃ s ∈ l, s.length ≤ maxChars) →
      ∃ s, firstFitting maxChars l = some s := by
  intro l
  induction l with
  | nil => rintro ⟨s, hs, _⟩; simp at hs
  | cons x rest ih =>
    rintro ⟨s, hs, hle⟩
    simp only [firstFitting]
    by_cases hx : x.length ≤ maxChars
    · exact ⟨x, by rw [if_pos hx]⟩
    · rcases List.mem_cons.mp hs with rfl | hmem
      · exact absurd hle hx
      · obtain ⟨t, ht⟩ := ih ⟨s, hmem, hle⟩
        exact ⟨t, by rw [if_neg hx]; exact ht⟩

/-- **C9 (amended).** Whenever at least one of the four truncation presets
serializes within the configured character budget, the builder returns a
payload of at most that budget (the first fitting preset).  When no preset
fits, the minimal last-resort preset is returned without a size check and is
not bounded by the budget (see the counterexample). -/
theorem build_context_within_budget (archiveFilesRaw indexedRaw : List String)
    (treeText : String) (maxChars : ℕ)
    (h : ∃ v ∈ contextVariants,
      (variantSerialized archiveFilesRaw indexedRaw treeText v).length ≤ maxChars) :
    (buildDirectoryContextPayload archiveFilesRaw indexedRaw treeText maxChars).length ≤
      maxChars := by
  obtain ⟨v, hv, hle⟩ := h
  obtain ⟨s, hs⟩ := firstFitting_isSome
    (contextVariants.map (variantSerialized archiveFilesRaw indexedRaw treeText))
    ⟨variantSerialized archiveFilesRaw indexedRaw treeText v,
      List.mem_map_of_mem _ hv, hle⟩
  unfold buildDirectoryContextPayload
  rw [hs]
  exact firstFitting_le _ s hs

set_option maxRecDepth 4000 in
/-- Witness for C9 (amended) at a small concrete state: one archive file,
empty index, tiny tree — the first preset already fits 18000. -/
theorem build_context_within_budget_witness :
    (buildDirectoryContextPayload ["Docs/a.txt"] [] "|-- Docs/" 18000).length ≤ 18000 :=
  build_context_within_budget ["Docs/a.txt"] [] "|-- Docs/" 18000
    ⟨(12000, 1200, 600, 1200, 600), by decide, by decide⟩



/-! ### C9 counterexample: the minimal preset does not always fit -/

def c9Dir : String := ⟨List.replicate 18100 'A'⟩

def c9Path : String := c9Dir ++ "/f.txt"

lemma str_length_append (a b : String) : (a ++ b).length = a.length + b.length := by
  show (a.data ++ b.data).length = a.data.length + b.data.length
  exact List.length_append _ _

lemma c9Dir_data : c9Dir.data = List.replicate 18100 'A' := rfl

lemma c9Path_data : c9Path.data = List.replicate 18100 'A' ++ '/' :: "f.txt".data := by
  show (c9Dir ++ "/f.txt").data = _
  rw [String.data_append]
  rfl

lemma c9Dir_length : c9Dir.length = 18100 := by
  show (List.replicate 18100 'A').length = 18100
  rw [List.length_replicate]

lemma c9Dir_ne_empty : c9Dir ≠ "" := by
  intro h
  have h2 : c9Dir.length = ("" : String).length := by rw [h]
  rw [c9Dir_length] at h2
  exact absurd h2 (by decide)

lemma c9Path_length : c9Path.length = 18106 := by
  show (c9Dir ++ "/f.txt").length = 18106
  rw [str_length_append, c9Dir_length]
  rfl

lemma c9Path_ne_empty : c9Path ≠ "" := by
  intro h
  have h2 : c9Path.length = ("" : String).length := by rw [h]
  rw [c9Path_length] at h2
  exact absurd h2 (by decide)

lemma dropWhile_eq_self_of {p : Char → Bool} :
    ∀ s : List Char, (∀ c ∈ s, p c = false) → s.dropWhile p = s := by
  intro s h
  induction s with
  | nil => rfl
  | cons a t ih =>
    rw [List.dropWhile_cons, if_neg (by simp [h a (by simp)])]

lemma dropWhile_append_all {p : Char → Bool} :
    ∀ xs ys : List Char, (∀ x ∈ xs, p x = true) →
      (xs ++ ys).dropWhile p = ys.dropWhile p := by
  intro xs
  induction xs with
  | nil => intro ys _; rfl
  | cons a t ih =>
    intro ys h
    rw [List.cons_append, List.dropWhile_cons, if_pos (h a (by simp))]
    exact ih ys (fun x hx => h x (by simp [hx]))

lemma pyStripList_id {s : List Char} (h : ∀ c ∈ s, pyIsSpace c = false) :
    pyStripList s = s := by
  unfold pyStripList
  rw [dropWhile_eq_self_of s h,
    dropWhile_eq_self_of _ (fun c hc => h c (List.mem_reverse.mp hc)),
    List.reverse_reverse]

lemma pyReplaceAux_single_id {ch : Char} {new : List Char} :
    ∀ fuel s, (∀ c ∈ s, c ≠ ch) → pyReplaceAux [ch] new fuel s = s := by
  intro fuel
  induction fuel with
  | zero => intro s _; rfl
  | succ f ih =>
    intro s h
    cases s with
    | nil => rfl
    | cons a t =>
      have hne : ¬ ([ch] ≠ [] ∧ List.isPrefixOf [ch] (a :: t)) := by
        rintro ⟨-, hpre⟩
        have : ch = a := by
          have h2 := List.isPrefixOf_iff_prefix.mp hpre
          have := h2.subset (List.mem_singleton_self ch)
          rcases List.mem_cons.mp this with h3 | h3
          · exact h3
          · -- ch would have to be the head since the pattern has length 1
            rcases h2 with ⟨t', ht'⟩
            exact (List.cons.inj ht').1
        exact h a (by simp) this.symm
      show pyReplaceAux [ch] new (f + 1) (a :: t) = a :: t
      simp only [pyReplaceAux, if_neg hne]
      rw [ih t (fun c hc => h c (by simp [hc]))]

lemma pyReplace_id {s : String} {new : String} {ch : Char}
    (h : ∀ c ∈ s.data, c ≠ ch) : pyReplace s ⟨[ch]⟩ new = s := by
  show String.mk (pyReplaceList s.data [ch] new.data) = s
  rw [show pyReplaceList s.data [ch] new.data =
    pyReplaceAux [ch] new.data s.data.length s.data from rfl]
  rw [pyReplaceAux_single_id _ _ h]

lemma normalizePathForPrompt_id {s : String}
    (h1 : ∀ c ∈ s.data, c ≠ '\\') (h2 : ∀ c ∈ s.data, pyIsSpace c = false) :
    normalizePathForPrompt s = s := by
  unfold normalizePathForPrompt
  have hr : pyReplace s "\\" "/" = s := pyReplace_id h1
  rw [show ("\\" : String) = ⟨['\\']⟩ from rfl] at hr
  show pyStrip (pyReplace s "\\" "/") = s
  rw [show ("\\" : String) = ⟨['\\']⟩ from rfl, hr]
  show String.mk (pyStripList s.data) = s
  rw [pyStripList_id h2]

lemma smallChar_facts : ∀ c ∈ ('/' :: "f.txt".data),
    c ≠ '\\' ∧ pyIsSpace c = false ∧ c ≠ '"' ∧ 32 ≤ c.toNat := by
  decide

lemma c9Path_char_facts : ∀ c ∈ c9Path.data,
    c ≠ '\\' ∧ pyIsSpace c = false ∧ c ≠ '"' ∧ 32 ≤ c.toNat := by
  intro c hc
  rw [c9Path_data] at hc
  rcases List.mem_append.mp hc with h | h
  · have : c = 'A' := List.eq_of_mem_replicate h
    subst this
    exact ⟨by decide, by decide, by decide, by decide⟩
  · exact smallChar_facts c h

lemma c9Dir_char_facts : ∀ c ∈ c9Dir.data,
    c ≠ '\\' ∧ pyIsSpace c = false ∧ c ≠ '"' ∧ 32 ≤ c.toNat := by
  intro c hc
  have : c = 'A' := List.eq_of_mem_replicate hc
  subst this
  exact ⟨by decide, by decide, by decide, by decide⟩

lemma c9Path_norm : normalizePathForPrompt c9Path = c9Path :=
  normalizePathForPrompt_id (fun c hc => (c9Path_char_facts c hc).1)
    (fun c hc => (c9Path_char_facts c hc).2.1)

lemma c9Dir_not_slash : ∀ c ∈ c9Dir.data, c ≠ '/' := by
  intro c hc
  have : c = 'A' := List.eq_of_mem_replicate hc
  subst this
  decide



lemma c9Path_data' : c9Path.data = c9Dir.data ++ '/' :: "f.txt".data := by
  show (c9Dir ++ "/f.txt").data = _
  rw [String.data_append]

lemma c9_split : pySplit c9Path '/' = [c9Dir, "f.txt"] := by
  unfold pySplit
  rw [c9Path_data', pySplitChar_append _ c9Dir_not_slash,
    pySplitChar_sepFree (by decide : ∀ c ∈ "f.txt".data, c ≠ '/')]
  rfl

lemma c9_promptParts : promptPathParts c9Path = [c9Dir, "f.txt"] := by
  unfold promptPathParts
  rw [c9_split]
  rw [List.filter_cons, if_pos (by simp [c9Dir_ne_empty]),
    List.filter_cons, if_pos (by decide), List.filter_nil]

lemma c9Dir_head_cons : c9Dir.data = 'A' :: List.replicate 18099 'A' := by
  rw [c9Dir_data, show (18100 : ℕ) = 18099 + 1 from rfl, List.replicate_succ]

lemma c9Dir_not_startswith_dot : pyStartsWith c9Dir "." = false := by
  show List.isPrefixOf ['.'] c9Dir.data = false
  rw [c9Dir_head_cons]
  show (('.' == 'A') && List.isPrefixOf [] (List.replicate 18099 'A')) = false
  rw [show (('.' : Char) == 'A') = false from by decide]
  rfl

lemma c9_isVisible : isVisiblePromptPath c9Path = true := by
  unfold isVisiblePromptPath
  rw [c9Path_norm, c9_promptParts]
  rw [if_neg c9Path_ne_empty]
  rw [if_neg (by simp)]
  rw [if_neg ?hcont]
  case hcont =>
    rw [List.contains_eq_any_beq]
    simp only [List.any_cons, List.any_nil, Bool.or_false, Bool.or_eq_true,
      beq_iff_eq, not_or]
    constructor
    · intro h
      have h2 : (".chromadb" : String).length = c9Dir.length := by rw [h]
      rw [c9Dir_length] at h2
      exact absurd h2 (by decide)
    · decide
  rw [if_neg ?hdot]
  case hdot =>
    simp only [List.any_cons, List.any_nil, Bool.or_false, Bool.or_eq_true, not_or]
    constructor
    · simp [c9Dir_not_startswith_dot]
    · decide

lemma pySortedSet_singleton (x : String) : pySortedSet [x] = [x] := by
  unfold pySortedSet
  rw [show List.insertionSort (fun a b : String => a ≤ b) [x] = [x] from rfl]
  simp

lemma c9_sortedVisible : sortedVisiblePaths [c9Path] = [c9Path] := by
  unfold sortedVisiblePaths
  rw [show ([c9Path].filter (fun p => isVisiblePromptPath p)) = [c9Path] by
    rw [List.filter_cons, if_pos (by simp [c9_isVisible]), List.filter_nil]]
  rw [show ([c9Path].map normalizePathForPrompt) = [c9Path] by
    rw [List.map_cons, List.map_nil, c9Path_norm]]
  exact pySortedSet_singleton c9Path

lemma c9_revPath : c9Path.data.reverse =
    ['t', 'x', 't', '.', 'f', '/'] ++ List.replicate 18100 'A' := by
  rw [c9Path_data, List.reverse_append, List.reverse_replicate]
  rfl

lemma c9_dropRev : c9Path.data.reverse.dropWhile (fun c => c ≠ '/') =
    '/' :: List.replicate 18100 'A' := by
  rw [c9_revPath,
    show (['t', 'x', 't', '.', 'f', '/'] : List Char) =
      ['t', 'x', 't', '.', 'f'] ++ ['/'] from rfl,
    List.append_assoc, dropWhile_append_all _ _ (by decide),
    List.singleton_append, List.dropWhile_cons, if_neg (by decide)]

lemma c9_dirname : dirname c9Path = c9Dir := by
  show String.mk (dirnameList c9Path.data) = c9Dir
  have hhead : (c9Path.data.reverse.dropWhile (fun c => c ≠ '/')).reverse =
      List.replicate 18100 'A' ++ ['/'] := by
    rw [c9_dropRev, List.reverse_cons, List.reverse_replicate]
  show String.mk (
    if (c9Path.data.reverse.dropWhile (fun c => c ≠ '/')).reverse ≠ [] ∧
        ((c9Path.data.reverse.dropWhile (fun c => c ≠ '/')).reverse).any
          (fun c => c ≠ '/') then
      ((((c9Path.data.reverse.dropWhile (fun c => c ≠ '/')).reverse).reverse.dropWhile
        (fun c => c = '/')).reverse)
    else
      (c9Path.data.reverse.dropWhile (fun c => c ≠ '/')).reverse) = c9Dir
  rw [hhead]
  rw [if_pos ⟨by
      intro hk
      exact absurd (List.append_eq_nil.mp hk).2 (by decide),
    List.any_eq_true.mpr
      ⟨'A', List.mem_append_left _ (List.mem_replicate.mpr ⟨by decide, rfl⟩),
        by decide⟩⟩]
  rw [List.reverse_append, List.reverse_replicate]
  rw [show ((['/'] : List Char).reverse ++ List.replicate 18100 'A') =
    '/' :: List.replicate 18100 'A' from rfl]
  rw [List.dropWhile_cons, if_pos (by decide)]
  rw [dropWhile_eq_self_of _ (fun c hc => by
    have : c = 'A' := List.eq_of_mem_replicate hc
    subst this
    decide)]
  rw [List.reverse_replicate]
  rfl

lemma pyStripSlashes_id {s : String} (h : ∀ c ∈ s.data, c ≠ '/') :
    pyStripSlashes s = s := by
  unfold pyStripSlashes
  rw [dropWhile_eq_self_of s.data (fun c hc => decide_eq_false (h c hc)),
    dropWhile_eq_self_of _ (fun c hc => decide_eq_false (h c (List.mem_reverse.mp hc))),
    List.reverse_reverse]

lemma c9_dirPrefixParent : dirPrefixParent c9Path = c9Dir := by
  unfold dirPrefixParent
  rw [c9_dirname]
  rw [show ("\\" : String) = ⟨['\\']⟩ from rfl]
  rw [pyReplace_id (fun c hc => (c9Dir_char_facts c hc).1)]
  exact pyStripSlashes_id c9Dir_not_slash

lemma c9_promptParts_dir : promptPathParts c9Dir = [c9Dir] := by
  unfold promptPathParts
  have hsplit : pySplit c9Dir '/' = [c9Dir] := by
    unfold pySplit
    rw [pySplitChar_sepFree c9Dir_not_slash]
    rfl
  rw [hsplit, List.filter_cons, if_pos (by simp [c9Dir_ne_empty]), List.filter_nil]

lemma c9Path_head_cons : c9Path.data =
    'A' :: (List.replicate 18099 'A' ++ '/' :: "f.txt".data) := by
  rw [c9Path_data, show (18100 : ℕ) = 18099 + 1 from rfl, List.replicate_succ,
    List.cons_append]

lemma c9Path_not_ellipsis : pyStartsWith c9Path "... (" = false := by
  show List.isPrefixOf "... (".data c9Path.data = false
  rw [c9Path_head_cons]
  show (('.' == 'A') && List.isPrefixOf ['.', '.', ' ', '('] _) = false
  rw [show (('.' : Char) == 'A') = false from by decide]
  rfl

lemma c9_dirPrefixes : dirPrefixesOf c9Path = [c9Dir] := by
  unfold dirPrefixesOf
  rw [c9Path_norm]
  rw [if_neg ?h1]
  case h1 =>
    rintro (h | h)
    · exact c9Path_ne_empty h
    · rw [c9Path_not_ellipsis] at h
      exact Bool.false_ne_true h
  rw [c9_dirPrefixParent]
  rw [if_neg c9Dir_ne_empty]
  rw [c9_promptParts_dir]
  rfl

lemma c9_extractPrefixes : extractDirectoryPrefixesForPrompt [c9Path] = [c9Dir] := by
  unfold extractDirectoryPrefixesForPrompt
  rw [List.map_cons, List.map_nil, c9_dirPrefixes]
  rw [show ([[c9Dir]] : List (List String)).flatten = [c9Dir] by simp]
  exact pySortedSet_singleton c9Dir

lemma trim_singleton (x : String) (m : ℕ) (h : 0 < m) :
    trimPathsForPrompt [x] m = [x] := by
  unfold trimPathsForPrompt
  rw [if_neg (Nat.pos_iff_ne_zero.mp h), if_pos (show ([x] : List String).length ≤ m from h)]

lemma jsonEscapeChar_plain {c : Char} (h1 : c ≠ '"') (h2 : c ≠ '\\')
    (h3 : 32 ≤ c.toNat) : jsonEscapeChar c = [c] := by
  unfold jsonEscapeChar
  rw [if_neg h1, if_neg h2,
    if_neg (by rintro rfl; exact absurd h3 (by decide)),
    if_neg (by rintro rfl; exact absurd h3 (by decide)),
    if_neg (by rintro rfl; exact absurd h3 (by decide)),
    if_neg (by rintro rfl; exact absurd h3 (by decide)),
    if_neg (by rintro rfl; exact absurd h3 (by decide)),
    if_neg (by omega)]

lemma escape_flatten_plain : ∀ l : List Char,
    (∀ c ∈ l, c ≠ '"' ∧ c ≠ '\\' ∧ 32 ≤ c.toNat) →
    (l.map jsonEscapeChar).flatten = l := by
  intro l
  induction l with
  | nil => intro _; rfl
  | cons a t ih =>
    intro h
    rw [List.map_cons, List.flatten_cons,
      jsonEscapeChar_plain (h a (by simp)).1 (h a (by simp)).2.1 (h a (by simp)).2.2,
      ih (fun c hc => h c (by simp [hc]))]
    rfl

lemma jsonStr_plain {s : String}
    (h : ∀ c ∈ s.data, c ≠ '"' ∧ c ≠ '\\' ∧ 32 ≤ c.toNat) :
    jsonStr s = "\"" ++ s ++ "\"" := by
  unfold jsonStr
  rw [escape_flatten_plain s.data h]

lemma jsonStr_plain_length {s : String}
    (h : ∀ c ∈ s.data, c ≠ '"' ∧ c ≠ '\\' ∧ 32 ≤ c.toNat) :
    (jsonStr s).length = s.length + 2 := by
  rw [jsonStr_plain h, str_length_append, str_length_append]
  show 1 + s.length + 1 = s.length + 2
  omega

lemma pyJoin_singleton (x : String) (c : Char) : pyJoin [x] c = x := rfl

lemma jsonStrList_singleton (x : String) :
    jsonStrList [x] = "[" ++ jsonStr x ++ "]" := by
  unfold jsonStrList
  rw [List.map_cons, List.map_nil, pyJoin_singleton]

lemma jsonStrList_c9Path_length : (jsonStrList [c9Path]).length = 18110 := by
  rw [jsonStrList_singleton, str_length_append, str_length_append,
    jsonStr_plain_length (fun c hc => ⟨(c9Path_char_facts c hc).2.2.1,
      (c9Path_char_facts c hc).1, (c9Path_char_facts c hc).2.2.2⟩),
    c9Path_length]
  rfl

lemma jsonStrList_c9Dir_length : (jsonStrList [c9Dir]).length = 18104 := by
  rw [jsonStrList_singleton, str_length_append, str_length_append,
    jsonStr_plain_length (fun c hc => ⟨(c9Dir_char_facts c hc).2.2.1,
      (c9Dir_char_facts c hc).1, (c9Dir_char_facts c hc).2.2.2⟩),
    c9Dir_length]
  rfl

lemma serializeContextPayload_ge_arch (tree : String) (nArch nIdx nUnidx nDb : ℕ)
    (dirs arch idx unidx dbOnly : List String) :
    (jsonStrList arch).length ≤
      (serializeContextPayload tree nArch nIdx nUnidx nDb dirs arch idx unidx
        dbOnly).length := by
  unfold serializeContextPayload
  simp only [str_length_append]
  omega

lemma serializeMinimalPayload_ge_dirs (tree : String) (nArch nIdx nUnidx nDb : ℕ)
    (dirs unidx dbOnly : List String) :
    (jsonStrList dirs).length ≤
      (serializeMinimalPayload tree nArch nIdx nUnidx nDb dirs unidx dbOnly).length := by
  unfold serializeMinimalPayload
  simp only [str_length_append]
  omega

lemma c9_variant_big (v : ℕ × ℕ × ℕ × ℕ × ℕ) (h : 0 < v.2.1) :
    18000 < (variantSerialized [c9Path] [] "" v).length := by
  unfold variantSerialized
  rw [c9_sortedVisible]
  rw [trim_singleton c9Path v.2.1 h]
  have hnum : (18000 : ℕ) < (jsonStrList [c9Path]).length := by
    rw [jsonStrList_c9Path_length]
    omega
  exact lt_of_lt_of_le hnum (serializeContextPayload_ge_arch _ _ _ _ _ _ _ _ _ _)

lemma c9_firstFitting_none :
    firstFitting 18000 (contextVariants.map (variantSerialized [c9Path] [] "")) =
      none := by
  simp only [contextVariants, List.map_cons, List.map_nil, firstFitting]
  rw [if_neg (not_le.mpr (c9_variant_big _ (by decide))),
    if_neg (not_le.mpr (c9_variant_big _ (by decide))),
    if_neg (not_le.mpr (c9_variant_big _ (by decide))),
    if_neg (not_le.mpr (c9_variant_big _ (by decide)))]

lemma c9_minimal_big : 18000 < (minimalSerialized [c9Path] [] "").length := by
  unfold minimalSerialized
  rw [c9_sortedVisible]
  rw [c9_extractPrefixes]
  rw [trim_singleton c9Dir 200 (by decide)]
  have hnum : (18000 : ℕ) < (jsonStrList [c9Dir]).length := by
    rw [jsonStrList_c9Dir_length]
    omega
  exact lt_of_lt_of_le hnum (serializeMinimalPayload_ge_dirs _ _ _ _ _ _ _ _)

lemma build_eq_minimal_of_none {a i : List String} {t : String} {m : ℕ}
    (h : firstFitting m (contextVariants.map (variantSerialized a i t)) = none) :
    buildDirectoryContextPayload a i t m = minimalSerialized a i t := by
  unfold buildDirectoryContextPayload
  rw [h]

/-- **C9 counterexample.** A single visible archive file whose directory name
is 18100 characters long defeats every truncation preset, so the builder
falls through to the minimal last-resort payload, which is itself far larger
than the 18000-character budget: the returned payload exceeds `max_chars`. -/
theorem build_context_budget_counterexample :
    18000 < (buildDirectoryContextPayload [c9Path] [] "" 18000).length := by
  rw [build_eq_minimal_of_none c9_firstFitting_none]
  exact c9_minimal_big

/-! ## C7: search ranking (`endpoints.py`)

`difflib.SequenceMatcher` as instantiated by `_filename_match_score`:
`SequenceMatcher(None, query, stem)` — `isjunk=None`, so `bjunk` is empty,
and `autojunk=True` (the default). -/

/-- `__chain_b` with `isjunk=None`: `b2j[c]` is the ascending list of the
occurrence indices of `c` in `b`; with `autojunk` on a `b` of length ≥ 200,
characters occurring more than `len(b)//100 + 1` times are dropped
("popular"). -/
def seqB2j (b : List Char) (c : Char) : List ℕ :=
  if 200 ≤ b.length ∧
      b.length / 100 + 1 < ((List.range b.length).filter
        (fun j => b.getD j ' ' = c)).length then []
  else (List.range b.length).filter (fun j => b.getD j ' ' = c)

/-- The inner `for j in b2j.get(a[i], nothing)` loop of `find_longest_match`:
`j < blo` is `continue`, `j >= bhi` is `break`;
`k = newj2len[j] = j2len.get(j-1, 0) + 1` (for `j = 0` the lookup key is `-1`,
never present, hence the guard); `k > bestsize` updates the best triple to
`(i-k+1, j-k+1, k)` (the invariants give `k ≤ i+1` and `k ≤ j+1`, so the ℕ
subtractions are exact). -/
def flmRow (fOld : ℕ → ℕ) (blo bhi i : ℕ) :
    List ℕ → (ℕ → ℕ) → ℕ × ℕ × ℕ → (ℕ → ℕ) × (ℕ × ℕ × ℕ)
  | [], fNew, best => (fNew, best)
  | j :: rest, fNew, best =>
    if j < blo then flmRow fOld blo bhi i rest fNew best
    else if bhi ≤ j then (fNew, best)
    else
      flmRow fOld blo bhi i rest
        (fun x => if x = j then (if j = 0 then 0 else fOld (j - 1)) + 1 else fNew x)
        (if best.2.2 < (if j = 0 then 0 else fOld (j - 1)) + 1 then
          (i + 1 - ((if j = 0 then 0 else fOld (j - 1)) + 1),
            j + 1 - ((if j = 0 then 0 else fOld (j - 1)) + 1),
            (if j = 0 then 0 else fOld (j - 1)) + 1)
        else best)

/-- The outer `for i in range(alo, ahi)` loop: each row starts a fresh
`newj2len` (the all-zero map) and reads the previous row through `j2len`. -/
def flmRows (a : List Char) (b2j : Char → List ℕ) (blo bhi : ℕ) :
    List ℕ → (ℕ → ℕ) → ℕ × ℕ × ℕ → ℕ × ℕ × ℕ
  | [], _, best => best
  | i :: rest, f, best =>
    flmRows a b2j blo bhi rest
      (flmRow f blo bhi i (b2j (a.getD i ' ')) (fun _ => 0) best).1
      (flmRow f blo bhi i (b2j (a.getD i ' ')) (fun _ => 0) best).2

/-- The dynamic-programming part of `find_longest_match(alo, ahi, blo, bhi)`,
before the extension loops. -/
def flmDP (a b : List Char) (alo ahi blo bhi : ℕ) : ℕ × ℕ × ℕ :=
  flmRows a (seqB2j b) blo bhi (List.range' alo (ahi - alo)) (fun _ => 0)
    (alo, blo, 0)

/-- `while besti > alo and bestj > blo and a[besti-1] == b[bestj-1]` (the
`not isbjunk(b[bestj-1])` conjunct is vacuous: `isjunk=None` makes `bjunk`
empty, so the later junk-extension loops never run either).  `besti`
decreases every iteration, so fuel `besti` is exact. -/
def flmExtendBack (a b : List Char) (alo blo : ℕ) : ℕ → ℕ × ℕ × ℕ → ℕ × ℕ × ℕ
  | 0, s => s
  | fuel + 1, (bi, bj, k) =>
    if alo < bi ∧ blo < bj ∧ a.getD (bi - 1) ' ' = b.getD (bj - 1) ' ' then
      flmExtendBack a b alo blo fuel (bi - 1, bj - 1, k + 1)
    else (bi, bj, k)

/-- `while besti+bestsize < ahi and bestj+bestsize < bhi and
a[besti+bestsize] == b[bestj+bestsize]` (again with the vacuous junk test).
`besti+bestsize` increases every iteration and stays below `ahi`, so fuel
`ahi` suffices. -/
def flmExtendFwd (a b : List Char) (ahi bhi : ℕ) : ℕ → ℕ × ℕ × ℕ → ℕ × ℕ × ℕ
  | 0, s => s
  | fuel + 1, (bi, bj, k) =>
    if bi + k < ahi ∧ bj + k < bhi ∧ a.getD (bi + k) ' ' = b.getD (bj + k) ' ' then
      flmExtendFwd a b ahi bhi fuel (bi, bj, k + 1)
    else (bi, bj, k)

/-- `find_longest_match(alo, ahi, blo, bhi)` of `SequenceMatcher(None, a, b)`. -/
def findLongestMatch (a b : List Char) (alo ahi blo bhi : ℕ) : ℕ × ℕ × ℕ :=
  flmExtendFwd a b ahi bhi ahi
    (flmExtendBack a b alo blo (flmDP a b alo ahi blo bhi).1
      (flmDP a b alo ahi blo bhi))

/-- Total size of the blocks `get_matching_blocks` collects over a region.
The Python queue pops regions in LIFO order and finally sorts the blocks;
only the multiset of block sizes reaches `ratio()`, so the recursion sums
them region by region.  Each sub-region is strictly narrower on the `a`
side, so fuel `ahi - alo + 1` covers the recursion depth. -/
def matchesTotal (a b : List Char) : ℕ → ℕ → ℕ → ℕ → ℕ → ℕ
  | 0, _, _, _, _ => 0
  | fuel + 1, alo, ahi, blo, bhi =>
    (if (findLongestMatch a b alo ahi blo bhi).2.2 = 0 then 0
    else (findLongestMatch a b alo ahi blo bhi).2.2 +
      (if alo < (findLongestMatch a b alo ahi blo bhi).1 ∧
          blo < (findLongestMatch a b alo ahi blo bhi).2.1 then
        matchesTotal a b fuel alo (findLongestMatch a b alo ahi blo bhi).1
          blo (findLongestMatch a b alo ahi blo bhi).2.1
      else 0) +
      (if (findLongestMatch a b alo ahi blo bhi).1 +
            (findLongestMatch a b alo ahi blo bhi).2.2 < ahi ∧
          (findLongestMatch a b alo ahi blo bhi).2.1 +
            (findLongestMatch a b alo ahi blo bhi).2.2 < bhi then
        matchesTotal a b fuel
          ((findLongestMatch a b alo ahi blo bhi).1 +
            (findLongestMatch a b alo ahi blo bhi).2.2)
          ahi
          ((findLongestMatch a b alo ahi blo bhi).2.1 +
            (findLongestMatch a b alo ahi blo bhi).2.2)
          bhi
      else 0))

/-- `SequenceMatcher(None, a, b).ratio()`: `2*M / (len(a)+len(b))`, and `1.0`
when both strings are empty. -/
def sequenceMatcherRatio (qa qb : String) : ℚ :=
  if qa.data.length + qb.data.length = 0 then 1
  else 2 * (matchesTotal qa.data qb.data (qa.data.length + 1)
      0 qa.data.length 0 qb.data.length : ℚ) /
    ((qa.data.length : ℚ) + (qb.data.length : ℚ))

/-! Bounds: the best triple `(bi, bj, k)` of `find_longest_match` satisfies
`alo ≤ bi`, `blo ≤ bj`, `bi + k ≤ ahi`, `bj + k ≤ bhi`, hence the match
total of a region is at most its width on either side. -/

/-- Invariant carried through the loops. -/
def flmInv (alo ahi blo bhi : ℕ) (best : ℕ × ℕ × ℕ) : Prop :=
  alo ≤ best.1 ∧ blo ≤ best.2.1 ∧ best.1 + best.2.2 ≤ ahi ∧
    best.2.1 + best.2.2 ≤ bhi

lemma flmRow_inv {alo ahi blo bhi i : ℕ} (hi : i < ahi) (hai : alo ≤ i)
    {fOld : ℕ → ℕ}
    (hfOld : ∀ x, fOld x + alo ≤ i ∧ (fOld x ≠ 0 → blo + fOld x ≤ x + 1)) :
    ∀ (js : List ℕ) (fNew : ℕ → ℕ) (best : ℕ × ℕ × ℕ),
      (∀ x, fNew x + alo ≤ i + 1 ∧ (fNew x ≠ 0 → blo + fNew x ≤ x + 1)) →
      flmInv alo ahi blo bhi best →
      (∀ x, (flmRow fOld blo bhi i js fNew best).1 x + alo ≤ i + 1 ∧
        ((flmRow fOld blo bhi i js fNew best).1 x ≠ 0 →
          blo + (flmRow fOld blo bhi i js fNew best).1 x ≤ x + 1)) ∧
      flmInv alo ahi blo bhi (flmRow fOld blo bhi i js fNew best).2 := by
  intro js
  induction js with
  | nil => intro fNew best hf hb; exact ⟨hf, hb⟩
  | cons j rest ih =>
    intro fNew best hf hb
    by_cases h1 : j < blo
    · rw [show flmRow fOld blo bhi i (j :: rest) fNew best =
        flmRow fOld blo bhi i rest fNew best from by
          simp only [flmRow, if_pos h1]]
      exact ih fNew best hf hb
    by_cases h2 : bhi ≤ j
    · rw [show flmRow fOld blo bhi i (j :: rest) fNew best = (fNew, best) from by
        simp only [flmRow, if_neg h1, if_pos h2]]
      exact ⟨hf, hb⟩
    have hjlo : blo ≤ j := Nat.le_of_not_lt h1
    have hjhi : j < bhi := Nat.lt_of_not_le h2
    have hk1 : (if j = 0 then 0 else fOld (j - 1)) + 1 + alo ≤ i + 1 := by
      by_cases hj0 : j = 0
      · rw [if_pos hj0]
        omega
      · rw [if_neg hj0]
        have := (hfOld (j - 1)).1
        omega
    have hk2 : blo + ((if j = 0 then 0 else fOld (j - 1)) + 1) ≤ j + 1 := by
      by_cases hj0 : j = 0
      · rw [if_pos hj0]
        omega
      · rw [if_neg hj0]
        by_cases hz : fOld (j - 1) = 0
        · rw [hz]
          omega
        · have := (hfOld (j - 1)).2 hz
          omega
    rw [show flmRow fOld blo bhi i (j :: rest) fNew best =
      flmRow fOld blo bhi i rest
        (fun x => if x = j then (if j = 0 then 0 else fOld (j - 1)) + 1 else fNew x)
        (if best.2.2 < (if j = 0 then 0 else fOld (j - 1)) + 1 then
          (i + 1 - ((if j = 0 then 0 else fOld (j - 1)) + 1),
            j + 1 - ((if j = 0 then 0 else fOld (j - 1)) + 1),
            (if j = 0 then 0 else fOld (j - 1)) + 1)
        else best) from by
        simp only [flmRow, if_neg h1, if_neg h2]]
    refine ih _ _ ?_ ?_
    · intro x
      by_cases hx : x = j
      · rw [if_pos hx]
        exact ⟨by omega, fun _ => by omega⟩
      · rw [if_neg hx]
        exact hf x
    · by_cases himp : best.2.2 < (if j = 0 then 0 else fOld (j - 1)) + 1
      · rw [if_pos himp]
        obtain ⟨q1, q2, q3, q4⟩ := hb
        refine ⟨?_, ?_, ?_, ?_⟩
        · show alo ≤ i + 1 - ((if j = 0 then 0 else fOld (j - 1)) + 1)
          omega
        · show blo ≤ j + 1 - ((if j = 0 then 0 else fOld (j - 1)) + 1)
          omega
        · show i + 1 - ((if j = 0 then 0 else fOld (j - 1)) + 1) +
            ((if j = 0 then 0 else fOld (j - 1)) + 1) ≤ ahi
          omega
        · show j + 1 - ((if j = 0 then 0 else fOld (j - 1)) + 1) +
            ((if j = 0 then 0 else fOld (j - 1)) + 1) ≤ bhi
          omega
      · rw [if_neg himp]
        exact hb

lemma flmRows_inv {a : List Char} {b2j : Char → List ℕ} {alo ahi blo bhi : ℕ} :
    ∀ (cnt s : ℕ) (f : ℕ → ℕ) (best : ℕ × ℕ × ℕ), alo ≤ s → s + cnt ≤ ahi →
      (∀ x, f x + alo ≤ s ∧ (f x ≠ 0 → blo + f x ≤ x + 1)) →
      flmInv alo ahi blo bhi best →
      flmInv alo ahi blo bhi
        (flmRows a b2j blo bhi (List.range' s cnt) f best) := by
  intro cnt
  induction cnt with
  | zero => intro s f best _ _ _ hb; exact hb
  | succ n ih =>
    intro s f best hs hcnt hf hb
    rw [List.range'_succ]
    rw [show flmRows a b2j blo bhi (s :: List.range' (s + 1) n) f best =
      flmRows a b2j blo bhi (List.range' (s + 1) n)
        (flmRow f blo bhi s (b2j (a.getD s ' ')) (fun _ => 0) best).1
        (flmRow f blo bhi s (b2j (a.getD s ' ')) (fun _ => 0) best).2 from rfl]
    have hrow := flmRow_inv (show s < ahi by omega) (show alo ≤ s from hs) hf
      (b2j (a.getD s ' ')) (fun _ => 0) best
      (by
        intro x
        refine ⟨?_, fun hx => absurd rfl hx⟩
        show 0 + alo ≤ s + 1
        omega) hb
    exact ih (s + 1) _ _ (by omega) (by omega) hrow.1 hrow.2

lemma flmExtendBack_inv {a b : List Char} {alo ahi blo bhi : ℕ} :
    ∀ (fuel : ℕ) (s : ℕ × ℕ × ℕ), flmInv alo ahi blo bhi s →
      flmInv alo ahi blo bhi (flmExtendBack a b alo blo fuel s) := by
  intro fuel
  induction fuel with
  | zero => intro s hs; exact hs
  | succ n ih =>
    rintro ⟨bi, bj, k⟩ hs
    have h1 : alo ≤ bi := hs.1
    have h2 : blo ≤ bj := hs.2.1
    have h3 : bi + k ≤ ahi := hs.2.2.1
    have h4 : bj + k ≤ bhi := hs.2.2.2
    show flmInv alo ahi blo bhi
      (if alo < bi ∧ blo < bj ∧ a.getD (bi - 1) ' ' = b.getD (bj - 1) ' ' then
        flmExtendBack a b alo blo n (bi - 1, bj - 1, k + 1)
      else (bi, bj, k))
    by_cases hc : alo < bi ∧ blo < bj ∧ a.getD (bi - 1) ' ' = b.getD (bj - 1) ' '
    · rw [if_pos hc]
      refine ih _ ⟨?_, ?_, ?_, ?_⟩
      · show alo ≤ bi - 1
        omega
      · show blo ≤ bj - 1
        omega
      · show bi - 1 + (k + 1) ≤ ahi
        omega
      · show bj - 1 + (k + 1) ≤ bhi
        omega
    · rw [if_neg hc]
      exact hs

lemma flmExtendFwd_inv {a b : List Char} {alo ahi blo bhi : ℕ} :
    ∀ (fuel : ℕ) (s : ℕ × ℕ × ℕ), flmInv alo ahi blo bhi s →
      flmInv alo ahi blo bhi (flmExtendFwd a b ahi bhi fuel s) := by
  intro fuel
  induction fuel with
  | zero => intro s hs; exact hs
  | succ n ih =>
    rintro ⟨bi, bj, k⟩ hs
    have h1 : alo ≤ bi := hs.1
    have h2 : blo ≤ bj := hs.2.1
    have h3 : bi + k ≤ ahi := hs.2.2.1
    have h4 : bj + k ≤ bhi := hs.2.2.2
    show flmInv alo ahi blo bhi
      (if bi + k < ahi ∧ bj + k < bhi ∧ a.getD (bi + k) ' ' = b.getD (bj + k) ' ' then
        flmExtendFwd a b ahi bhi n (bi, bj, k + 1)
      else (bi, bj, k))
    by_cases hc : bi + k < ahi ∧ bj + k < bhi ∧ a.getD (bi + k) ' ' = b.getD (bj + k) ' '
    · rw [if_pos hc]
      refine ih _ ⟨?_, ?_, ?_, ?_⟩
      · show alo ≤ bi
        exact h1
      · show blo ≤ bj
        exact h2
      · show bi + (k + 1) ≤ ahi
        omega
      · show bj + (k + 1) ≤ bhi
        omega
    · rw [if_neg hc]
      exact hs

lemma findLongestMatch_inv (a b : List Char) (alo ahi blo bhi : ℕ)
    (h1 : alo ≤ ahi) (h2 : blo ≤ bhi) :
    flmInv alo ahi blo bhi (findLongestMatch a b alo ahi blo bhi) := by
  unfold findLongestMatch
  refine flmExtendFwd_inv _ _ (flmExtendBack_inv _ _ ?_)
  unfold flmDP
  refine flmRows_inv (ahi - alo) alo (fun _ => 0) (alo, blo, 0) le_rfl (by omega) ?_ ?_
  · intro x
    refine ⟨?_, fun hx => absurd rfl hx⟩
    show 0 + alo ≤ alo
    omega
  · exact ⟨le_rfl, le_rfl, by
      show alo + 0 ≤ ahi
      omega, by
      show blo + 0 ≤ bhi
      omega⟩

lemma matchesTotal_le (a b : List Char) :
    ∀ (fuel alo ahi blo bhi : ℕ), alo ≤ ahi → blo ≤ bhi →
      matchesTotal a b fuel alo ahi blo bhi + alo ≤ ahi ∧
      matchesTotal a b fuel alo ahi blo bhi + blo ≤ bhi := by
  intro fuel
  induction fuel with
  | zero =>
    intro alo ahi blo bhi h1 h2
    refine ⟨?_, ?_⟩
    · show 0 + alo ≤ ahi
      omega
    · show 0 + blo ≤ bhi
      omega
  | succ n ih =>
    intro alo ahi blo bhi h1 h2
    obtain ⟨hb1, hb2, hb3, hb4⟩ := findLongestMatch_inv a b alo ahi blo bhi h1 h2
    simp only [matchesTotal]
    set F := findLongestMatch a b alo ahi blo bhi with hF
    by_cases hk : F.2.2 = 0
    · rw [if_pos hk]
      exact ⟨by omega, by omega⟩
    rw [if_neg hk]
    have hL := ih alo F.1 blo F.2.1
    have hR := ih (F.1 + F.2.2) ahi (F.2.1 + F.2.2) bhi
    constructor
    · by_cases hl : alo < F.1 ∧ blo < F.2.1
      · rw [if_pos hl]
        have hL2 := (hL (by omega) (by omega)).1
        by_cases hr : F.1 + F.2.2 < ahi ∧ F.2.1 + F.2.2 < bhi
        · rw [if_pos hr]
          have hR2 := (hR (by omega) (by omega)).1
          omega
        · rw [if_neg hr]
          omega
      · rw [if_neg hl]
        by_cases hr : F.1 + F.2.2 < ahi ∧ F.2.1 + F.2.2 < bhi
        · rw [if_pos hr]
          have hR2 := (hR (by omega) (by omega)).1
          omega
        · rw [if_neg hr]
          omega
    · by_cases hl : alo < F.1 ∧ blo < F.2.1
      · rw [if_pos hl]
        have hL2 := (hL (by omega) (by omega)).2
        by_cases hr : F.1 + F.2.2 < ahi ∧ F.2.1 + F.2.2 < bhi
        · rw [if_pos hr]
          have hR2 := (hR (by omega) (by omega)).2
          omega
        · rw [if_neg hr]
          omega
      · rw [if_neg hl]
        by_cases hr : F.1 + F.2.2 < ahi ∧ F.2.1 + F.2.2 < bhi
        · rw [if_pos hr]
          have hR2 := (hR (by omega) (by omega)).2
          omega
        · rw [if_neg hr]
          omega

lemma sequenceMatcherRatio_le_one (qa qb : String) :
    sequenceMatcherRatio qa qb ≤ 1 := by
  unfold sequenceMatcherRatio
  by_cases h0 : qa.data.length + qb.data.length = 0
  · rw [if_pos h0]
  · rw [if_neg h0]
    have hA := (matchesTotal_le qa.data qb.data (qa.data.length + 1)
      0 qa.data.length 0 qb.data.length (by omega) (by omega)).1
    have hB := (matchesTotal_le qa.data qb.data (qa.data.length + 1)
      0 qa.data.length 0 qb.data.length (by omega) (by omega)).2
    rw [div_le_one (by
      have : 0 < qa.data.length + qb.data.length := Nat.pos_of_ne_zero h0
      exact_mod_cast Nat.cast_pos.mpr this)]
    have h2 : 2 * matchesTotal qa.data qb.data (qa.data.length + 1)
        0 qa.data.length 0 qb.data.length ≤ qa.data.length + qb.data.length := by
      omega
    calc (2 : ℚ) * (matchesTotal qa.data qb.data (qa.data.length + 1)
          0 qa.data.length 0 qb.data.length : ℚ)
        = ((2 * matchesTotal qa.data qb.data (qa.data.length + 1)
          0 qa.data.length 0 qb.data.length : ℕ) : ℚ) := by push_cast; ring
      _ ≤ ((qa.data.length + qb.data.length : ℕ) : ℚ) := by exact_mod_cast h2
      _ = (qa.data.length : ℚ) + (qb.data.length : ℚ) := by push_cast; ring

lemma sequenceMatcherRatio_nonneg (qa qb : String) :
    0 ≤ sequenceMatcherRatio qa qb := by
  unfold sequenceMatcherRatio
  by_cases h0 : qa.data.length + qb.data.length = 0
  · rw [if_pos h0]
    norm_num
  · rw [if_neg h0]
    apply div_nonneg
    · positivity
    · have : 0 < qa.data.length + qb.data.length := Nat.pos_of_ne_zero h0
      have : (0 : ℚ) < (qa.data.length : ℚ) + (qb.data.length : ℚ) := by
        exact_mod_cast this
      linarith

/-! `ratio` of a string with itself is `1` (for strings below the autojunk
threshold `200`, where `b2j` holds every occurrence index): the diagonal DP
chain through row `i` always ends at value `i + 1`, every off-diagonal chain
is no longer, so the best block after row `i` is `(0, 0, i + 1)`. -/

lemma seqB2j_small {b : List Char} (hb : b.length < 200) (c : Char) :
    seqB2j b c = (List.range b.length).filter (fun j => b.getD j ' ' = c) := by
  unfold seqB2j
  rw [if_neg (by rintro ⟨h, -⟩; omega)]

/-- Occurrence indices of `q[i]` in `q` (the `b2j[a[i]]` list for `a = b = q`). -/
def occIdx (q : List Char) (i : ℕ) : List ℕ :=
  (List.range q.length).filter (fun j => q.getD j ' ' = q.getD i ' ')

/-- The `j2len` value of cell `(i, j)` of the DP over `a = b = q`:
positive exactly on matching in-range columns, chaining diagonally. -/
def dpVal (q : List Char) : ℕ → ℕ → ℕ
  | 0, j => if j < q.length ∧ q.getD j ' ' = q.getD 0 ' ' then 1 else 0
  | i + 1, j =>
    if j < q.length ∧ q.getD j ' ' = q.getD (i + 1) ' ' then
      (if j = 0 then 0 else dpVal q i (j - 1)) + 1
    else 0

/-- The `j2len` map entering row `i` (all-zero for the first row). -/
def rowF (q : List Char) : ℕ → ℕ → ℕ
  | 0, _ => 0
  | i + 1, j => dpVal q i j

lemma dpVal_le_col (q : List Char) : ∀ i j, dpVal q i j ≤ j + 1 := by
  intro i
  induction i with
  | zero =>
    intro j
    simp only [dpVal]
    by_cases h : j < q.length ∧ q.getD j ' ' = q.getD 0 ' '
    · rw [if_pos h]
      omega
    · rw [if_neg h]
      omega
  | succ i ih =>
    intro j
    simp only [dpVal]
    by_cases h : j < q.length ∧ q.getD j ' ' = q.getD (i + 1) ' '
    · rw [if_pos h]
      by_cases hj : j = 0
      · rw [if_pos hj]
        omega
      · rw [if_neg hj]
        have := ih (j - 1)
        omega
    · rw [if_neg h]
      omega

lemma dpVal_le_row (q : List Char) : ∀ i j, dpVal q i j ≤ i + 1 := by
  intro i
  induction i with
  | zero =>
    intro j
    simp only [dpVal]
    by_cases h : j < q.length ∧ q.getD j ' ' = q.getD 0 ' '
    · rw [if_pos h]
    · rw [if_neg h]
      omega
  | succ i ih =>
    intro j
    simp only [dpVal]
    by_cases h : j < q.length ∧ q.getD j ' ' = q.getD (i + 1) ' '
    · rw [if_pos h]
      by_cases hj : j = 0
      · rw [if_pos hj]
        omega
      · rw [if_neg hj]
        have := ih (j - 1)
        omega
    · rw [if_neg h]
      omega

lemma dpVal_diag (q : List Char) : ∀ i, i < q.length → dpVal q i i = i + 1 := by
  intro i
  induction i with
  | zero =>
    intro h
    show (if 0 < q.length ∧ q.getD 0 ' ' = q.getD 0 ' ' then 1 else 0) = 0 + 1
    rw [if_pos ⟨h, rfl⟩]
  | succ i ih =>
    intro h
    show (if i + 1 < q.length ∧ q.getD (i + 1) ' ' = q.getD (i + 1) ' ' then
      (if i + 1 = 0 then 0 else dpVal q i (i + 1 - 1)) + 1 else 0) = i + 1 + 1
    rw [if_pos ⟨h, rfl⟩, if_neg (by omega : ¬ i + 1 = 0)]
    rw [show i + 1 - 1 = i from rfl, ih (by omega)]

lemma dpVal_not_cell {q : List Char} {i j : ℕ}
    (h : ¬ (j < q.length ∧ q.getD j ' ' = q.getD i ' ')) : dpVal q i j = 0 := by
  cases i with
  | zero =>
    simp only [dpVal]
    rw [if_neg h]
  | succ i =>
    simp only [dpVal]
    rw [if_neg h]

lemma rowF_k {q : List Char} {i j : ℕ}
    (hcell : j < q.length ∧ q.getD j ' ' = q.getD i ' ') :
    (if j = 0 then 0 else rowF q i (j - 1)) + 1 = dpVal q i j := by
  cases i with
  | zero =>
    have : (if j = 0 then 0 else rowF q 0 (j - 1)) = 0 := by
      by_cases hj : j = 0
      · rw [if_pos hj]
      · rw [if_neg hj]
        rfl
    rw [this]
    simp only [dpVal]
    rw [if_pos hcell]
  | succ i =>
    simp only [dpVal]
    rw [if_pos hcell]
    rfl

/-- Pointwise description of the `newj2len` map a row builds: processed
columns (row `i` is run over cells of row `i`, all below `bhi = len`) carry
the DP value, the rest keep their initial value. -/
lemma flmRow_fun {q : List Char} {i : ℕ} :
    ∀ (js : List ℕ) (fNew : ℕ → ℕ) (best : ℕ × ℕ × ℕ),
      (∀ j ∈ js, j < q.length ∧ q.getD j ' ' = q.getD i ' ') →
      ∀ x, (flmRow (rowF q i) 0 q.length i js fNew best).1 x =
        if x ∈ js then dpVal q i x else fNew x := by
  intro js
  induction js with
  | nil =>
    intro fNew best _ x
    simp [flmRow]
  | cons j rest ih =>
    intro fNew best hjs x
    have hcell := hjs j (by simp)
    rw [show flmRow (rowF q i) 0 q.length i (j :: rest) fNew best =
      flmRow (rowF q i) 0 q.length i rest
        (fun y => if y = j then (if j = 0 then 0 else rowF q i (j - 1)) + 1 else fNew y)
        (if best.2.2 < (if j = 0 then 0 else rowF q i (j - 1)) + 1 then
          (i + 1 - ((if j = 0 then 0 else rowF q i (j - 1)) + 1),
            j + 1 - ((if j = 0 then 0 else rowF q i (j - 1)) + 1),
            (if j = 0 then 0 else rowF q i (j - 1)) + 1)
        else best) from by
        simp only [flmRow, if_neg (by omega : ¬ j < 0),
          if_neg (by omega : ¬ q.length ≤ j)]
      ]
    rw [ih _ _ (fun y hy => hjs y (by simp [hy]))]
    by_cases hx : x ∈ rest
    · rw [if_pos hx, if_pos (by simp [hx])]
    · rw [if_neg hx]
      show (if x = j then (if j = 0 then 0 else rowF q i (j - 1)) + 1 else fNew x) =
        if x ∈ j :: rest then dpVal q i x else fNew x
      by_cases hxj : x = j
      · subst hxj
        rw [if_pos rfl, if_pos (List.mem_cons_self x rest)]
        exact rowF_k hcell
      · rw [if_neg hxj, if_neg (by simp [hxj, hx])]

/-- Processing any suffix of cells of row `i` with the best already at
`(0, 0, i + 1)` leaves the best unchanged: every chain value is ≤ `i + 1`. -/
lemma flmRow_best_post {q : List Char} {i : ℕ} :
    ∀ (js : List ℕ) (fNew : ℕ → ℕ),
      (∀ j ∈ js, j < q.length ∧ q.getD j ' ' = q.getD i ' ') →
      (flmRow (rowF q i) 0 q.length i js fNew (0, 0, i + 1)).2 = (0, 0, i + 1) := by
  intro js
  induction js with
  | nil =>
    intro fNew _
    rfl
  | cons j rest ih =>
    intro fNew hjs
    have hcell := hjs j (by simp)
    have hk : (if j = 0 then 0 else rowF q i (j - 1)) + 1 = dpVal q i j := rowF_k hcell
    have hle : dpVal q i j ≤ i + 1 := dpVal_le_row q i j
    rw [show flmRow (rowF q i) 0 q.length i (j :: rest) fNew (0, 0, i + 1) =
      flmRow (rowF q i) 0 q.length i rest
        (fun y => if y = j then (if j = 0 then 0 else rowF q i (j - 1)) + 1 else fNew y)
        (if ((0, 0, i + 1) : ℕ × ℕ × ℕ).2.2 <
            (if j = 0 then 0 else rowF q i (j - 1)) + 1 then
          (i + 1 - ((if j = 0 then 0 else rowF q i (j - 1)) + 1),
            j + 1 - ((if j = 0 then 0 else rowF q i (j - 1)) + 1),
            (if j = 0 then 0 else rowF q i (j - 1)) + 1)
        else (0, 0, i + 1)) from by
        simp only [flmRow, if_neg (by omega : ¬ j < 0),
          if_neg (by omega : ¬ q.length ≤ j)]]
    have hni : ¬ ((0, 0, i + 1) : ℕ × ℕ × ℕ).2.2 <
        (if j = 0 then 0 else rowF q i (j - 1)) + 1 := by
      rw [hk]
      show ¬ i + 1 < dpVal q i j
      omega
    rw [if_neg hni]
    exact ih _ (fun y hy => hjs y (by simp [hy]))

/-- Processing cells of row `i` at columns `< i` with the best at `(0, 0, i)`
leaves the best unchanged: such chain values are ≤ column + 1 ≤ `i`. -/
lemma flmRow_best_pre {q : List Char} {i : ℕ} :
    ∀ (js : List ℕ) (fNew : ℕ → ℕ),
      (∀ j ∈ js, (j < q.length ∧ q.getD j ' ' = q.getD i ' ') ∧ j < i) →
      (flmRow (rowF q i) 0 q.length i js fNew (0, 0, i)).2 = (0, 0, i) := by
  intro js
  induction js with
  | nil =>
    intro fNew _
    rfl
  | cons j rest ih =>
    intro fNew hjs
    have hcell := (hjs j (by simp)).1
    have hji := (hjs j (by simp)).2
    have hk : (if j = 0 then 0 else rowF q i (j - 1)) + 1 = dpVal q i j := rowF_k hcell
    have hle : dpVal q i j ≤ j + 1 := dpVal_le_col q i j
    rw [show flmRow (rowF q i) 0 q.length i (j :: rest) fNew (0, 0, i) =
      flmRow (rowF q i) 0 q.length i rest
        (fun y => if y = j then (if j = 0 then 0 else rowF q i (j - 1)) + 1 else fNew y)
        (if ((0, 0, i) : ℕ × ℕ × ℕ).2.2 <
            (if j = 0 then 0 else rowF q i (j - 1)) + 1 then
          (i + 1 - ((if j = 0 then 0 else rowF q i (j - 1)) + 1),
            j + 1 - ((if j = 0 then 0 else rowF q i (j - 1)) + 1),
            (if j = 0 then 0 else rowF q i (j - 1)) + 1)
        else (0, 0, i)) from by
        simp only [flmRow, if_neg (by omega : ¬ j < 0),
          if_neg (by omega : ¬ q.length ≤ j)]]
    have hni : ¬ ((0, 0, i) : ℕ × ℕ × ℕ).2.2 <
        (if j = 0 then 0 else rowF q i (j - 1)) + 1 := by
      rw [hk]
      show ¬ i < dpVal q i j
      omega
    rw [if_neg hni]
    exact ih _ (fun y hy => hjs y (by simp [hy]))

/-- `flmRow` distributes over list append when no element triggers `break`. -/
lemma flmRow_append {fOld : ℕ → ℕ} {blo bhi i : ℕ} :
    ∀ (l1 l2 : List ℕ) (f : ℕ → ℕ) (b : ℕ × ℕ × ℕ), (∀ j ∈ l1, j < bhi) →
      flmRow fOld blo bhi i (l1 ++ l2) f b =
        flmRow fOld blo bhi i l2 (flmRow fOld blo bhi i l1 f b).1
          (flmRow fOld blo bhi i l1 f b).2 := by
  intro l1
  induction l1 with
  | nil =>
    intro l2 f b _
    rfl
  | cons j t ih =>
    intro l2 f b hl
    have hj : j < bhi := hl j (by simp)
    by_cases h1 : j < blo
    · rw [show flmRow fOld blo bhi i ((j :: t) ++ l2) f b =
        flmRow fOld blo bhi i (t ++ l2) f b from by
          simp only [List.cons_append, flmRow, if_pos h1]
          rfl,
        show flmRow fOld blo bhi i (j :: t) f b =
          flmRow fOld blo bhi i t f b from by
          simp only [flmRow, if_pos h1]]
      exact ih l2 f b (fun y hy => hl y (by simp [hy]))
    · rw [show flmRow fOld blo bhi i ((j :: t) ++ l2) f b =
        flmRow fOld blo bhi i (t ++ l2)
          (fun x => if x = j then (if j = 0 then 0 else fOld (j - 1)) + 1 else f x)
          (if b.2.2 < (if j = 0 then 0 else fOld (j - 1)) + 1 then
            (i + 1 - ((if j = 0 then 0 else fOld (j - 1)) + 1),
              j + 1 - ((if j = 0 then 0 else fOld (j - 1)) + 1),
              (if j = 0 then 0 else fOld (j - 1)) + 1)
          else b) from by
          simp only [List.cons_append, flmRow, if_neg h1,
            if_neg (by omega : ¬ bhi ≤ j)]
          rfl,
        show flmRow fOld blo bhi i (j :: t) f b =
          flmRow fOld blo bhi i t
            (fun x => if x = j then (if j = 0 then 0 else fOld (j - 1)) + 1 else f x)
            (if b.2.2 < (if j = 0 then 0 else fOld (j - 1)) + 1 then
              (i + 1 - ((if j = 0 then 0 else fOld (j - 1)) + 1),
                j + 1 - ((if j = 0 then 0 else fOld (j - 1)) + 1),
                (if j = 0 then 0 else fOld (j - 1)) + 1)
            else b) from by
          simp only [flmRow, if_neg h1, if_neg (by omega : ¬ bhi ≤ j)]]
      exact ih l2 _ _ (fun y hy => hl y (by simp [hy]))

/-- Decomposition of the occurrence list of `q[i]` around the diagonal. -/
lemma occIdx_split {q : List Char} {i : ℕ} (hi : i < q.length) :
    occIdx q i = (List.range i).filter (fun j => q.getD j ' ' = q.getD i ' ') ++
      i :: (List.range' (i + 1) (q.length - i - 1)).filter
        (fun j => q.getD j ' ' = q.getD i ' ') := by
  have h1 : i :: List.range' (i + 1) (q.length - i - 1) =
      List.range' i (q.length - i) := by
    have h0 := List.range'_succ i (q.length - i - 1) 1
    rw [show (q.length - i - 1) + 1 = q.length - i from by omega] at h0
    exact h0.symm
  have h2 : List.range i ++ List.range' i (q.length - i) = List.range q.length := by
    have h3 := List.range'_append 0 i (q.length - i) 1
    rw [show (0 + 1 * i : ℕ) = i from by omega] at h3
    rw [show q.length - i + i = q.length from by omega] at h3
    rw [List.range_eq_range', List.range_eq_range']
    exact h3
  unfold occIdx
  rw [← h2, List.filter_append, ← h1]
  rw [List.filter_cons, if_pos (by simp)]

/-- Running a full row `i` on the occurrence list turns best `(0, 0, i)` into
`(0, 0, i + 1)`: pre-diagonal cells cannot improve, the diagonal cell has
value `i + 1` and records `(0, 0, i + 1)`, post-diagonal cells cannot improve
further. -/
lemma flmRow_best_full {q : List Char} {i : ℕ} (hi : i < q.length)
    (fNew : ℕ → ℕ) :
    (flmRow (rowF q i) 0 q.length i (occIdx q i) fNew (0, 0, i)).2 =
      (0, 0, i + 1) := by
  rw [occIdx_split hi]
  rw [flmRow_append _ _ _ _ (by
    intro j hj
    have := List.mem_range.mp (List.mem_filter.mp hj).1
    omega)]
  rw [flmRow_best_pre _ _ (by
    intro j hj
    have hjr := List.mem_range.mp (List.mem_filter.mp hj).1
    have hcell := (List.mem_filter.mp hj).2
    exact ⟨⟨by omega, by simpa using hcell⟩, hjr⟩)]
  rw [show flmRow (rowF q i) 0 q.length i
      (i :: (List.range' (i + 1) (q.length - i - 1)).filter
        (fun j => q.getD j ' ' = q.getD i ' '))
      (flmRow (rowF q i) 0 q.length i
        ((List.range i).filter (fun j => q.getD j ' ' = q.getD i ' ')) fNew
        (0, 0, i)).1 (0, 0, i) =
    flmRow (rowF q i) 0 q.length i
      ((List.range' (i + 1) (q.length - i - 1)).filter
        (fun j => q.getD j ' ' = q.getD i ' '))
      (fun y => if y = i then (if i = 0 then 0 else rowF q i (i - 1)) + 1 else
        (flmRow (rowF q i) 0 q.length i
          ((List.range i).filter (fun j => q.getD j ' ' = q.getD i ' ')) fNew
          (0, 0, i)).1 y)
      (if ((0, 0, i) : ℕ × ℕ × ℕ).2.2 <
          (if i = 0 then 0 else rowF q i (i - 1)) + 1 then
        (i + 1 - ((if i = 0 then 0 else rowF q i (i - 1)) + 1),
          i + 1 - ((if i = 0 then 0 else rowF q i (i - 1)) + 1),
          (if i = 0 then 0 else rowF q i (i - 1)) + 1)
      else (0, 0, i)) from by
      simp only [flmRow, if_neg (by omega : ¬ i < 0),
        if_neg (by omega : ¬ q.length ≤ i)]]
  have hk : (if i = 0 then 0 else rowF q i (i - 1)) + 1 = dpVal q i i :=
    rowF_k ⟨hi, rfl⟩
  have hpi : ((0, 0, i) : ℕ × ℕ × ℕ).2.2 <
      (if i = 0 then 0 else rowF q i (i - 1)) + 1 := by
    rw [hk, dpVal_diag q i hi]
    show i < i + 1
    omega
  rw [if_pos hpi]
  rw [show (i + 1 - ((if i = 0 then 0 else rowF q i (i - 1)) + 1),
      i + 1 - ((if i = 0 then 0 else rowF q i (i - 1)) + 1),
      (if i = 0 then 0 else rowF q i (i - 1)) + 1) = ((0 : ℕ), (0 : ℕ), i + 1) from by
    rw [hk, dpVal_diag q i hi]
    simp]
  exact flmRow_best_post _ _ (by
    intro j hj
    have hjr := List.mem_range'_1.mp (List.mem_filter.mp hj).1
    have hcell := (List.mem_filter.mp hj).2
    exact ⟨by omega, by simpa using hcell⟩)

/-- After running rows `s, …, len-1` from the row-`s` state, the best is the
full diagonal `(0, 0, len)`. -/
lemma flmRows_best {q : List Char} (hn : q.length < 200) :
    ∀ (cnt s : ℕ), s + cnt = q.length →
      flmRows q (seqB2j q) 0 q.length (List.range' s cnt) (rowF q s) (0, 0, s) =
        (0, 0, q.length) := by
  intro cnt
  induction cnt with
  | zero =>
    intro s hs
    show (0, 0, s) = (0, 0, q.length)
    rw [show s = q.length from by omega]
  | succ m ih =>
    intro s hs
    rw [List.range'_succ]
    rw [show flmRows q (seqB2j q) 0 q.length (s :: List.range' (s + 1) m)
        (rowF q s) (0, 0, s) =
      flmRows q (seqB2j q) 0 q.length (List.range' (s + 1) m)
        (flmRow (rowF q s) 0 q.length s (seqB2j q (q.getD s ' '))
          (fun _ => 0) (0, 0, s)).1
        (flmRow (rowF q s) 0 q.length s (seqB2j q (q.getD s ' '))
          (fun _ => 0) (0, 0, s)).2 from rfl]
    have hocc : seqB2j q (q.getD s ' ') = occIdx q s := seqB2j_small hn _
    rw [hocc]
    have hs' : s < q.length := by omega
    rw [flmRow_best_full hs']
    have hfun : (flmRow (rowF q s) 0 q.length s (occIdx q s)
        (fun _ => 0) (0, 0, s)).1 = rowF q (s + 1) := by
      funext x
      rw [flmRow_fun _ _ _ (by
        intro j hj
        have hjr := List.mem_range.mp (List.mem_filter.mp hj).1
        have hcell := (List.mem_filter.mp hj).2
        exact ⟨hjr, by simpa using hcell⟩)]
      by_cases hx : x ∈ occIdx q s
      · rw [if_pos hx]
        rfl
      · rw [if_neg hx]
        have : ¬ (x < q.length ∧ q.getD x ' ' = q.getD s ' ') := by
          intro hc
          exact hx (List.mem_filter.mpr ⟨List.mem_range.mpr hc.1, by simpa using hc.2⟩)
        show (0 : ℕ) = rowF q (s + 1) x
        rw [show rowF q (s + 1) x = dpVal q s x from rfl, dpVal_not_cell this]
    rw [hfun]
    exact ih (s + 1) (by omega)

lemma findLongestMatch_self {q : List Char} (hn : q.length < 200) :
    findLongestMatch q q 0 q.length 0 q.length = (0, 0, q.length) := by
  unfold findLongestMatch flmDP
  have h0 : (fun _ : ℕ => (0 : ℕ)) = rowF q 0 := by
    funext x
    rfl
  rw [show q.length - 0 = 0 + (q.length - 0) from by omega]
  rw [show List.range' 0 (0 + (q.length - 0)) = List.range' 0 (q.length - 0) from by
    rw [Nat.zero_add]]
  rw [h0, flmRows_best hn (q.length - 0) 0 (by omega)]
  rw [show ((0, 0, q.length) : ℕ × ℕ × ℕ).1 = 0 from rfl]
  rw [show flmExtendBack q q 0 0 0 (0, 0, q.length) = (0, 0, q.length) from rfl]
  cases hq : q.length with
  | zero => rfl
  | succ m =>
    show flmExtendFwd q q (m + 1) (m + 1) (m + 1) (0, 0, m + 1) = (0, 0, m + 1)
    simp only [flmExtendFwd]
    rw [if_neg (by omega)]

lemma matchesTotal_self {q : List Char} (hn : q.length < 200)
    (hq : q.length ≠ 0) :
    matchesTotal q q (q.length + 1) 0 q.length 0 q.length = q.length := by
  simp only [matchesTotal]
  rw [findLongestMatch_self hn]
  rw [if_neg hq]
  rw [if_neg (show ¬ ((0 : ℕ) < 0 ∧ (0 : ℕ) < 0) by omega)]
  rw [if_neg (show ¬ (0 + q.length < q.length ∧ 0 + q.length < q.length) by omega)]
  show q.length + 0 + 0 = q.length
  omega

/-- `SequenceMatcher(None, s, s).ratio() == 1.0` for `s` below the autojunk
threshold. -/
lemma sequenceMatcherRatio_self {q : String} (hn : q.data.length < 200) :
    sequenceMatcherRatio q q = 1 := by
  unfold sequenceMatcherRatio
  by_cases h0 : q.data.length + q.data.length = 0
  · rw [if_pos h0]
  · rw [if_neg h0]
    have hq : q.data.length ≠ 0 := by omega
    rw [matchesTotal_self hn hq]
    have hpos : ((q.data.length : ℚ) + (q.data.length : ℚ)) ≠ 0 := by
      have : 0 < q.data.length := Nat.pos_of_ne_zero hq
      have h2 : (0 : ℚ) < (q.data.length : ℚ) := by exact_mod_cast this
      linarith
    rw [div_eq_one_iff_eq hpos]
    ring

/-! The ranking pipeline of `endpoints.py`. -/

/-- A lowercase-alphanumeric character (`[a-z0-9]`). -/
def tokenChar (c : Char) : Bool :=
  ('a' ≤ c ∧ c ≤ 'z') ∨ ('0' ≤ c ∧ c ≤ '9')

/-- Split at every non-`[a-z0-9]` character: current piece plus earlier
pieces. -/
def tokenSplitAux (s : List Char) : List Char × List (List Char) :=
  s.foldr (fun c acc =>
    if tokenChar c then (c :: acc.1, acc.2) else ([], acc.1 :: acc.2)) ([], [])

/-- `_search_tokens`: the pieces of `re.split(r"[^a-z0-9]+", text.lower())`
of length ≥ 2.  (Splitting at every separator character instead of at maximal
separator runs only adds empty pieces, all dropped by the length filter.) -/
def _search_tokens (text : String) : List String :=
  (((tokenSplitAux (pyLowerList text.data)).1 ::
      (tokenSplitAux (pyLowerList text.data)).2).filter
    (fun p => 2 ≤ p.length)).map (fun l => (⟨l⟩ : String))

/-- `CODE_QUERY_HINTS` (set literal; only membership is used). -/
def CODE_QUERY_HINTS : List String :=
  ["code", "script", "function", "class", "python", "javascript", "typescript",
    "html", "css", "json", "yaml", "xml", "sql", "api", "backend", "frontend"]

/-- `CODE_FILE_EXTENSIONS`. -/
def CODE_FILE_EXTENSIONS : List String :=
  ["js", "jsx", "ts", "tsx", "py", "java", "c", "cc", "cpp", "h", "hpp", "go",
    "rs", "swift", "kt", "rb", "php", "html", "css", "scss", "json", "yml",
    "yaml", "xml", "sh", "bash", "zsh", "sql"]

/-- `PREFERRED_USER_FILE_EXTENSIONS`. -/
def PREFERRED_USER_FILE_EXTENSIONS : List String :=
  ["pdf", "txt", "md", "rtf", "doc", "docx", "ppt", "pptx", "xls", "xlsx",
    "csv", "pages", "numbers", "key", "jpg", "jpeg", "png", "gif", "webp",
    "heic", "heif"]

/-- `_semantic_score`: `1/(1+max(d,0))`, `0.0` for `None`. -/
def _semantic_score : Option ℚ → ℚ
  | none => 0
  | some d => 1 / (1 + max d 0)

/-- `_query_prefers_code`. -/
def _query_prefers_code (tokens : List String) (normalizedQuery : String) : Bool :=
  tokens.any (fun t =>
    CODE_QUERY_HINTS.contains t ∨ CODE_FILE_EXTENSIONS.contains t) ∨
  CODE_FILE_EXTENSIONS.contains normalizedQuery

/-- `_file_type_priority_score`. -/
def _file_type_priority_score (extension : String) (queryTokens : List String)
    (prefersCode : Bool) : ℚ :=
  if queryTokens.contains extension then (12 : ℚ)/10
  else if PREFERRED_USER_FILE_EXTENSIONS.contains extension then 1
  else if CODE_FILE_EXTENSIONS.contains extension then
    (if prefersCode then (2 : ℚ)/10 else -((9 : ℚ)/10))
  else if extension = "" then -((2 : ℚ)/10)
  else (1 : ℚ)/10

/-- `PurePosixPath(p).name`: the last component (`pathlib` parsing drops
empty and `"."` components). -/
def pathlibName (p : String) : String :=
  (((pySplit p '/').filter (fun part => part ≠ "" ∧ part ≠ ".")).getLast?).getD ""

/-- Length of `PurePosixPath-style` `suffix` of a file name: `name[i:]` for
`i = name.rfind('.')` when `0 < i < len(name) - 1`, else empty. -/
def pathlibSuffixLen (name : List Char) : ℕ :=
  if (name.reverse.takeWhile (fun c => c ≠ '.')).length = name.length then 0
  else if 0 < name.length - (name.reverse.takeWhile (fun c => c ≠ '.')).length - 1 ∧
      name.length - (name.reverse.takeWhile (fun c => c ≠ '.')).length - 1 <
        name.length - 1 then
    (name.reverse.takeWhile (fun c => c ≠ '.')).length + 1
  else 0

/-- `PurePosixPath(p).stem`. -/
def pathlibStem (p : String) : String :=
  ⟨(pathlibName p).data.take
    ((pathlibName p).data.length - pathlibSuffixLen (pathlibName p).data)⟩

/-- `PurePosixPath(p).suffix`. -/
def pathlibSuffix (p : String) : String :=
  ⟨(pathlibName p).data.drop
    ((pathlibName p).data.length - pathlibSuffixLen (pathlibName p).data)⟩

/-- `Path(relative_path).suffix.lower().lstrip(".")`. -/
def extOf (relativePath : String) : String :=
  ⟨(pyLowerList (pathlibSuffix relativePath).data).dropWhile (fun c => c = '.')⟩

/-- `stem = path.stem.lower()` in `_filename_match_score`. -/
def fmsStem (relativePath : String) : String := pyLower (pathlibStem relativePath)

/-- `filename = path.name.lower()`. -/
def fmsFilename (relativePath : String) : String := pyLower (pathlibName relativePath)

/-- Per-token bonus of the `for token in query_tokens` loop. -/
def fmsTokenBonus (stemTokens : List String) (stem pathText token : String) : ℚ :=
  if stemTokens.contains token then (9 : ℚ)/10
  else if pyContains stem token then (45 : ℚ)/100
  else if pyContains pathText token then (2 : ℚ)/10
  else 0

/-- `_filename_match_score`. -/
def _filename_match_score (relativePath query : String)
    (queryTokens : List String) : ℚ :=
  (if query ≠ "" then
    (if fmsStem relativePath = query ∨ fmsFilename relativePath = query then
      (28 : ℚ)/10
    else if pyStartsWith (fmsStem relativePath) query then (21 : ℚ)/10
    else if pyContains (fmsStem relativePath) query then (15 : ℚ)/10
    else if pyContains (pyLower relativePath) query then (8 : ℚ)/10
    else 0) +
    sequenceMatcherRatio query (fmsStem relativePath) * ((8 : ℚ)/10)
  else 0) +
  (queryTokens.map (fmsTokenBonus (_search_tokens (fmsStem relativePath))
    (fmsStem relativePath) (pyLower relativePath))).sum

/-- `_is_hidden_path`: some real component starts with a dot. -/
def _is_hidden_path (p : String) : Bool :=
  (pySplit p '/').any (fun part =>
    ¬ (part = "" ∨ part = "/" ∨ part = ".") ∧ pyStartsWith part ".")

/-- `semantic_distances[index]` when in range, else `None`. -/
def distAt (dists : List (Option ℚ)) (i : ℕ) : Option ℚ := dists.getD i none

/-- Python dict assignment on the insertion-ordered association list:
overwrite in place, or append a new key. -/
def assocSet (l : List (String × Option ℚ)) (k : String) (v : Option ℚ) :
    List (String × Option ℚ) :=
  if (l.map Prod.fst).contains k then
    l.map (fun kv => if kv.1 = k then (k, v) else kv)
  else l ++ [(k, v)]

/-- One step of the first candidate loop of `_rank_search_results`
(`existing = candidate_distances.get(relative_path)` is `None` both when the
key is absent and when it maps to `None`, and then the entry is overwritten
with the new distance; otherwise non-`None` distances are min-merged). -/
def candStep (dists : List (Option ℚ)) (acc : List (String × Option ℚ))
    (iv : ℕ × String) : List (String × Option ℚ) :=
  if iv.2 = "" then acc
  else
    match List.lookup iv.2 acc with
    | none => assocSet acc iv.2 (distAt dists iv.1)
    | some none => assocSet acc iv.2 (distAt dists iv.1)
    | some (some e) =>
      match distAt dists iv.1 with
      | none => acc
      | some d => assocSet acc iv.2 (some (min e d))

/-- The semantic candidates with their min-merged distances. -/
def candFromIds (ids : List String) (dists : List (Option ℚ)) :
    List (String × Option ℚ) :=
  ids.enum.foldl (candStep dists) []

/-- One step of the lexical-fallback loop over the cached indexed paths. -/
def lexStep (nq : String) (queryTokens : List String)
    (acc : List (String × Option ℚ)) (p : String) : List (String × Option ℚ) :=
  if p = "" then acc
  else if (acc.map Prod.fst).contains p then acc
  else if _is_hidden_path p then acc
  else if nq ≠ "" ∧ pyContains (pyLower p) nq then acc ++ [(p, none)]
  else if queryTokens ≠ [] ∧ queryTokens.any (fun t => pyContains (pyLower p) t) then
    acc ++ [(p, none)]
  else acc

/-- `candidate_distances` after both loops, in insertion order. -/
def candidateDistances (ids : List String) (dists : List (Option ℚ))
    (cached : List String) (nq : String) (queryTokens : List String) :
    List (String × Option ℚ) :=
  cached.foldl (lexStep nq queryTokens) (candFromIds ids dists)

/-- The `(final_score, semantic, name_score, type_score, absolute_path)`
tuple appended for one candidate (`final = semantic*3.2 + name*1.7 + type`). -/
def scoreEntry (archiveDir nq : String) (queryTokens : List String)
    (prefersCode : Bool) (rp : String) (dist : Option ℚ) :
    ℚ × ℚ × ℚ × ℚ × String :=
  (_semantic_score dist * ((16 : ℚ)/5) +
      _filename_match_score rp nq queryTokens * ((17 : ℚ)/10) +
      _file_type_priority_score (extOf rp) queryTokens prefersCode,
    _semantic_score dist,
    _filename_match_score rp nq queryTokens,
    _file_type_priority_score (extOf rp) queryTokens prefersCode,
    pyJoinPath archiveDir rp)

/-- The scoring loop with its hidden/duplicate/existence filters and the
`seen` set of absolute paths. -/
def scoreEntries (archiveDir : String) (fsExists : String → Bool) (nq : String)
    (queryTokens : List String) (prefersCode : Bool) :
    List (String × Option ℚ) → List String → List (ℚ × ℚ × ℚ × ℚ × String)
  | [], _ => []
  | (rp, dist) :: rest, seen =>
    if _is_hidden_path rp then
      scoreEntries archiveDir fsExists nq queryTokens prefersCode rest seen
    else if seen.contains (pyJoinPath archiveDir rp) then
      scoreEntries archiveDir fsExists nq queryTokens prefersCode rest seen
    else if _is_hidden_path (pyJoinPath archiveDir rp) then
      scoreEntries archiveDir fsExists nq queryTokens prefersCode rest seen
    else if fsExists (pyJoinPath archiveDir rp) = false then
      scoreEntries archiveDir fsExists nq queryTokens prefersCode rest seen
    else
      scoreEntry archiveDir nq queryTokens prefersCode rp dist ::
        scoreEntries archiveDir fsExists nq queryTokens prefersCode rest
          (pyJoinPath archiveDir rp :: seen)

/-- The Python sort key, as a lexicographic product. -/
def rankKey (e : ℚ × ℚ × ℚ × ℚ × String) :
    ℚ ×ₗ (ℚ ×ₗ (ℚ ×ₗ (ℚ ×ₗ String))) :=
  toLex (e.1, toLex (e.2.1, toLex (e.2.2.1, toLex (e.2.2.2.1, e.2.2.2.2))))

/-- Descending comparison (`reverse=True`): `x` may precede `y` iff `y`'s key
is not larger.  Distinct absolute paths make the key total, so the stable
Python sort and any sort by this relation agree. -/
def rankGe (x y : ℚ × ℚ × ℚ × ℚ × String) : Prop :=
  rankKey y ≤ rankKey x

instance rankGe.decRel : DecidableRel rankGe := fun x y => by
  unfold rankGe
  infer_instance

instance rankGe.total : IsTotal (ℚ × ℚ × ℚ × ℚ × String) rankGe :=
  ⟨fun a b => (le_total (rankKey b) (rankKey a)).imp (fun h => h) (fun h => h)⟩

instance rankGe.trans : IsTrans (ℚ × ℚ × ℚ × ℚ × String) rankGe :=
  ⟨fun _ _ _ hab hbc => le_trans hbc hab⟩

/-- `_rank_search_results`.  `archiveDir` is `settings.ARCHIVE_DIR`,
`fsExists` is the `os.path.exists` oracle, `cached` the
`_cached_indexed_paths()` list; ids are strings (the `isinstance` guard is
vacuous in the model). -/
def _rank_search_results (archiveDir : String) (fsExists : String → Bool)
    (cached : List String) (queryText : String) (ids : List String)
    (dists : List (Option ℚ)) (nResults : ℕ) : List String :=
  ((List.insertionSort rankGe
      (scoreEntries archiveDir fsExists
        (pyLower (pyStrip queryText))
        (_search_tokens (pyLower (pyStrip queryText)))
        (_query_prefers_code (_search_tokens (pyLower (pyStrip queryText)))
          (pyLower (pyStrip queryText)))
        (candidateDistances ids dists cached (pyLower (pyStrip queryText))
          (_search_tokens (pyLower (pyStrip queryText))))
        [])).take nResults).map
    (fun e => e.2.2.2.2)

/-! Score bounds for the C7 tie-break. -/

lemma fmsTokenBonus_le (stemTokens : List String) (stem pathText token : String) :
    fmsTokenBonus stemTokens stem pathText token ≤ (9 : ℚ)/10 := by
  unfold fmsTokenBonus
  by_cases h1 : stemTokens.contains token
  · rw [if_pos h1]
  · rw [if_neg h1]
    by_cases h2 : pyContains stem token
    · rw [if_pos h2]
      norm_num
    · rw [if_neg h2]
      by_cases h3 : pyContains pathText token
      · rw [if_pos h3]
        norm_num
      · rw [if_neg h3]
        norm_num

lemma sum_tokenBonus_le (stemTokens : List String) (stem pathText : String) :
    ∀ tokens : List String,
      (tokens.map (fmsTokenBonus stemTokens stem pathText)).sum ≤
        (9 : ℚ)/10 * tokens.length := by
  intro tokens
  induction tokens with
  | nil => simp
  | cons t rest ih =>
    rw [List.map_cons, List.sum_cons, List.length_cons]
    have h1 := fmsTokenBonus_le stemTokens stem pathText t
    push_cast
    push_cast at ih
    linarith

lemma sum_tokenBonus_self (stemTokens : List String) (stem pathText : String) :
    ∀ tokens : List String, (∀ t ∈ tokens, stemTokens.contains t = true) →
      (tokens.map (fmsTokenBonus stemTokens stem pathText)).sum =
        (9 : ℚ)/10 * tokens.length := by
  intro tokens
  induction tokens with
  | nil => simp
  | cons t rest ih =>
    intro h
    rw [List.map_cons, List.sum_cons, List.length_cons]
    rw [show fmsTokenBonus stemTokens stem pathText t = (9 : ℚ)/10 from by
      unfold fmsTokenBonus
      rw [if_pos (h t (by simp))]]
    rw [ih (fun x hx => h x (by simp [hx]))]
    push_cast
    ring

lemma type_score_le (extension : String) (queryTokens : List String)
    (prefersCode : Bool) :
    _file_type_priority_score extension queryTokens prefersCode ≤ (12 : ℚ)/10 := by
  unfold _file_type_priority_score
  by_cases h1 : queryTokens.contains extension
  · rw [if_pos h1]
  · rw [if_neg h1]
    by_cases h2 : PREFERRED_USER_FILE_EXTENSIONS.contains extension
    · rw [if_pos h2]
      norm_num
    · rw [if_neg h2]
      by_cases h3 : CODE_FILE_EXTENSIONS.contains extension
      · rw [if_pos h3]
        cases prefersCode <;> norm_num
      · rw [if_neg h3]
        by_cases h4 : extension = ""
        · rw [if_pos h4]
          norm_num
        · rw [if_neg h4]
          norm_num

lemma type_score_ge (extension : String) (queryTokens : List String)
    (prefersCode : Bool) :
    -((9 : ℚ)/10) ≤ _file_type_priority_score extension queryTokens prefersCode := by
  unfold _file_type_priority_score
  by_cases h1 : queryTokens.contains extension
  · rw [if_pos h1]
    norm_num
  · rw [if_neg h1]
    by_cases h2 : PREFERRED_USER_FILE_EXTENSIONS.contains extension
    · rw [if_pos h2]
      norm_num
    · rw [if_neg h2]
      by_cases h3 : CODE_FILE_EXTENSIONS.contains extension
      · rw [if_pos h3]
        cases prefersCode <;> norm_num
      · rw [if_neg h3]
        by_cases h4 : extension = ""
        · rw [if_pos h4]
          norm_num
        · rw [if_neg h4]
          norm_num

/-- Name score of a candidate whose (lowered) stem equals the (nonempty)
normalized query: `2.8` from the exact match, `0.8` from the self-ratio, and
`0.9` per query token. -/
lemma name_score_exact {pA nq : String} (hstemA : fmsStem pA = nq)
    (hnq : nq ≠ "") (hlen : nq.data.length < 200) :
    _filename_match_score pA nq (_search_tokens nq) =
      (18 : ℚ)/5 + (9 : ℚ)/10 * (_search_tokens nq).length := by
  unfold _filename_match_score
  rw [if_pos hnq, if_pos (Or.inl hstemA), hstemA]
  rw [sequenceMatcherRatio_self hlen]
  rw [sum_tokenBonus_self _ _ _ _ (fun t ht => List.elem_eq_true_of_mem ht)]
  ring

/-- Name score of a candidate whose (lowered) stem contains the query only as
an internal substring: at most `1.5 + 0.8 + 0.9` per token. -/
lemma name_score_substring {pB nq : String} (hstemB : fmsStem pB ≠ nq)
    (hfnB : fmsFilename pB ≠ nq)
    (hpreB : pyStartsWith (fmsStem pB) nq = false)
    (hsubB : pyContains (fmsStem pB) nq = true) (hnq : nq ≠ "") :
    _filename_match_score pB nq (_search_tokens nq) ≤
      (23 : ℚ)/10 + (9 : ℚ)/10 * (_search_tokens nq).length := by
  unfold _filename_match_score
  rw [if_pos hnq, if_neg (by
    rintro (h | h)
    · exact hstemB h
    · exact hfnB h)]
  rw [if_neg (by rw [hpreB]; exact Bool.false_ne_true)]
  rw [if_pos hsubB]
  have hr1 : sequenceMatcherRatio nq (fmsStem pB) ≤ 1 :=
    sequenceMatcherRatio_le_one _ _
  have hr0 : 0 ≤ sequenceMatcherRatio nq (fmsStem pB) :=
    sequenceMatcherRatio_nonneg _ _
  have hsum := sum_tokenBonus_le (_search_tokens (fmsStem pB)) (fmsStem pB)
    (pyLower pB) (_search_tokens nq)
  nlinarith

/-- At equal stored distance, the final score of the exact-stem candidate
strictly exceeds the substring candidate's: the name margin
`1.7·(3.6 − 2.3) = 2.21` beats the maximal type-score spread `2.1`. -/
lemma scoreEntry_first_lt {archiveDir nq pA pB : String} {o : Option ℚ}
    (prefersCode : Bool)
    (hstemA : fmsStem pA = nq) (hstemB : fmsStem pB ≠ nq)
    (hfnB : fmsFilename pB ≠ nq)
    (hpreB : pyStartsWith (fmsStem pB) nq = false)
    (hsubB : pyContains (fmsStem pB) nq = true)
    (hnq : nq ≠ "") (hlen : nq.data.length < 200) :
    (scoreEntry archiveDir nq (_search_tokens nq) prefersCode pB o).1 <
      (scoreEntry archiveDir nq (_search_tokens nq) prefersCode pA o).1 := by
  show _semantic_score o * ((16 : ℚ)/5) +
      _filename_match_score pB nq (_search_tokens nq) * ((17 : ℚ)/10) +
      _file_type_priority_score (extOf pB) (_search_tokens nq) prefersCode <
    _semantic_score o * ((16 : ℚ)/5) +
      _filename_match_score pA nq (_search_tokens nq) * ((17 : ℚ)/10) +
      _file_type_priority_score (extOf pA) (_search_tokens nq) prefersCode
  have hA := name_score_exact hstemA hnq hlen
  have hB := name_score_substring hstemB hfnB hpreB hsubB hnq
  have htA := type_score_ge (extOf pA) (_search_tokens nq) prefersCode
  have htB := type_score_le (extOf pB) (_search_tokens nq) prefersCode
  linarith

/-! Structure of the scoring loop output. -/

lemma not_contains_of_not_mem {a : String} {l : List String} (h : a ∉ l) :
    ¬ l.contains a = true :=
  fun hc => h (List.mem_of_elem_eq_true hc)

/-- The absolute paths produced by the scoring loop are distinct and avoid
the incoming `seen` set. -/
lemma scoreEntries_paths (archiveDir : String) (fsExists : String → Bool)
    (nq : String) (queryTokens : List String) (prefersCode : Bool) :
    ∀ (l : List (String × Option ℚ)) (seen : List String),
      ((scoreEntries archiveDir fsExists nq queryTokens prefersCode l seen).map
        (fun e => e.2.2.2.2)).Nodup ∧
      ∀ e ∈ scoreEntries archiveDir fsExists nq queryTokens prefersCode l seen,
        e.2.2.2.2 ∉ seen := by
  intro l
  induction l with
  | nil =>
    intro seen
    exact ⟨List.nodup_nil, by simp [scoreEntries]⟩
  | cons hd rest ih =>
    intro seen
    obtain ⟨rp, dist⟩ := hd
    show ((scoreEntries archiveDir fsExists nq queryTokens prefersCode
      ((rp, dist) :: rest) seen).map (fun e => e.2.2.2.2)).Nodup ∧ _
    by_cases h1 : _is_hidden_path rp
    · rw [show scoreEntries archiveDir fsExists nq queryTokens prefersCode
        ((rp, dist) :: rest) seen =
        scoreEntries archiveDir fsExists nq queryTokens prefersCode rest seen from by
          simp only [scoreEntries, if_pos h1]]
      exact ih seen
    by_cases h2 : seen.contains (pyJoinPath archiveDir rp)
    · rw [show scoreEntries archiveDir fsExists nq queryTokens prefersCode
        ((rp, dist) :: rest) seen =
        scoreEntries archiveDir fsExists nq queryTokens prefersCode rest seen from by
          simp only [scoreEntries, if_neg h1, if_pos h2]]
      exact ih seen
    by_cases h3 : _is_hidden_path (pyJoinPath archiveDir rp)
    · rw [show scoreEntries archiveDir fsExists nq queryTokens prefersCode
        ((rp, dist) :: rest) seen =
        scoreEntries archiveDir fsExists nq queryTokens prefersCode rest seen from by
          simp only [scoreEntries, if_neg h1, if_neg h2, if_pos h3]]
      exact ih seen
    by_cases h4 : fsExists (pyJoinPath archiveDir rp) = false
    · rw [show scoreEntries archiveDir fsExists nq queryTokens prefersCode
        ((rp, dist) :: rest) seen =
        scoreEntries archiveDir fsExists nq queryTokens prefersCode rest seen from by
          simp only [scoreEntries, if_neg h1, if_neg h2, if_neg h3, if_pos h4]]
      exact ih seen
    rw [show scoreEntries archiveDir fsExists nq queryTokens prefersCode
        ((rp, dist) :: rest) seen =
      scoreEntry archiveDir nq queryTokens prefersCode rp dist ::
        scoreEntries archiveDir fsExists nq queryTokens prefersCode rest
          (pyJoinPath archiveDir rp :: seen) from by
        simp only [scoreEntries, if_neg h1, if_neg h2, if_neg h3, if_neg h4]]
    obtain ⟨ihn, ihs⟩ := ih (pyJoinPath archiveDir rp :: seen)
    constructor
    · rw [List.map_cons]
      refine List.nodup_cons.mpr ⟨?_, ihn⟩
      intro hmem
      obtain ⟨e, he, hpe⟩ := List.mem_map.mp hmem
      refine (ihs e he) ?_
      rw [hpe]
      show pyJoinPath archiveDir rp ∈ pyJoinPath archiveDir rp :: seen
      exact List.mem_cons_self _ _
    · intro e he
      rcases List.mem_cons.mp he with rfl | he2
      · show pyJoinPath archiveDir rp ∉ seen
        intro hm
        exact h2 (List.elem_eq_true_of_mem hm)
      · intro hm
        exact (ihs e he2) (List.mem_cons_of_mem _ hm)

/-- A visible, existing, non-shadowed candidate contributes its score tuple
to the output. -/
lemma scoreEntries_mem (archiveDir : String) (fsExists : String → Bool)
    (nq : String) (queryTokens : List String) (prefersCode : Bool) :
    ∀ (l : List (String × Option ℚ)) (seen : List String) (rp : String)
      (dist : Option ℚ), (rp, dist) ∈ l →
      (l.map (fun e => pyJoinPath archiveDir e.1)).Nodup →
      _is_hidden_path rp = false →
      _is_hidden_path (pyJoinPath archiveDir rp) = false →
      fsExists (pyJoinPath archiveDir rp) = true →
      pyJoinPath archiveDir rp ∉ seen →
      scoreEntry archiveDir nq queryTokens prefersCode rp dist ∈
        scoreEntries archiveDir fsExists nq queryTokens prefersCode l seen := by
  intro l
  induction l with
  | nil =>
    intro seen rp dist h
    exact absurd h (by simp)
  | cons hd rest ih =>
    intro seen rp dist hmem hnd hh1 hh2 hex hseen
    obtain ⟨p, d⟩ := hd
    rcases List.mem_cons.mp hmem with heq | hmem2
    · have hp : rp = p := congrArg Prod.fst heq
      have hdd : dist = d := congrArg Prod.snd heq
      subst hp
      subst hdd
      rw [show scoreEntries archiveDir fsExists nq queryTokens prefersCode
          ((rp, dist) :: rest) seen =
        scoreEntry archiveDir nq queryTokens prefersCode rp dist ::
          scoreEntries archiveDir fsExists nq queryTokens prefersCode rest
            (pyJoinPath archiveDir rp :: seen) from by
          simp only [scoreEntries,
            if_neg (show ¬ _is_hidden_path rp = true from by
              rw [hh1]; exact Bool.false_ne_true),
            if_neg (not_contains_of_not_mem hseen),
            if_neg (show ¬ _is_hidden_path (pyJoinPath archiveDir rp) = true from by
              rw [hh2]; exact Bool.false_ne_true),
            if_neg (show ¬ fsExists (pyJoinPath archiveDir rp) = false from by
              simp [hex])]]
      exact List.mem_cons_self _ _
    · have hnd2 := hnd
      rw [List.map_cons] at hnd2
      have hcons := List.nodup_cons.mp hnd2
      have habsne : pyJoinPath archiveDir p ≠ pyJoinPath archiveDir rp := by
        intro hEq
        exact hcons.1 (List.mem_map.mpr ⟨(rp, dist), hmem2,
          show pyJoinPath archiveDir rp = pyJoinPath archiveDir p from hEq.symm⟩)
      have hndr : (rest.map (fun e => pyJoinPath archiveDir e.1)).Nodup := hcons.2
      by_cases h1 : _is_hidden_path p
      · rw [show scoreEntries archiveDir fsExists nq queryTokens prefersCode
          ((p, d) :: rest) seen =
          scoreEntries archiveDir fsExists nq queryTokens prefersCode rest seen from by
            simp only [scoreEntries, if_pos h1]]
        exact ih seen rp dist hmem2 hndr hh1 hh2 hex hseen
      by_cases h2 : seen.contains (pyJoinPath archiveDir p)
      · rw [show scoreEntries archiveDir fsExists nq queryTokens prefersCode
          ((p, d) :: rest) seen =
          scoreEntries archiveDir fsExists nq queryTokens prefersCode rest seen from by
            simp only [scoreEntries, if_neg h1, if_pos h2]]
        exact ih seen rp dist hmem2 hndr hh1 hh2 hex hseen
      by_cases h3 : _is_hidden_path (pyJoinPath archiveDir p)
      · rw [show scoreEntries archiveDir fsExists nq queryTokens prefersCode
          ((p, d) :: rest) seen =
          scoreEntries archiveDir fsExists nq queryTokens prefersCode rest seen from by
            simp only [scoreEntries, if_neg h1, if_neg h2, if_pos h3]]
        exact ih seen rp dist hmem2 hndr hh1 hh2 hex hseen
      by_cases h4 : fsExists (pyJoinPath archiveDir p) = false
      · rw [show scoreEntries archiveDir fsExists nq queryTokens prefersCode
          ((p, d) :: rest) seen =
          scoreEntries archiveDir fsExists nq queryTokens prefersCode rest seen from by
            simp only [scoreEntries, if_neg h1, if_neg h2, if_neg h3, if_pos h4]]
        exact ih seen rp dist hmem2 hndr hh1 hh2 hex hseen
      rw [show scoreEntries archiveDir fsExists nq queryTokens prefersCode
          ((p, d) :: rest) seen =
        scoreEntry archiveDir nq queryTokens prefersCode p d ::
          scoreEntries archiveDir fsExists nq queryTokens prefersCode rest
            (pyJoinPath archiveDir p :: seen) from by
          simp only [scoreEntries, if_neg h1, if_neg h2, if_neg h3, if_neg h4]]
      refine List.mem_cons_of_mem _ ?_
      refine ih _ rp dist hmem2 hndr hh1 hh2 hex ?_
      intro hm
      rcases List.mem_cons.mp hm with hEq | hm2
      · exact habsne hEq.symm
      · exact hseen hm2

/-! Position transfer: a strictly better-keyed entry precedes a worse one in
the truncated, path-projected output of the sort. -/

lemma indexOf_cons_self2 {α : Type} [BEq α] [LawfulBEq α] (a : α) (l : List α) :
    (a :: l).indexOf a = 0 := by
  rw [List.indexOf_cons, show (a == a) = true from beq_self_eq_true a]
  rfl

lemma indexOf_cons_ne2 {α : Type} [BEq α] [LawfulBEq α] {x a : α} (l : List α)
    (h : x ≠ a) : (x :: l).indexOf a = l.indexOf a + 1 := by
  rw [List.indexOf_cons, show (x == a) = false from beq_eq_false_iff_ne.mpr h]
  rfl

lemma mem_take_indexOf {α : Type} [BEq α] [LawfulBEq α] :
    ∀ (l : List α) (n : ℕ) (a : α), a ∈ l.take n → l.indexOf a < n := by
  intro l
  induction l with
  | nil =>
    intro n a h
    simp at h
  | cons x t ih =>
    intro n a h
    cases n with
    | zero => simp at h
    | succ m =>
      rw [List.take_succ_cons] at h
      by_cases hax : a = x
      · subst hax
        rw [indexOf_cons_self2]
        omega
      · rcases List.mem_cons.mp h with h1 | h2
        · exact absurd h1 hax
        · rw [indexOf_cons_ne2 t (fun hh => hax hh.symm)]
          have := ih m a h2
          omega

lemma indexOf_lt_mem_take {α : Type} [BEq α] [LawfulBEq α] :
    ∀ (l : List α) (n : ℕ) (a : α), a ∈ l → l.indexOf a < n → a ∈ l.take n := by
  intro l
  induction l with
  | nil =>
    intro n a hm
    simp at hm
  | cons x t ih =>
    intro n a hm hlt
    cases n with
    | zero => omega
    | succ m =>
      rw [List.take_succ_cons]
      by_cases hax : a = x
      · subst hax
        exact List.mem_cons_self _ _
      · rcases List.mem_cons.mp hm with h1 | h2
        · exact absurd h1 hax
        · rw [indexOf_cons_ne2 t (fun hh => hax hh.symm)] at hlt
          exact List.mem_cons_of_mem _ (ih m a h2 (by omega))

lemma indexOf_take_eq {α : Type} [BEq α] [LawfulBEq α] :
    ∀ (l : List α) (n : ℕ) (a : α), a ∈ l.take n →
      (l.take n).indexOf a = l.indexOf a := by
  intro l
  induction l with
  | nil =>
    intro n a h
    simp at h
  | cons x t ih =>
    intro n a h
    cases n with
    | zero => simp at h
    | succ m =>
      rw [List.take_succ_cons] at h ⊢
      by_cases hax : a = x
      · subst hax
        rw [indexOf_cons_self2, indexOf_cons_self2]
      · rcases List.mem_cons.mp h with h1 | h2
        · exact absurd h1 hax
        · rw [indexOf_cons_ne2 _ (fun hh => hax hh.symm),
            indexOf_cons_ne2 t (fun hh => hax hh.symm), ih m a h2]

lemma indexOf_map_eq {α β : Type} [BEq α] [LawfulBEq α] [BEq β] [LawfulBEq β]
    (f : α → β) :
    ∀ (l : List α), (l.map f).Nodup → ∀ a ∈ l,
      (l.map f).indexOf (f a) = l.indexOf a := by
  intro l
  induction l with
  | nil =>
    intro _ a ha
    simp at ha
  | cons x t ih =>
    intro hnd a ha
    rw [List.map_cons] at hnd ⊢
    have hcons := List.nodup_cons.mp hnd
    by_cases hax : a = x
    · subst hax
      rw [indexOf_cons_self2, indexOf_cons_self2]
    · have ha2 : a ∈ t := by
        rcases List.mem_cons.mp ha with h1 | h2
        · exact absurd h1 hax
        · exact h2
      have hfx : f x ≠ f a := by
        intro hEq
        exact hcons.1 (hEq ▸ List.mem_map_of_mem f ha2)
      rw [indexOf_cons_ne2 _ hfx, indexOf_cons_ne2 t (fun hh => hax hh.symm),
        ih hcons.2 a ha2]

lemma pairwise_indexOf_lt {α : Type} [BEq α] [LawfulBEq α] {r : α → α → Prop} :
    ∀ {l : List α}, l.Pairwise r → ∀ {a b : α}, a ∈ l → b ∈ l → ¬ r b a →
      a ≠ b → l.indexOf a < l.indexOf b := by
  intro l
  induction l with
  | nil =>
    intro _ a b ha
    simp at ha
  | cons x t ih =>
    intro hp a b ha hb hno hne
    have hhead := (List.pairwise_cons.mp hp).1
    have htail := (List.pairwise_cons.mp hp).2
    by_cases hax : a = x
    · subst hax
      rw [indexOf_cons_self2]
      have hbx : b ≠ a := fun h => hne h.symm
      rcases List.mem_cons.mp hb with h1 | h2
      · exact absurd h1 hbx
      · rw [indexOf_cons_ne2 t (fun hh => hbx hh.symm)]
        omega
    · have ha2 : a ∈ t := by
        rcases List.mem_cons.mp ha with h1 | h2
        · exact absurd h1 hax
        · exact h2
      by_cases hbx : b = x
      · subst hbx
        exact absurd (hhead a ha2) hno
      · have hb2 : b ∈ t := by
          rcases List.mem_cons.mp hb with h1 | h2
          · exact absurd h1 hbx
          · exact h2
        rw [indexOf_cons_ne2 t (fun hh => hax hh.symm),
          indexOf_cons_ne2 t (fun hh => hbx hh.symm)]
        have := ih htail ha2 hb2 hno hne
        omega

lemma sorted_take_map_order {α β : Type} [BEq α] [LawfulBEq α] [BEq β]
    [LawfulBEq β] {r : α → α → Prop} {s : List α} (hp : s.Pairwise r)
    {f : α → β} (hnd : (s.map f).Nodup) {a b : α} (ha : a ∈ s) (hb : b ∈ s)
    (hno : ¬ r b a) (hne : a ≠ b) (n : ℕ)
    (hbmem : f b ∈ (s.take n).map f) :
    f a ∈ (s.take n).map f ∧
      ((s.take n).map f).indexOf (f a) < ((s.take n).map f).indexOf (f b) := by
  obtain ⟨e, he, hfe⟩ := List.mem_map.mp hbmem
  have heS : e ∈ s := List.mem_of_mem_take he
  have heb : e = b := List.inj_on_of_nodup_map hnd heS hb hfe
  subst heb
  have hjb : s.indexOf e < n := mem_take_indexOf s n e he
  have hjab : s.indexOf a < s.indexOf e := pairwise_indexOf_lt hp ha hb hno hne
  have haTake : a ∈ s.take n := indexOf_lt_mem_take s n a ha (by omega)
  refine ⟨List.mem_map_of_mem f haTake, ?_⟩
  have hndTake : ((s.take n).map f).Nodup := by
    rw [List.map_take]
    exact hnd.sublist (List.take_sublist n (s.map f))
  rw [indexOf_map_eq f (s.take n) hndTake a haTake,
    indexOf_map_eq f (s.take n) hndTake e he,
    indexOf_take_eq s n a haTake, indexOf_take_eq s n e he]
  exact hjab

/-- **C7.** In `_rank_search_results`, for two candidates carrying the same
stored semantic distance (`o`), a candidate whose lowered stem equals the
normalized query is ranked strictly above one whose stem contains the query
only as an internal substring (not equal, not a prefix, filename not equal):
whenever the substring candidate appears in the returned list, the exact-stem
candidate appears at a strictly smaller index.  Both candidates are assumed
visible and existing (the loop's own filters), the candidate set maps to
distinct absolute paths, and the query is below difflib's autojunk threshold
of 200 characters, so `SequenceMatcher(None, q, q).ratio() = 1`. -/
theorem search_rank_exact_stem_over_substring
    (archiveDir queryText : String) (fsExists : String → Bool)
    (cached ids : List String) (dists : List (Option ℚ))
    (pA pB : String) (o : Option ℚ)
    (hlen : (pyLower (pyStrip queryText)).data.length < 200)
    (hnq : pyLower (pyStrip queryText) ≠ "")
    (hA : (pA, o) ∈ candidateDistances ids dists cached
      (pyLower (pyStrip queryText)) (_search_tokens (pyLower (pyStrip queryText))))
    (hB : (pB, o) ∈ candidateDistances ids dists cached
      (pyLower (pyStrip queryText)) (_search_tokens (pyLower (pyStrip queryText))))
    (hstemA : fmsStem pA = pyLower (pyStrip queryText))
    (hstemB : fmsStem pB ≠ pyLower (pyStrip queryText))
    (hfnB : fmsFilename pB ≠ pyLower (pyStrip queryText))
    (hpreB : pyStartsWith (fmsStem pB) (pyLower (pyStrip queryText)) = false)
    (hsubB : pyContains (fmsStem pB) (pyLower (pyStrip queryText)) = true)
    (hhidA : _is_hidden_path pA = false)
    (hhidB : _is_hidden_path pB = false)
    (hhidA2 : _is_hidden_path (pyJoinPath archiveDir pA) = false)
    (hhidB2 : _is_hidden_path (pyJoinPath archiveDir pB) = false)
    (hexA : fsExists (pyJoinPath archiveDir pA) = true)
    (hexB : fsExists (pyJoinPath archiveDir pB) = true)
    (hnd : ((candidateDistances ids dists cached (pyLower (pyStrip queryText))
      (_search_tokens (pyLower (pyStrip queryText)))).map
        (fun e => pyJoinPath archiveDir e.1)).Nodup) :
    ∀ nResults : ℕ,
      pyJoinPath archiveDir pB ∈
        _rank_search_results archiveDir fsExists cached queryText ids dists
          nResults →
      pyJoinPath archiveDir pA ∈
        _rank_search_results archiveDir fsExists cached queryText ids dists
          nResults ∧
      (_rank_search_results archiveDir fsExists cached queryText ids dists
        nResults).indexOf (pyJoinPath archiveDir pA) <
      (_rank_search_results archiveDir fsExists cached queryText ids dists
        nResults).indexOf (pyJoinPath archiveDir pB) := by
  intro n hmemB
  have hout : ∀ m : ℕ,
      _rank_search_results archiveDir fsExists cached queryText ids dists m =
      ((List.insertionSort rankGe (scoreEntries archiveDir fsExists
        (pyLower (pyStrip queryText))
        (_search_tokens (pyLower (pyStrip queryText)))
        (_query_prefers_code (_search_tokens (pyLower (pyStrip queryText)))
          (pyLower (pyStrip queryText)))
        (candidateDistances ids dists cached (pyLower (pyStrip queryText))
          (_search_tokens (pyLower (pyStrip queryText)))) [])).take m).map
      (fun e => e.2.2.2.2) := fun m => rfl
  rw [hout n] at hmemB ⊢
  set nq := pyLower (pyStrip queryText) with hnqdef
  set qt := _search_tokens nq with hqtdef
  set pc := _query_prefers_code qt nq with hpcdef
  set cands := candidateDistances ids dists cached nq qt with hcandsdef
  set entries := scoreEntries archiveDir fsExists nq qt pc cands [] with hentriesdef
  set sorted := List.insertionSort rankGe entries with hsorteddef
  have hEA : scoreEntry archiveDir nq qt pc pA o ∈ entries := by
    rw [hentriesdef]
    exact scoreEntries_mem archiveDir fsExists nq qt pc cands [] pA o hA hnd
      hhidA hhidA2 hexA (by simp)
  have hEB : scoreEntry archiveDir nq qt pc pB o ∈ entries := by
    rw [hentriesdef]
    exact scoreEntries_mem archiveDir fsExists nq qt pc cands [] pB o hB hnd
      hhidB hhidB2 hexB (by simp)
  have hperm : List.Perm sorted entries := List.perm_insertionSort rankGe entries
  have hndE : (entries.map (fun e => e.2.2.2.2)).Nodup := by
    rw [hentriesdef]
    exact (scoreEntries_paths archiveDir fsExists nq qt pc cands []).1
  have hndS : (sorted.map (fun e => e.2.2.2.2)).Nodup :=
    ((hperm.map (fun e => e.2.2.2.2)).nodup_iff).mpr hndE
  have hpair : sorted.Pairwise rankGe := List.sorted_insertionSort rankGe entries
  have hfirst : (scoreEntry archiveDir nq qt pc pB o).1 <
      (scoreEntry archiveDir nq qt pc pA o).1 :=
    scoreEntry_first_lt pc hstemA hstemB hfnB hpreB hsubB hnq hlen
  have hno : ¬ rankGe (scoreEntry archiveDir nq qt pc pB o)
      (scoreEntry archiveDir nq qt pc pA o) := by
    intro hcon
    have hcon2 : rankKey (scoreEntry archiveDir nq qt pc pA o) ≤
        rankKey (scoreEntry archiveDir nq qt pc pB o) := hcon
    unfold rankKey at hcon2
    rcases (Prod.Lex.le_iff _ _).mp hcon2 with h1 | ⟨h1, -⟩
    · have h1' : (scoreEntry archiveDir nq qt pc pA o).1 <
          (scoreEntry archiveDir nq qt pc pB o).1 := h1
      linarith
    · have h1' : (scoreEntry archiveDir nq qt pc pA o).1 =
          (scoreEntry archiveDir nq qt pc pB o).1 := h1
      linarith
  have hSA : scoreEntry archiveDir nq qt pc pA o ∈ sorted := hperm.mem_iff.mpr hEA
  have hSB : scoreEntry archiveDir nq qt pc pB o ∈ sorted := hperm.mem_iff.mpr hEB
  have habsne : pyJoinPath archiveDir pA ≠ pyJoinPath archiveDir pB := by
    intro hEq
    have hPAB : pA = pB :=
      congrArg Prod.fst (List.inj_on_of_nodup_map hnd hA hB
        (show pyJoinPath archiveDir (pA, o).1 = pyJoinPath archiveDir (pB, o).1
          from hEq))
    exact hstemB (by rw [← hPAB]; exact hstemA)
  have hne : scoreEntry archiveDir nq qt pc pA o ≠
      scoreEntry archiveDir nq qt pc pB o := by
    intro hc
    exact habsne (congrArg (fun e => e.2.2.2.2) hc)
  have htrans := sorted_take_map_order hpair hndS hSA hSB hno hne n
    (show (fun e => e.2.2.2.2) (scoreEntry archiveDir nq qt pc pB o) ∈
      (sorted.take n).map (fun e => e.2.2.2.2) from hmemB)
  exact ⟨htrans.1, htrans.2⟩

/-- Witness for C7 at a concrete state: query "tax", candidates
`Docs/tax.txt` (stem `tax`) and `Docs/mytaxes.txt` (stem `mytaxes`, containing
`tax` strictly inside), equal distances. -/
theorem search_rank_exact_stem_over_substring_witness :
    fmsStem "Docs/tax.txt" = pyLower (pyStrip "tax") ∧
    pyContains (fmsStem "Docs/mytaxes.txt") (pyLower (pyStrip "tax")) = true ∧
    (∀ nResults : ℕ,
      pyJoinPath "Archive" "Docs/mytaxes.txt" ∈
        _rank_search_results "Archive" (fun _ => true) [] "tax"
          ["Docs/tax.txt", "Docs/mytaxes.txt"] [some 1, some 1] nResults →
      pyJoinPath "Archive" "Docs/tax.txt" ∈
        _rank_search_results "Archive" (fun _ => true) [] "tax"
          ["Docs/tax.txt", "Docs/mytaxes.txt"] [some 1, some 1] nResults ∧
      (_rank_search_results "Archive" (fun _ => true) [] "tax"
        ["Docs/tax.txt", "Docs/mytaxes.txt"] [some 1, some 1] nResults).indexOf
          (pyJoinPath "Archive" "Docs/tax.txt") <
      (_rank_search_results "Archive" (fun _ => true) [] "tax"
        ["Docs/tax.txt", "Docs/mytaxes.txt"] [some 1, some 1] nResults).indexOf
          (pyJoinPath "Archive" "Docs/mytaxes.txt")) :=
  ⟨by decide, by decide,
    search_rank_exact_stem_over_substring "Archive" "tax" (fun _ => true) []
      ["Docs/tax.txt", "Docs/mytaxes.txt"] [some 1, some 1]
      "Docs/tax.txt" "Docs/mytaxes.txt" (some 1)
      (by decide) (by decide) (by decide) (by decide) (by decide) (by decide)
      (by decide) (by decide) (by decide) (by decide) (by decide) (by decide)
      (by decide) (by decide) (by decide) (by decide)⟩

end ArchivePlugin
